import Mathlib

/-!
# ericsuh/adapt: the Aptfile line parser, the armor decoder and `sanitizeFilename`

A shallow embedding of `aptfile/context.go`, `aptfile/lexing.go` and
`aptfile/main.go` (namespace `Aptfile`), of `armor/main.go` (namespace
`Armor`) and of `sanitizeFilename` of `main.go` (namespace `Main`), and
theorems about them.

Modelling conventions.

* A Go `string` is a sequence of bytes: `Str := List Nat`.  Literals of the
  source are ASCII and written `lit "..."`.
* `for i, r := range s` visits the pairs `runes s`: the byte index of each
  rune and the rune that the Go runtime decodes there (`decodeRune`, the
  algorithm of `utf8.DecodeRuneInString`: an invalid or truncated sequence
  yields `RuneError` of width 1).
* Go `int` values (`LineNum`, `ColStart`, `ColEnd`, `bStart`, `eolCol`) are
  `Int`; the columns that the lexer computes on a line that fits in memory
  are far from the bounds of 64 bits, so no computation on them overflows.
  The one computation on the fields of a `FileCoord` that any caller can
  hand over, the difference of `LineAnnotated`, is reduced by `wrapInt`.
* `Parse` and `armor.Parse` are modelled on a run of their `bufio.Scanner`:
  the lines it yields and the error it reports at the end; `scannerRun`
  gives the run over the bytes of an input, with the limit of 64 KiB on the
  length of a line.
* A `uint32` is a natural number, every operation that can leave 32 bits
  reduced modulo `2 ^ 32`.
* A function returning `(T, error)` returns `Except Error T`.  A run-time
  panic (slice bounds out of range) is the distinguished outcome
  `Error.panic`, so that its absence can be stated.
* The order in which `range` visits the entries of a Go map is unspecified:
  every function ranging over a map takes that order as a parameter
  (`RangeOrder`), and theorems quantify over all orders that permute the
  entries.
-/

deriving instance DecidableEq for Except

namespace Aptfile

/-! ## Strings and runes -/

/-- A Go string: a sequence of bytes. -/
abbrev Str := List Nat

/-- The bytes of an ASCII string literal of the source. -/
def lit (s : String) : Str := s.toList.map Char.toNat

/-- The rune `utf8.RuneError` (U+FFFD). -/
def RuneError : Nat := 0xFFFD

/-- Number of bytes announced by a leading byte in `0xC2..0xF4`
(`first[s0] & 7` in package `unicode/utf8`). -/
def runeSize (s0 : Nat) : Nat :=
  if s0 < 0xE0 then 2 else if s0 < 0xF0 then 3 else 4

/-- Lower bound of the second byte (`acceptRanges[first[s0] >> 4].lo`). -/
def acceptLo (s0 : Nat) : Nat :=
  if s0 = 0xE0 then 0xA0 else if s0 = 0xF0 then 0x90 else 0x80

/-- Upper bound of the second byte (`acceptRanges[first[s0] >> 4].hi`). -/
def acceptHi (s0 : Nat) : Nat :=
  if s0 = 0xED then 0x9F else if s0 = 0xF4 then 0x8F else 0xBF

/-- Decoding of the first rune of a string, `utf8.DecodeRuneInString`:
the rune and its width in bytes.  The bytes `s[1]`, `s[2]` and `s[3]` are
read only after the check `n < sz`, so they exist where they are used. -/
def decodeRune : Str → Nat × Nat
  | [] => (RuneError, 0)
  | s0 :: rest =>
    let s1 := rest.getD 0 0
    let s2 := rest.getD 1 0
    let s3 := rest.getD 2 0
    if s0 < 0x80 then (s0, 1)
    else if s0 < 0xC2 ∨ 0xF4 < s0 then (RuneError, 1)
    else if rest.length + 1 < runeSize s0 then (RuneError, 1)
    else if s1 < acceptLo s0 ∨ acceptHi s0 < s1 then (RuneError, 1)
    else if runeSize s0 ≤ 2 then ((s0 % 32) * 64 + s1 % 64, 2)
    else if s2 < 0x80 ∨ 0xBF < s2 then (RuneError, 1)
    else if runeSize s0 ≤ 3 then
      ((s0 % 16) * 4096 + (s1 % 64) * 64 + s2 % 64, 3)
    else if s3 < 0x80 ∨ 0xBF < s3 then (RuneError, 1)
    else
      ((s0 % 8) * 262144 + (s1 % 64) * 4096 + (s2 % 64) * 64 + s3 % 64, 4)

/-- The iterations of `for i, r := range s` over the bytes that remain:
`i` is the index of the next byte, `skip` the number of bytes still
belonging to the rune decoded last. -/
def runesAux : Str → Nat → Nat → List (Nat × Nat)
  | [], _, _ => []
  | _ :: rest, i, skip + 1 => runesAux rest (i + 1) skip
  | b :: rest, i, 0 =>
    (i, (decodeRune (b :: rest)).1)
      :: runesAux rest (i + 1) ((decodeRune (b :: rest)).2 - 1)

/-- The pairs (byte index, rune) visited by `for i, r := range s`. -/
def runes (s : Str) : List (Nat × Nat) := runesAux s 0 0

/-- The predicate `unicode.IsSpace`. -/
def IsSpace (r : Nat) : Bool :=
  if r ≤ 0xFF then
    r = 0x09 ∨ r = 0x0A ∨ r = 0x0B ∨ r = 0x0C ∨ r = 0x0D ∨ r = 0x20
      ∨ r = 0x85 ∨ r = 0xA0
  else
    r = 0x1680 ∨ (0x2000 ≤ r ∧ r ≤ 0x200A) ∨ r = 0x2028 ∨ r = 0x2029
      ∨ r = 0x202F ∨ r = 0x205F ∨ r = 0x3000

/-! ## context.go -/

/-- A span of columns on a source line (`FileCoord`). -/
structure FileCoord where
  Line : Str
  LineNum : Int
  ColStart : Int
  ColEnd : Int
  deriving DecidableEq, Repr

/-! ## lexing.go -/

/-- An error with the place it was found at (`ParseError`). -/
structure ParseError where
  Message : Str
  Coord : FileCoord
  deriving DecidableEq, Repr

/-- The cause recorded in a `*strconv.NumError`. -/
inductive NumErr where
  | ErrSyntax
  | ErrRange
  deriving DecidableEq, Repr

/-- The error values the parser can return, and the run-time panic. -/
inductive Error where
  /-- The sentinel `ErrNoDirective`. -/
  | ErrNoDirective
  /-- A `ParseError` value. -/
  | parse (e : ParseError)
  /-- An error made by `errors.New` or `fmt.Errorf`, with its message. -/
  | errorf (msg : Str)
  /-- A `*strconv.NumError` of the function `fn` on the input `num`. -/
  | numError (fn num : Str) (err : NumErr)
  /-- A run-time panic (index or slice bounds out of range): not a returned
  value, the call does not return. -/
  | panic
  /-- Not a value of the program: the outcome of a loop of the model that
  used up its iteration bound. -/
  | diverge
  deriving DecidableEq, Repr

/-- Slice `c.Line[c.ColStart:c.ColEnd]`; it panics when the bounds are not
`0 ≤ ColStart ≤ ColEnd ≤ len(Line)`. -/
def FileCoord.Text (c : FileCoord) : Except Error Str :=
  if 0 ≤ c.ColStart ∧ c.ColStart ≤ c.ColEnd ∧ c.ColEnd ≤ c.Line.length then
    .ok ((c.Line.drop c.ColStart.toNat).take (c.ColEnd - c.ColStart).toNat)
  else
    .error .panic

/-- The digits of `n` in base 10, most significant first; the first
argument bounds the number of digits. -/
def decimalAux : Nat → Nat → Str
  | 0, _ => []
  | fuel + 1, n =>
    if n < 10 then [0x30 + n] else decimalAux fuel (n / 10) ++ [0x30 + n % 10]

/-- The verb `%d` of package `fmt` on a natural number: `n + 1` digits are
more than `n` has. -/
def fmtNat (n : Nat) : Str := decimalAux (n + 1) n

/-- The verb `%d` of package `fmt` on an `int`. -/
def fmtInt (z : Int) : Str :=
  if z < 0 then 0x2D :: fmtNat z.natAbs else fmtNat z.toNat

/-- The call `strings.Repeat(s, count)` for a string `s` of the one byte `b`;
it panics on a negative count.  The result is taken to fit in memory. -/
def Repeat (b : Nat) (count : Int) : Except Error Str :=
  if count < 0 then .error .panic else .ok (List.replicate count.toNat b)

/-- The value of an expression of type `int` (64 bits) whose mathematical
value is `z`: the value wraps around when it leaves the range of `int`. -/
def wrapInt (z : Int) : Int := (z + 2 ^ 63) % 2 ^ 64 - 2 ^ 63

/-- The method `FileCoord.LineAnnotated`: the format
`"%s | %s\n%s   %s%s %s"` filled with its six arguments.  The difference
`c.ColEnd-c.ColStart` is computed in `int`. -/
def FileCoord.LineAnnotated (c : FileCoord) (message : Str) : Except Error Str := do
  let lineNum := fmtInt c.LineNum
  let pad ← Repeat 0x20 lineNum.length
  let indent ← Repeat 0x20 c.ColStart
  let carets ← Repeat 0x5E (max (wrapInt (c.ColEnd - c.ColStart)) 1)
  pure (lineNum ++ lit " | " ++ c.Line ++ lit "\n" ++ pad ++ lit "   " ++ indent
    ++ carets ++ lit " " ++ message)

/-- The method `ParseError.Error`. -/
def ParseError.Error (e : ParseError) : Except Error Str :=
  e.Coord.LineAnnotated e.Message

/-- Token kind `StringToken`. -/
def StringToken : Nat := 0

/-- Token kind `CommaToken`. -/
def CommaToken : Nat := 1

/-- Token kind `ColonToken`. -/
def ColonToken : Nat := 2

/-- A lexical token (`Token`). -/
structure Token where
  Typ : Nat
  Coord : FileCoord
  deriving DecidableEq, Repr

/-- Text of a token, `Token.Text`. -/
def Token.Text (t : Token) : Except Error Str := t.Coord.Text

/-- The variables of `lexLine` that its loop updates. -/
structure LexState where
  toks : List Token
  bStart : Int
  quoted : Bool
  deriving DecidableEq, Repr

/-- The closure `pushAccumulatedToken` of `lexLine`, on the variables `toks`
and `bStart` it captures. -/
def pushAccumulatedToken (coord : FileCoord) (st : LexState) (e : Int)
    (force : Bool) : Except Error LexState :=
  if force = true ∨ (st.bStart ≥ 0 ∧ e - st.bStart > 0) then do
    let c : FileCoord :=
      { Line := coord.Line, LineNum := coord.LineNum,
        ColStart := st.bStart, ColEnd := e }
    let text ← c.Text
    let t :=
      if text = lit "," then CommaToken
      else if text = lit ":" then ColonToken
      else StringToken
    pure { st with toks := st.toks ++ [{ Typ := t, Coord := c }], bStart := -1 }
  else
    pure st

/-- The error returned for a quote in column 0. -/
def quotedCommandError (coord : FileCoord) : Error :=
  .parse
    { Coord := { Line := coord.Line, LineNum := coord.LineNum,
                 ColStart := 0, ColEnd := 1 },
      Message := lit "cannot quote directive command" }

/-- The loop `looping` of `lexLine` over the remaining iterations.  The
result is the state at the exit of the loop and the value of `eolCol`
(still `-1` unless the loop was left at a `#`). -/
def lexLoop (coord : FileCoord) :
    List (Nat × Nat) → LexState → Except Error (LexState × Int)
  | [], st => pure (st, -1)
  | (i, r) :: rest, st =>
    if st.quoted then
      if r = 0x22 then do
        let st1 ← pushAccumulatedToken coord st i true
        lexLoop coord rest { st1 with quoted := false }
      else
        lexLoop coord rest st
    else if r = 0x22 then
      if i = 0 then
        throw (quotedCommandError coord)
      else do
        let st1 ← pushAccumulatedToken coord st i false
        lexLoop coord rest { st1 with quoted := true, bStart := i + 1 }
    else if r = 0x23 then do
      let st1 ← pushAccumulatedToken coord st i false
      pure (st1, i)
    else if r = 0x3A then do
      let st1 ← pushAccumulatedToken coord st i false
      let st2 ← pushAccumulatedToken coord { st1 with bStart := i } (i + 1) false
      lexLoop coord rest st2
    else if r = 0x2C then do
      let st1 ← pushAccumulatedToken coord st i false
      let st2 ← pushAccumulatedToken coord { st1 with bStart := i } (i + 1) false
      lexLoop coord rest st2
    else if IsSpace r then do
      let st1 ← pushAccumulatedToken coord st i false
      lexLoop coord rest st1
    else
      lexLoop coord rest (if st.bStart < 0 then { st with bStart := i } else st)

/-- The function `lexLine`. -/
def lexLine (coord : FileCoord) : Except Error (List Token) := do
  let (st, eolCol0) ←
    lexLoop coord (runes coord.Line) { toks := [], bStart := -1, quoted := false }
  let eolCol : Int := if eolCol0 < 0 then coord.Line.length else eolCol0
  if st.quoted then
    throw (.parse
      { Coord := { Line := coord.Line, LineNum := coord.LineNum,
                   ColStart := st.bStart, ColEnd := eolCol },
        Message := lit "unclosed quotes" })
  else do
    let st1 ← pushAccumulatedToken coord st eolCol false
    pure st1.toks

/-! ## main.go: directives and validators -/

/-- The struct `PackageDirective`. -/
structure PackageDirective where
  Name : Str
  Version : Str
  Release : Str
  deriving DecidableEq, Repr

/-- The struct `PinDirective`; `Priority` is an `int32`. -/
structure PinDirective where
  Priority : Int
  PackageName : Str
  Version : Str
  Origin : Str
  Release : Str
  deriving DecidableEq, Repr

/-- The struct `PpaDirective`. -/
structure PpaDirective where
  Name : Str
  deriving DecidableEq, Repr

/-- The struct `RepoDirective`. -/
structure RepoDirective where
  IsSrc : Bool
  Arch : Str
  SignedBy : Str
  Suite : Str
  Component : Str
  URL : Str
  deriving DecidableEq, Repr

/-- The struct `DebFileDirective`. -/
structure DebFileDirective where
  Path : Str
  deriving DecidableEq, Repr

/-- The struct `HoldDirective`. -/
structure HoldDirective where
  PackageName : Str
  deriving DecidableEq, Repr

/-- The dynamic value (`any`) that `ParseLine` returns without error: one
of the six directive structs. -/
inductive Directive where
  | package (d : PackageDirective)
  | pin (d : PinDirective)
  | ppa (d : PpaDirective)
  | repo (d : RepoDirective)
  | deb (d : DebFileDirective)
  | hold (d : HoldDirective)
  deriving DecidableEq, Repr

/-- A Go `map[string]string`: its entries, the keys pairwise distinct. -/
abbrev Opts := List (Str × Str)

/-- The assignment `opts[k] = v`. -/
def optsSet : Opts → Str → Str → Opts
  | [], k, v => [(k, v)]
  | (k0, v0) :: rest, k, v =>
    if k0 = k then (k, v) :: rest else (k0, v0) :: optsSet rest k v

/-- The lookup `v, ok := opts[k]`. -/
def optsGet : Opts → Str → Option Str
  | [], _ => none
  | (k0, v0) :: rest, k => if k0 = k then some v0 else optsGet rest k

/-- The order in which a `range` statement visits the entries of a map; Go
leaves it unspecified. -/
abbrev RangeOrder := Opts → List (Str × Str)

/-- A range order visits every entry of the map exactly once. -/
def RangeOrder.Valid (ρ : RangeOrder) : Prop := ∀ m : Opts, (ρ m).Perm m

/-- Index expression `l[i]`; it panics when `i` is out of range. -/
def idx {α : Type} (l : List α) (i : Nat) : Except Error α :=
  match l[i]? with
  | some a => .ok a
  | none => .error .panic

/-- The verb `%v` of package `fmt` on a `[]string`. -/
def fmtStrings (args : List Str) : Str :=
  lit "[" ++ (lit " ").intercalate args ++ lit "]"

/-- Comparison `a < b` of two Go strings. -/
def strLt : Str → Str → Bool
  | [], [] => false
  | [], _ :: _ => true
  | _ :: _, [] => false
  | a :: as, b :: bs => if a < b then true else if b < a then false else strLt as bs

/-- Insertion of an entry into a list of entries sorted by key. -/
def insertEntry (e : Str × Str) : List (Str × Str) → List (Str × Str)
  | [] => [e]
  | x :: xs => if strLt x.1 e.1 then x :: insertEntry e xs else e :: x :: xs

/-- The verb `%v` of package `fmt` on a `map[string]string`: the entries
sorted by key. -/
def fmtMap (m : Opts) : Str :=
  lit "map[" ++
    (lit " ").intercalate
      ((m.foldr insertEntry []).map fun e => e.1 ++ lit ":" ++ e.2)
    ++ lit "]"

/-- Split at the first byte `sep`: the parts before and after it. -/
def cutByte (sep : Nat) : Str → Option (Str × Str)
  | [] => none
  | b :: rest =>
    if b = sep then some ([], rest)
    else (cutByte sep rest).map fun p => (b :: p.1, p.2)

/-- The call `strings.SplitN(s, sep, 2)` for a separator of one byte. -/
def SplitN2 (s : Str) (sep : Nat) : List Str :=
  match cutByte sep s with
  | some (a, b) => [a, b]
  | none => [s]

/-- Value of one byte as a digit in `strconv.ParseUint`: decimal digits,
then letters of either case from 10 on. -/
def digitVal (c : Nat) : Option Nat :=
  if 0x30 ≤ c ∧ c ≤ 0x39 then some (c - 0x30)
  else if 0x61 ≤ (c ||| 0x20) ∧ (c ||| 0x20) ≤ 0x7A then
    some ((c ||| 0x20) - 0x61 + 10)
  else none

/-- The digit loop of `strconv.ParseUint(s, 10, 32)` on the bytes that
remain, `n` being the `uint64` accumulated so far. -/
def parseUintLoop : Str → Nat → Except NumErr Nat
  | [], n => .ok n
  | c :: cs, n =>
    match digitVal c with
    | none => .error .ErrSyntax
    | some d =>
      if d ≥ 10 then .error .ErrSyntax
      else if n ≥ (2 ^ 64 - 1) / 10 + 1 then .error .ErrRange
      else
        let n10 := n * 10 % 2 ^ 64
        let n1 := (n10 + d) % 2 ^ 64
        if n1 < n10 ∨ n1 > 2 ^ 32 - 1 then .error .ErrRange
        else parseUintLoop cs n1

/-- The call `strconv.ParseUint(s, 10, 32)`, with the cause of its error. -/
def ParseUint (s : Str) : Except NumErr Nat :=
  if s = [] then .error .ErrSyntax else parseUintLoop s 0

/-- The end of `strconv.ParseInt(s, 10, 32)`: the check of the unsigned
value `un` against the range of 32 bits, and the sign. -/
def signedResult (s : Str) (neg : Bool) (un : Nat) : Except Error Int :=
  if neg = false ∧ un ≥ 2 ^ 31 then
    .error (.numError (lit "ParseInt") s .ErrRange)
  else if neg = true ∧ un > 2 ^ 31 then
    .error (.numError (lit "ParseInt") s .ErrRange)
  else .ok (if neg then - (un : Int) else (un : Int))

/-- The call `strconv.ParseInt(s, 10, 32)`.  On a range error `ParseUint`
returns the largest value of 32 bits, which `ParseInt` then rejects. -/
def ParseInt (s : Str) : Except Error Int :=
  match s with
  | [] => .error (.numError (lit "ParseInt") s .ErrSyntax)
  | c :: cs =>
    let neg : Bool := c = 0x2D
    let s1 := if c = 0x2B then cs else if c = 0x2D then cs else s
    match ParseUint s1 with
    | .error .ErrSyntax => .error (.numError (lit "ParseInt") s .ErrSyntax)
    | .error .ErrRange => signedResult s neg (2 ^ 32 - 1)
    | .ok un => signedResult s neg un

/-- The conversion `int32(x)` of an `int64`. -/
def toInt32 (x : Int) : Int := (x + 2 ^ 31) % 2 ^ 32 - 2 ^ 31

/-- The function `parsePackageDirective`.  Every branch of the loop over
`opts` returns, so only the entry visited first is looked at. -/
def parsePackageDirective (ρ : RangeOrder) (_cmd : Str) (args : List Str)
    (opts : Opts) : Except Error PackageDirective :=
  if args.length ≠ 1 then
    .error (.errorf (lit "expected only one argument, got " ++ fmtStrings args))
  else do
    let name ← idx args 0
    match ρ opts with
    | (k, v) :: _ =>
      if k = lit "version" then
        pure { Name := name, Version := v, Release := [] }
      else if k = lit "release" then
        pure { Name := name, Version := [], Release := v }
      else
        throw (.errorf (lit "unknown package option: " ++ k))
    | [] =>
      let pieces := SplitN2 name 0x3D
      if pieces.length = 2 then do
        let p0 ← idx pieces 0
        let p1 ← idx pieces 1
        pure { Name := p0, Version := p1, Release := [] }
      else
        let pieces := SplitN2 name 0x2F
        if pieces.length = 2 then do
          let p0 ← idx pieces 0
          let p1 ← idx pieces 1
          pure { Name := p0, Version := [], Release := p1 }
        else
          pure { Name := name, Version := [], Release := [] }

/-- The function `parsePinDirective`.  Every branch of the loop over `opts`
returns, so only the entry visited first is looked at. -/
def parsePinDirective (ρ : RangeOrder) (_cmd : Str) (args : List Str)
    (opts : Opts) : Except Error PinDirective :=
  if args.length ≠ 2 then
    .error (.errorf (lit "expected two positional arguments"))
  else do
    let a1 ← idx args 1
    let pri ← ParseInt a1
    let a0 ← idx args 0
    let dir : PinDirective :=
      { PackageName := a0, Priority := toInt32 pri,
        Version := [], Origin := [], Release := [] }
    match ρ opts with
    | (k, v) :: _ =>
      if k = lit "version" then pure { dir with Version := v }
      else if k = lit "origin" then pure { dir with Origin := v }
      else if k = lit "release" then pure { dir with Release := v }
      else throw (.errorf (lit "unknown pin option " ++ k))
    | [] => pure dir

/-- The function `parsePpaDirective`. -/
def parsePpaDirective (_cmd : Str) (args : List Str) (opts : Opts) :
    Except Error PpaDirective :=
  if args.length ≠ 1 then
    .error (.errorf (lit "expected one argument, got " ++ fmtStrings args))
  else if opts.length > 0 then
    .error (.errorf (lit "unexpected options " ++ fmtMap opts))
  else do
    let a0 ← idx args 0
    pure { Name := a0 }

/-- The loop of `parseRepoDirective` over the entries of `opts` still to be
visited. -/
def repoOptions : List (Str × Str) → RepoDirective → Except Error RepoDirective
  | [], dir => .ok dir
  | (k, v) :: rest, dir =>
    if k = lit "arch" then repoOptions rest { dir with Arch := v }
    else if k = lit "signed-by" then repoOptions rest { dir with SignedBy := v }
    else .error (.errorf (lit "unexpected option \"" ++ k ++ lit "\""))

/-- The function `parseRepoDirective`. -/
def parseRepoDirective (ρ : RangeOrder) (cmd : Str) (args : List Str)
    (opts : Opts) : Except Error RepoDirective :=
  if args.length = 0 then
    .error (.errorf (lit "expected at least one argument"))
  else do
    let a0 ← idx args 0
    let dir : RepoDirective :=
      { IsSrc := cmd = lit "repo-src", URL := a0,
        Arch := [], SignedBy := [], Suite := [], Component := [] }
    let dir ← if args.length ≥ 2 then do
        let a1 ← idx args 1
        pure { dir with Suite := a1 }
      else pure dir
    let dir ← if args.length ≥ 3 then do
        let a2 ← idx args 2
        pure { dir with Component := a2 }
      else pure dir
    repoOptions (ρ opts) dir

/-- The function `parseDebFileDirective`. -/
def parseDebFileDirective (_cmd : Str) (args : List Str) (opts : Opts) :
    Except Error DebFileDirective :=
  if args.length ≠ 1 then
    .error (.errorf (lit "expected one argument, got " ++ fmtStrings args))
  else if opts.length > 0 then
    .error (.errorf (lit "unexpected options " ++ fmtMap opts))
  else do
    let a0 ← idx args 0
    pure { Path := a0 }

/-- The function `parseHoldDirective`. -/
def parseHoldDirective (_cmd : Str) (args : List Str) (opts : Opts) :
    Except Error HoldDirective :=
  if args.length ≠ 1 then
    .error (.errorf (lit "expected one argument, got " ++ fmtStrings args))
  else if opts.length > 0 then
    .error (.errorf (lit "unexpected options " ++ fmtMap opts))
  else do
    let a0 ← idx args 0
    pure { PackageName := a0 }

/-! ## main.go: `ParseLine` -/

/-- The loop `for curr < len(toks)` of `ParseLine`, with its variables
`curr`, `optsPhase`, `args` and `opts`; the result is the value of `args`
and `opts` at the exit of the loop.  The first argument bounds the number
of iterations. -/
def parseLoop (line : Str) (lineNum : Int) (toks : List Token) :
    Nat → Nat → Bool → List Str → Opts → Except Error (List Str × Opts)
  | 0, _, _, _, _ => .error .diverge
  | fuel + 1, curr, optsPhase, args, opts =>
    if curr < toks.length then
      if optsPhase then
        if curr + 3 ≥ toks.length then do
          let tc ← idx toks curr
          let tl ← idx toks (toks.length - 1)
          throw (.parse
            { Message := lit "expected option, got end of line",
              Coord := { Line := line, LineNum := lineNum,
                         ColStart := tc.Coord.ColStart,
                         ColEnd := tl.Coord.ColEnd } })
        else do
          let t0 ← idx toks curr
          let t1 ← idx toks (curr + 1)
          let t2 ← idx toks (curr + 2)
          let t3 ← idx toks (curr + 3)
          if t0.Typ = CommaToken ∧ t1.Typ = StringToken
              ∧ t2.Typ = ColonToken ∧ t3.Typ = StringToken then do
            let k ← t1.Text
            let v ← t3.Text
            parseLoop line lineNum toks fuel (curr + 4) true args (optsSet opts k v)
          else do
            let te ← idx toks (min (curr + 3) (toks.length - 1))
            throw (.parse
              { Message := lit "expected key-value pair",
                Coord := { Line := line, LineNum := lineNum,
                           ColStart := t0.Coord.ColStart,
                           ColEnd := te.Coord.ColEnd } })
      else do
        let t ← idx toks curr
        if t.Typ = CommaToken then
          parseLoop line lineNum toks fuel curr true args opts
        else if t.Typ = ColonToken then
          throw (.parse { Message := lit "unexpected colon", Coord := t.Coord })
        else do
          let a ← t.Text
          parseLoop line lineNum toks fuel (curr + 1) false (args ++ [a]) opts
    else
      pure (args, opts)

/-- The `switch cmd` statement that ends `ParseLine`. -/
def dispatch (ρ : RangeOrder) (cmd : Str) (args : List Str) (opts : Opts) :
    Except Error Directive :=
  if cmd = lit "repo" ∨ cmd = lit "repo-src" then
    (parseRepoDirective ρ cmd args opts).map .repo
  else if cmd = lit "package" then
    (parsePackageDirective ρ cmd args opts).map .package
  else if cmd = lit "deb" then
    (parseDebFileDirective cmd args opts).map .deb
  else if cmd = lit "ppa" then
    (parsePpaDirective cmd args opts).map .ppa
  else if cmd = lit "pin" then
    (parsePinDirective ρ cmd args opts).map .pin
  else if cmd = lit "hold" then
    (parseHoldDirective cmd args opts).map .hold
  else
    .error (.errorf (lit "unexpected directive \"" ++ cmd ++ lit "\""))

/-- The part of `ParseLine` that follows the call of `lexLine`.  Every
iteration of the loop but one advances `curr`, so `len(toks) + 1`
iterations suffice. -/
def parseTokens (ρ : RangeOrder) (lineNum : Int) (line : Str)
    (toks : List Token) : Except Error Directive :=
  if toks.length = 0 then .error .ErrNoDirective
  else do
    let t0 ← idx toks 0
    if t0.Typ ≠ StringToken then
      throw (.parse { Message := lit "expected string value", Coord := t0.Coord })
    else do
      let cmd ← t0.Text
      let (args, opts) ←
        parseLoop line lineNum toks (toks.length + 1) 1 false [] []
      dispatch ρ cmd args opts

/-- The function `ParseLine`. -/
def ParseLine (ρ : RangeOrder) (lineNum : Int) (line : Str) :
    Except Error Directive := do
  let toks ← lexLine { Line := line, LineNum := lineNum, ColStart := 0, ColEnd := 0 }
  parseTokens ρ lineNum line toks

/-- The loop `for s.Scan()` of `Parse` over the lines that the scanner still
yields, with the variables `lineNum` and `result`.  The value is the pair
that `Parse` returns: the directives and the error, `none` for `nil`.  An
outcome of `ParseLine` that is not a returned value (`Error.panic`) ends the
loop like an error. -/
def parseLines (ρ : Nat → RangeOrder) :
    List Str → Nat → List Directive → List Directive × Option Error
  | [], _, result => (result, none)
  | line :: rest, lineNum, result =>
    match ParseLine (ρ lineNum) lineNum line with
    | .error .ErrNoDirective => parseLines ρ rest (lineNum + 1) result
    | .error err => ([], some err)
    | .ok dir => parseLines ρ rest (lineNum + 1) (result ++ [dir])

/-- The function `Parse` on a run of its `bufio.Scanner`: `lines` are the
texts that `s.Text()` yields while `s.Scan()` returns true, and `scanErr` is
the value of `s.Err()` after the loop, `none` for `nil`, else the message of
the error (`bufio.ErrTooLong`, or an error of the reader; it is no value of
package `aptfile`).  `ρ k` is the order of iteration of the options of the
line numbered `k`. -/
def Parse (ρ : Nat → RangeOrder) (lines : List Str) (scanErr : Option Str) :
    List Directive × Option Error :=
  match parseLines ρ lines 0 [] with
  | (_, some err) => ([], some err)
  | (result, none) =>
    match scanErr with
    | some msg => ([], some (.errorf msg))
    | none => (result, none)

/-- The constant `bufio.MaxScanTokenSize`, the largest size of the buffer of
a `bufio.Scanner` made by `bufio.NewScanner`. -/
def MaxScanTokenSize : Nat := 64 * 1024

/-- The message of `bufio.ErrTooLong`. -/
def ErrTooLong : Str := lit "bufio.Scanner: token too long"

/-- The function `dropCR` of package `bufio`: a trailing `\r` is dropped. -/
def dropCR (data : Str) : Str :=
  if data.getLast? = some 0x0D then data.dropLast else data

/-- The run of a `bufio.Scanner` with the split function `bufio.ScanLines`
over the bytes `data` that remain of the input, read from a reader that
delivers the bytes and then reports the end of the input with no other
error: the texts yielded and the value of `s.Err()`.  A line is found when
its bytes and its `\n` fit the buffer of `MaxScanTokenSize` bytes; a last
line without `\n` is yielded at the end of the input when it does not fill
the buffer; otherwise the scanner stops with `bufio.ErrTooLong`.  The first
argument bounds the number of lines. -/
def scannerLoop : Nat → Str → List Str × Option Str
  | 0, _ => ([], none)
  | fuel + 1, data =>
    if data = [] then ([], none)
    else
      match cutByte 0x0A data with
      | some (line, rest) =>
        if line.length + 1 ≤ MaxScanTokenSize then
          (dropCR line :: (scannerLoop fuel rest).1, (scannerLoop fuel rest).2)
        else ([], some ErrTooLong)
      | none =>
        if data.length < MaxScanTokenSize then ([dropCR data], none)
        else ([], some ErrTooLong)

/-- The run of the scanner over the bytes of a manifest; every line holds at
least one byte, its `\n` or the last byte of the input, so `len(data) + 1`
iterations suffice. -/
def scannerRun (data : Str) : List Str × Option Str := scannerLoop (data.length + 1) data

/-! ## Notions of the specification -/

/-- The text that a token spans: the bytes of its line from `ColStart` up to
`ColEnd`. -/
def Token.span (t : Token) : Str :=
  (t.Coord.Line.drop t.Coord.ColStart.toNat).take
    (t.Coord.ColEnd - t.Coord.ColStart).toNat

/-- The columns of a token lie on its line:
`0 ≤ ColStart ≤ ColEnd ≤ len(Line)`. -/
def Token.InBounds (t : Token) : Prop :=
  0 ≤ t.Coord.ColStart ∧ t.Coord.ColStart ≤ t.Coord.ColEnd
    ∧ t.Coord.ColEnd ≤ t.Coord.Line.length

/-- What the lexer guarantees of each token it returns: its columns lie on
the line and its kind is one of the three constants. -/
def TokOK (t : Token) : Prop :=
  t.InBounds ∧ (t.Typ = StringToken ∨ t.Typ = CommaToken ∨ t.Typ = ColonToken)

/-- Four consecutive tokens read as one option. -/
structure OptionGroup where
  comma : Token
  key : Token
  colon : Token
  value : Token

/-- The four tokens of a group, in source order. -/
def OptionGroup.toks (g : OptionGroup) : List Token :=
  [g.comma, g.key, g.colon, g.value]

/-- The tokens of a sequence of groups, in source order. -/
def groupsToks : List OptionGroup → List Token
  | [] => []
  | g :: gs => g.toks ++ groupsToks gs

/-- The kinds of a group are Comma, String, Colon, String. -/
def OptionGroup.WellFormed (g : OptionGroup) : Prop :=
  g.comma.Typ = CommaToken ∧ g.key.Typ = StringToken
    ∧ g.colon.Typ = ColonToken ∧ g.value.Typ = StringToken

instance (g : OptionGroup) : Decidable g.WellFormed := by
  unfold OptionGroup.WellFormed
  infer_instance

instance (t : Token) : Decidable t.InBounds := by
  unfold Token.InBounds
  infer_instance

/-- The mapping built from the key/value pairs of the groups, entered in
source order into the map `m`. -/
def mapOf (gs : List OptionGroup) (m : Opts) : Opts :=
  gs.foldl (fun m g => optsSet m g.key.span g.value.span) m

/-- A character that is not whitespace, `,`, `:`, `"` or `#`. -/
def isWordRune (r : Nat) : Bool :=
  r ≠ 0x22 ∧ r ≠ 0x23 ∧ r ≠ 0x3A ∧ r ≠ 0x2C ∧ IsSpace r = false

/-- A text made only of characters that are not whitespace, `,`, `:`, `"`
or `#`, the characters being the runes that `range` decodes. -/
def IsWord (w : Str) : Prop := ∀ p ∈ runes w, isWordRune p.2 = true

/-- A text made only of whitespace characters. -/
def IsBlank (w : Str) : Prop := ∀ p ∈ runes w, IsSpace p.2 = true

instance (w : Str) : Decidable (IsWord w) := by
  unfold IsWord
  infer_instance

instance (w : Str) : Decidable (IsBlank w) := by
  unfold IsBlank
  infer_instance

/-- The tokens of the command word `c` at the start of the line `line`:
one String token over the columns of `c`, none when `c` is empty. -/
def commandToks (c line : Str) (lineNum : Int) : List Token :=
  if c = [] then [] else
    [{ Typ := StringToken,
       Coord := { Line := line, LineNum := lineNum, ColStart := 0, ColEnd := c.length } }]

/-- A byte that is a decimal digit. -/
def isDigit (c : Nat) : Bool := 0x30 ≤ c ∧ c ≤ 0x39

/-- The number written by a sequence of decimal digits, continuing from the
value `n` of the digits before them. -/
def digitsValue (ds : Str) (n : Nat) : Nat :=
  ds.foldl (fun a c => 10 * a + (c - 0x30)) n

/-- The integer that a text denotes when it is an optional sign followed by
one or more decimal digits, and `none` for any other text. -/
def decimalInt (p : Str) : Option Int :=
  let body : Str :=
    match p with
    | [] => []
    | c :: cs => if c = 0x2B ∨ c = 0x2D then cs else p
  if body ≠ [] ∧ body.all isDigit then
    some (if p.head? = some 0x2D then - (digitsValue body 0 : Int)
          else (digitsValue body 0 : Int))
  else none

/-- The kind that a token of the given text gets: Comma for `,`, Colon for
`:`, String for any other text. -/
def tokenKind (text : Str) : Nat :=
  if text = lit "," then CommaToken
  else if text = lit ":" then ColonToken
  else StringToken

/-- A token of the line of `coord`: it carries that line and its number,
its columns lie on the line, and its kind is the kind of its text. -/
def TokFrom (coord : FileCoord) (t : Token) : Prop :=
  t.Coord.Line = coord.Line ∧ t.Coord.LineNum = coord.LineNum ∧ t.InBounds
    ∧ t.Typ = tokenKind t.span

/-- Where a scan of a line stands: outside quotes and comments, inside a
quoted string opened by the `"` at byte index `q`, or inside a comment. -/
inductive Mode where
  | plain
  | quoted (q : Nat)
  | comment
  deriving DecidableEq, Repr

/-- The mode after the character `b` at index `i`: a `"` opens or closes a
quoted string, a `#` outside quotes starts a comment, which lasts to the end
of the line. -/
def Mode.step (m : Mode) (i b : Nat) : Mode :=
  match m with
  | .plain => if b = 0x22 then .quoted i else if b = 0x23 then .comment else .plain
  | .quoted q => if b = 0x22 then .plain else .quoted q
  | .comment => .comment

/-- The mode after the bytes `s`, the first of them at index `i`. -/
def scanFrom : Str → Nat → Mode → Mode
  | [], _, m => m
  | b :: s, i, m => scanFrom s (i + 1) (m.step i b)

/-- The mode at the end of a line. -/
def modeAfter (line : Str) : Mode := scanFrom line 0 .plain

/-- The mode after the runes of a `range` loop. -/
def runeScan : List (Nat × Nat) → Mode → Mode
  | [], m => m
  | (i, r) :: l, m => runeScan l (m.step i r)

/-- The number of decimal digits of an integer, its sign not counted. -/
def numDigits (z : Int) : Nat := (fmtNat z.natAbs).length

/-- The directives of the lines that yield one, in source order, the first
line being numbered `start`. -/
def directivesOf (ρ : Nat → RangeOrder) : List Str → Nat → List Directive
  | [], _ => []
  | line :: rest, start =>
    match ParseLine (ρ start) start line with
    | .ok dir => dir :: directivesOf ρ rest (start + 1)
    | .error _ => directivesOf ρ rest (start + 1)

/-- The result of `ParseLine` does not stop `Parse`: it is a directive or
the sentinel `ErrNoDirective`. -/
def Passes (r : Except Error Directive) : Prop :=
  match r with
  | .ok _ => True
  | .error .ErrNoDirective => True
  | .error _ => False

instance (r : Except Error Directive) : Decidable (Passes r) := by
  unfold Passes
  split <;> infer_instance

/-- The tokens stand in source order and do not overlap: the `ColEnd` of a
token is at most the `ColStart` of every token after it. -/
def Ordered (toks : List Token) : Prop :=
  toks.Pairwise fun a b => a.Coord.ColEnd ≤ b.Coord.ColStart

/-- A coordinate on the line `line` with the number `lineNum`:
`0 ≤ ColStart ≤ ColEnd ≤ len(line)`. -/
def FileCoord.Within (c : FileCoord) (line : Str) (lineNum : Int) : Prop :=
  c.Line = line ∧ c.LineNum = lineNum
    ∧ 0 ≤ c.ColStart ∧ c.ColStart ≤ c.ColEnd ∧ c.ColEnd ≤ line.length

/-- The invariant of the loop of `lexLine` on the order of the tokens: the
tokens are ordered, none ends after the index `lo` that the loop has reached,
and none ends after the start of the pending token. -/
def LexState.Inv (st : LexState) (lo : Int) : Prop :=
  Ordered st.toks ∧ (∀ t ∈ st.toks, t.Coord.ColEnd ≤ lo)
    ∧ (0 ≤ st.bStart → ∀ t ∈ st.toks, t.Coord.ColEnd ≤ st.bStart)

/-- The token with the same kind and columns on another line. -/
def Token.onLine (t : Token) (line : Str) : Token :=
  { t with Coord := { t.Coord with Line := line } }

/-- The state of the lexer with its tokens moved to another line. -/
def LexState.onLine (st : LexState) (line : Str) : LexState :=
  { st with toks := st.toks.map fun t => t.onLine line }

/-- The outcome is a value that the call returns: neither a run-time panic
nor the exhaustion of an iteration bound of the model. -/
def Returns {α : Type} (r : Except Error α) : Prop :=
  r ≠ .error .panic ∧ r ≠ .error .diverge

end Aptfile

namespace Armor

open Aptfile

/-! ## Package `strings`, `unicode/utf8` and `regexp` as used by `armor/main.go` -/

/-- The predicate `utf8.RuneStart`: the byte is not a continuation byte. -/
def RuneStart (b : Nat) : Bool := b &&& 0xC0 ≠ 0x80

/-- The loop of `utf8.DecodeLastRuneInString` that backs up from `start` to
a byte that can start a rune, not below `lim`; the value of `start` at the
exit of the loop.  The first argument bounds the number of iterations. -/
def backUp (s : Str) (lim : Int) : Nat → Int → Int
  | 0, start => start
  | fuel + 1, start =>
    if start ≥ lim then
      if RuneStart (s.getD start.toNat 0) then start else backUp s lim fuel (start - 1)
    else start

/-- The function `utf8.DecodeLastRuneInString`: the last rune of the string
and its width in bytes. -/
def decodeLastRune (s : Str) : Nat × Nat :=
  if s.length = 0 then (RuneError, 0)
  else
    let r := s.getD (s.length - 1) 0
    if r < 0x80 then (r, 1)
    else
      let lim : Int := max ((s.length : Int) - 4) 0
      let start0 := backUp s lim 4 ((s.length : Int) - 2)
      let start := if start0 < 0 then 0 else start0.toNat
      let d := decodeRune (s.drop start)
      if start + d.2 ≠ s.length then (RuneError, 1) else d

/-- The function `strings.TrimLeftFunc(s, unicode.IsSpace)`. -/
def TrimLeftSpace (s : Str) : Str :=
  match (runes s).find? (fun p => ¬ IsSpace p.2) with
  | some p => s.drop p.1
  | none => []

/-- The loop of `lastIndexFunc(s, unicode.IsSpace, false)` from the index
`i` downwards: the index of the last rune that is not whitespace, or `-1`.
The first argument bounds the number of iterations. -/
def lastIndexNotSpace (s : Str) : Nat → Nat → Int
  | 0, _ => -1
  | fuel + 1, i =>
    if i > 0 then
      let d := decodeLastRune (s.take i)
      if IsSpace d.1 then lastIndexNotSpace s fuel (i - d.2) else ((i - d.2 : Nat) : Int)
    else -1

/-- The function `strings.TrimRightFunc(s, unicode.IsSpace)`. -/
def TrimRightSpace (s : Str) : Str :=
  let i := lastIndexNotSpace s s.length s.length
  if i ≥ 0 ∧ s.getD i.toNat 0 ≥ 0x80 then
    s.take (i.toNat + (decodeRune (s.drop i.toNat)).2)
  else
    s.take (i + 1).toNat

/-- The function `strings.TrimSpace`: the string without its leading and
trailing Unicode whitespace, `TrimFunc(s, unicode.IsSpace)`; the library
reaches the same result through a loop over the ASCII bytes at both ends. -/
def TrimSpace (s : Str) : Str := TrimRightSpace (TrimLeftSpace s)

/-- The function `strings.TrimLeft(s, "=")`. -/
def TrimLeftEq (s : Str) : Str := s.dropWhile (fun c => c = 0x3D)

/-- The function `strings.Replace(s, old, new, 1)`: the first occurrence of
`old` is replaced. -/
def ReplaceFirst (old new : Str) : Str → Str
  | [] => if old = [] then new else []
  | c :: s =>
    if old.isPrefixOf (c :: s) then new ++ (c :: s).drop old.length
    else c :: ReplaceFirst old new s

/-- The regular expression `armorHeaderLine`, `^-----BEGIN .+-----$`, as
`MatchString` decides it: the text starts with `-----BEGIN `, ends with
`-----`, and at least one character, none of them a newline, stands between
the two (`.` matches every character but the newline, and the bytes of the
prefix and of the suffix are ASCII, so they stand at rune boundaries). -/
def armorHeaderLine (line : Str) : Bool :=
  (lit "-----BEGIN ").isPrefixOf line ∧ (lit "-----").isSuffixOf line
    ∧ 17 ≤ line.length ∧ 0x0A ∉ (line.drop 11).take (line.length - 16)

/-- An ASCII letter, the class `[a-zA-Z]`. -/
def isLetter (c : Nat) : Bool := (0x41 ≤ c ∧ c ≤ 0x5A) ∨ (0x61 ≤ c ∧ c ≤ 0x7A)

/-- The regular expression `armorHeader`, `^[a-zA-Z]+: .+$`, as
`MatchString` decides it: one or more letters, then `: `, then at least one
character, none of them a newline.  The letters are the longest run of
letters at the start, since a `:` is not a letter. -/
def armorHeader (line : Str) : Bool :=
  let rest := line.dropWhile isLetter
  rest.length < line.length ∧ (lit ": ").isPrefixOf rest
    ∧ 3 ≤ rest.length ∧ 0x0A ∉ rest.drop 2

/-! ## Package `encoding/base64` -/

/-- The table `decodeMap` of `base64.StdEncoding`: the six bits of a
character of the alphabet, `none` for `0xff`. -/
def decodeMap (c : Nat) : Option Nat :=
  if 0x41 ≤ c ∧ c ≤ 0x5A then some (c - 0x41)
  else if 0x61 ≤ c ∧ c ≤ 0x7A then some (c - 0x61 + 26)
  else if 0x30 ≤ c ∧ c ≤ 0x39 then some (c - 0x30 + 52)
  else if c = 0x2B then some 62
  else if c = 0x2F then some 63
  else none

/-- The bytes that `decodeQuantum` writes for the six-bit values read:
`dlen - 1` bytes of the 24 bits they make. -/
def quantumBytes (dbuf : List Nat) : Str :=
  let val := (dbuf.getD 0 0 <<< 18) ||| (dbuf.getD 1 0 <<< 12)
    ||| (dbuf.getD 2 0 <<< 6) ||| dbuf.getD 3 0
  [(val >>> 16) % 256, (val >>> 8) % 256, val % 256].take (dbuf.length - 1)

/-- Skipping of `\n` and `\r`. -/
def skipNewlines (s : Str) : Str := s.dropWhile (fun c => c = 0x0A ∨ c = 0x0D)

/-- The errors of package `armor` and of the functions it calls. -/
inductive Error where
  /-- The sentinel `ErrBadChecksum`. -/
  | ErrBadChecksum
  /-- An error made by `fmt.Errorf`, with its message. -/
  | errorf (msg : Str)
  /-- A `base64.CorruptInputError`; the offset it carries is left out. -/
  | CorruptInputError
  deriving DecidableEq, Repr

/-- The method `Decode` of `base64.StdEncoding` with its helper
`decodeQuantum`, on the bytes that remain and the six-bit values `dbuf` read
so far in the current quantum: the bytes decoded and the error.  Newlines
are skipped, four characters give three bytes, `=` pads the last quantum and
only newlines may follow it, and an incomplete quantum is an error. -/
def decodeFrom : Str → List Nat → Str × Option Error
  | [], dbuf => if dbuf = [] then ([], none) else ([], some .CorruptInputError)
  | c :: src, dbuf =>
    match decodeMap c with
    | some v =>
      if dbuf.length = 3 then
        let r := decodeFrom src []
        (quantumBytes (dbuf ++ [v]) ++ r.1, r.2)
      else decodeFrom src (dbuf ++ [v])
    | none =>
      if c = 0x0A ∨ c = 0x0D then decodeFrom src dbuf
      else if c ≠ 0x3D then ([], some .CorruptInputError)
      else if dbuf.length < 2 then ([], some .CorruptInputError)
      else if dbuf.length = 2 then
        match skipNewlines src with
        | [] => ([], some .CorruptInputError)
        | c2 :: s2 =>
          if c2 ≠ 0x3D then ([], some .CorruptInputError)
          else
            (quantumBytes dbuf,
              if skipNewlines s2 = [] then none else some .CorruptInputError)
      else
        (quantumBytes dbuf,
          if skipNewlines src = [] then none else some .CorruptInputError)

/-- The function `base64.StdEncoding.DecodeString`. -/
def DecodeString (s : Str) : Str × Option Error := decodeFrom s []

/-- The function `binary.BigEndian.Uint32` on four bytes. -/
def Uint32 (b0 b1 b2 b3 : Nat) : Nat :=
  ((b0 <<< 24) ||| (b1 <<< 16) ||| (b2 <<< 8) ||| b3) % 2 ^ 32

/-! ## armor/main.go -/

def CRC24_INIT : Nat := 0xB704CE

def CRC24_GEN : Nat := 0x1864CFB

def CRC24_WIDTH : Nat := 1 <<< 24

def CRC24_MASK : Nat := CRC24_WIDTH - 1

/-- The loop `for range 8` of `crc24` on the `uint32` variable `crc`, for
the iterations that remain. -/
def crc24Bits : Nat → Nat → Nat
  | 0, crc => crc
  | n + 1, crc =>
    let crc1 := (crc <<< 1) % 2 ^ 32
    crc24Bits n (if crc1 &&& CRC24_WIDTH ≠ 0 then crc1 ^^^ CRC24_GEN else crc1)

/-- The loop `for _, b := range data` of `crc24`. -/
def crc24Loop : Str → Nat → Nat
  | [], crc => crc
  | b :: rest, crc => crc24Loop rest (crc24Bits 8 (crc ^^^ ((b <<< 16) % 2 ^ 32)))

/-- The function `crc24`. -/
def crc24 (data : Str) : Nat := crc24Loop data CRC24_INIT &&& CRC24_MASK

def ARMOR_PARSER_STATE_HEADERLINE : Nat := 0

def ARMOR_PARSER_STATE_HEADER : Nat := 1

def ARMOR_PARSER_STATE_BODY : Nat := 2

def ARMOR_PARSER_STATE_FOOTER : Nat := 3

def ARMOR_PARSER_STATE_DONE : Nat := 4

/-- The variables of `Parse` that its loop updates. -/
structure ParseState where
  checksum : Nat
  state : Nat
  encodedKeyBuilder : Str
  expectedFooterLineText : Str
  deriving DecidableEq, Repr

/-- The loop `scanning` of `Parse` over the lines that the scanner still
yields: the state at the exit of the loop, or the error of an early
`return`. -/
def scanning : List Str → ParseState → Except Error ParseState
  | [], st => .ok st
  | text :: rest, st =>
    let line := TrimSpace text
    if st.state = ARMOR_PARSER_STATE_HEADERLINE then
      if armorHeaderLine line then
        scanning rest
          { st with expectedFooterLineText := ReplaceFirst (lit "BEGIN") (lit "END") line,
                    state := ARMOR_PARSER_STATE_HEADER }
      else if line = [] then scanning rest st
      else .error (.errorf (lit "no header line found. Found '" ++ line ++ lit "'"))
    else if st.state = ARMOR_PARSER_STATE_HEADER then
      if armorHeader line then scanning rest st
      else if line = [] then scanning rest { st with state := ARMOR_PARSER_STATE_BODY }
      else .error (.errorf (lit "no end of header line. Found '" ++ line ++ lit "'"))
    else if st.state = ARMOR_PARSER_STATE_BODY then
      if line.length = 5 ∧ line.getD 0 0 = 0x3D then
        let decoded := DecodeString (TrimLeftEq line)
        match decoded.2 with
        | some err2 => .error err2
        | none =>
          scanning rest
            { st with state := ARMOR_PARSER_STATE_FOOTER,
                      checksum := Uint32 0 (decoded.1.getD 0 0) (decoded.1.getD 1 0)
                        (decoded.1.getD 2 0) }
      else if line = st.expectedFooterLineText then
        scanning rest { st with state := ARMOR_PARSER_STATE_DONE }
      else
        scanning rest { st with encodedKeyBuilder := st.encodedKeyBuilder ++ line }
    else if st.state = ARMOR_PARSER_STATE_FOOTER then
      if line = st.expectedFooterLineText then
        scanning rest { st with state := ARMOR_PARSER_STATE_DONE }
      else
        .error (.errorf (lit "no footer line. Expected: \"" ++ st.expectedFooterLineText
          ++ lit "\". Found \"" ++ line ++ lit "\""))
    else .ok st

/-- The function `Parse` on a run of its `bufio.Scanner`: `lines` are the
texts that `scanner.Text()` yields until the loop is left, and `scanErr` is
the value of `scanner.Err()` after the loop, `none` for `nil`, else the
message of the error.  The results are `body` and `err`, `none` for `nil`. -/
def Parse (lines : List Str) (scanErr : Option Str) : Str × Option Error :=
  match scanning lines
      { checksum := 0, state := ARMOR_PARSER_STATE_HEADERLINE,
        encodedKeyBuilder := [], expectedFooterLineText := [] } with
  | .error err => ([], some err)
  | .ok st =>
    match scanErr with
    | some msg => ([], some (.errorf msg))
    | none =>
      if st.state ≠ ARMOR_PARSER_STATE_DONE then
        ([], some (.errorf
          (lit "did not reach final parse state. Was in state " ++ fmtNat st.state)))
      else
        let decoded := DecodeString st.encodedKeyBuilder
        match decoded.2 with
        | some err => (decoded.1, some err)
        | none =>
          if st.checksum ≠ 0 ∧ st.checksum ≠ crc24 decoded.1 then
            ([], some .ErrBadChecksum)
          else (decoded.1, none)

/-! ## Notions of the specification of package `armor` -/

/-- One shift of the reference 24-bit register: the register is shifted
left one bit and, when bit 24 becomes set, `0x1864CFB` is xored in. -/
def refShift (reg : Nat) : Nat :=
  if (2 * reg).testBit 24 then (2 * reg) ^^^ 0x1864CFB else 2 * reg

/-- The reference computation of the OpenPGP CRC-24, on natural numbers of
any size: the register starts at `0xB704CE`; each byte is xored into the
bits 16..23, then the register is shifted eight times. -/
def crc24Ref (data : Str) : Nat :=
  data.foldl (fun reg b => refShift^[8] (reg ^^^ (b * 2 ^ 16))) 0xB704CE

end Armor

namespace Main

open Aptfile

/-! ## main.go of the command: `sanitizeFilename` -/

/-- A character of the class `[a-zA-Z0-9-_]`, the complement of the class of
`okFileCharsRegex`. -/
def okFileChar (r : Nat) : Bool :=
  (0x61 ≤ r ∧ r ≤ 0x7A) ∨ (0x41 ≤ r ∧ r ≤ 0x5A) ∨ (0x30 ≤ r ∧ r ≤ 0x39)
    ∨ r = 0x2D ∨ r = 0x5F

/-- The loop of `okFileCharsRegex.ReplaceAllString(s, "_")` over the runes
that remain, for the regular expression `[^a-zA-Z0-9-_]+`: a rune of the
class `[a-zA-Z0-9-_]` is copied (it is one ASCII byte), and each leftmost
longest match, a run of other runes, gives one `_`.  `inMatch` tells that
the rune before belongs to a match. -/
def replaceRuns : List (Nat × Nat) → Bool → Str
  | [], _ => []
  | (_, r) :: rest, inMatch =>
    if okFileChar r then r :: replaceRuns rest false
    else if inMatch then replaceRuns rest true
    else 0x5F :: replaceRuns rest true

/-- The call `okFileCharsRegex.ReplaceAllString(s, "_")`; the regular
expression reads the runes that `utf8.DecodeRuneInString` yields, an invalid
byte as `RuneError` of width 1. -/
def ReplaceAllString (s : Str) : Str := replaceRuns (runes s) false

/-- The call `strings.Trim(s, "_")`. -/
def Trim (s : Str) : Str :=
  (s.dropWhile (fun c => c = 0x5F)).rdropWhile (fun c => c = 0x5F)

/-- The function `strings.ToLower`.  On a string of ASCII bytes the letters
`A` to `Z` are mapped to `a` to `z`; on any other string the library maps
`unicode.ToLower` over the runes, which is the parameter `mapLower`. -/
def ToLower (mapLower : Str → Str) (s : Str) : Str :=
  if s.all (fun c => c < 0x80) then
    if s.any (fun c => 0x41 ≤ c ∧ c ≤ 0x5A) then
      s.map (fun c => if 0x41 ≤ c ∧ c ≤ 0x5A then c + 0x20 else c)
    else s
  else mapLower s

/-- The function `sanitizeFilename`. -/
def sanitizeFilename (mapLower : Str → Str) (s : Str) : Str :=
  let s1 := ReplaceAllString s
  let s2 := Trim s1
  let s3 := if s2.length > 50 then s2.take 50 else s2
  ToLower mapLower s3

/-! ## Notions of the specification of `sanitizeFilename` -/

/-- The replacement of the runs computed on the bytes: a byte of the class
`[a-zA-Z0-9-_]` is kept, the first byte of a run of other bytes gives `_`
and the further bytes of the run give nothing.  `inRun` tells that the byte
before belongs to a run. -/
def collapse : Str → Bool → Str
  | [], _ => []
  | c :: s, inRun =>
    if okFileChar c then c :: collapse s false
    else if inRun then collapse s true
    else 0x5F :: collapse s true

/-- A character that a sanitized name may hold: `a` to `z`, `0` to `9`, `-`
or `_`. -/
def isNameChar (c : Nat) : Bool :=
  (0x61 ≤ c ∧ c ≤ 0x7A) ∨ (0x30 ≤ c ∧ c ≤ 0x39) ∨ c = 0x2D ∨ c = 0x5F

/-- The lower-case form of an ASCII byte. -/
def asciiLower (c : Nat) : Nat := if 0x41 ≤ c ∧ c ≤ 0x5A then c + 0x20 else c

end Main

namespace Aptfile

/-! ## Lemmas: `strconv.ParseInt` -/

theorem digitVal_of_isDigit (c : Nat) (h : isDigit c = true) :
    digitVal c = some (c - 0x30) ∧ c - 0x30 < 10 := by
  simp [isDigit] at h
  constructor
  · simp [digitVal, h]
  · omega

theorem digitVal_of_not_isDigit (c : Nat) (h : isDigit c = false) :
    digitVal c = none ∨ ∃ d, digitVal c = some d ∧ 10 ≤ d := by
  have h1 : ¬ (0x30 ≤ c ∧ c ≤ 0x39) := by
    simpa [isDigit] using h
  unfold digitVal
  rw [if_neg h1]
  by_cases h2 : 0x61 ≤ (c ||| 0x20) ∧ (c ||| 0x20) ≤ 0x7A
  · right
    rw [if_pos h2]
    exact ⟨_, rfl, by omega⟩
  · left
    rw [if_neg h2]

theorem digitsValue_ge (ds : Str) (n : Nat) : n ≤ digitsValue ds n := by
  induction ds generalizing n with
  | nil => simp [digitsValue]
  | cons c cs ih =>
    have := ih (10 * n + (c - 0x30))
    simp only [digitsValue, List.foldl_cons] at this ⊢
    omega

theorem parseUintLoop_digits (ds : Str) (n : Nat) (hds : ds.all isDigit = true)
    (hn : n ≤ 2 ^ 32 - 1) :
    parseUintLoop ds n =
      if digitsValue ds n ≤ 2 ^ 32 - 1 then .ok (digitsValue ds n)
      else .error .ErrRange := by
  induction ds generalizing n with
  | nil =>
    norm_num at hn
    simp [parseUintLoop, digitsValue, hn]
  | cons c cs ih =>
    simp only [List.all_cons, Bool.and_eq_true] at hds
    obtain ⟨hc, hcs⟩ := hds
    obtain ⟨hd, hlt⟩ := digitVal_of_isDigit c hc
    have hv : digitsValue (c :: cs) n = digitsValue cs (10 * n + (c - 0x30)) := by
      simp [digitsValue]
    have hge := digitsValue_ge cs (10 * n + (c - 0x30))
    rw [hv]
    simp only [parseUintLoop, hd]
    have h1 : ¬ (c - 0x30 ≥ 10) := by omega
    have h2 : ¬ (n ≥ (2 ^ 64 - 1) / 10 + 1) := by
      norm_num at hn ⊢; omega
    have h3 : n * 10 % 2 ^ 64 = 10 * n := by
      norm_num at hn ⊢; omega
    rw [if_neg h1, if_neg h2]
    simp only [h3]
    have h4 : (10 * n + (c - 0x30)) % 2 ^ 64 = 10 * n + (c - 0x30) := by
      norm_num at hn ⊢; omega
    rw [h4]
    by_cases h5 : 10 * n + (c - 0x30) > 2 ^ 32 - 1
    · have h6 : ¬ digitsValue cs (10 * n + (c - 0x30)) ≤ 2 ^ 32 - 1 := by omega
      rw [if_pos (Or.inr h5), if_neg h6]
    · have h7 : ¬ (10 * n + (c - 0x30) < 10 * n ∨ 10 * n + (c - 0x30) > 2 ^ 32 - 1) := by
        omega
      rw [if_neg h7]
      exact ih _ hcs (by omega)

theorem parseUintLoop_not_digits (s : Str) (n : Nat) (hs : s.all isDigit = false) :
    ∃ k, parseUintLoop s n = .error k := by
  induction s generalizing n with
  | nil => simp at hs
  | cons c cs ih =>
    simp only [parseUintLoop]
    cases hc : isDigit c with
    | false =>
      rcases digitVal_of_not_isDigit c hc with h | ⟨d, h, hd⟩
      · exact ⟨_, by rw [h]⟩
      · exact ⟨.ErrSyntax, by rw [h]; simp [hd]⟩
    | true =>
      obtain ⟨hd, hlt⟩ := digitVal_of_isDigit c hc
      have hcs : cs.all isDigit = false := by
        simpa [hc] using hs
      rw [hd]
      simp only
      split
      · exact ⟨_, rfl⟩
      · split
        · exact ⟨_, rfl⟩
        · split
          · exact ⟨_, rfl⟩
          · exact ih _ hcs

/-- The function `ParseInt` accepts exactly the numerals of the signed 32-bit
range and returns the integer they denote. -/
theorem ParseInt_spec (p : Str) :
    (∀ z, decimalInt p = some z → -2 ^ 31 ≤ z → z ≤ 2 ^ 31 - 1 →
        ParseInt p = .ok z)
      ∧ ((∀ z, decimalInt p = some z → z < -2 ^ 31 ∨ 2 ^ 31 - 1 < z) →
        ∃ k, ParseInt p = .error (.numError (lit "ParseInt") p k)) := by
  cases p with
  | nil => simp [decimalInt, ParseInt]
  | cons c cs =>
    -- the text after the sign
    obtain ⟨body, hbody⟩ : ∃ body : Str,
        body = if c = 0x2B then cs else if c = 0x2D then cs else c :: cs := ⟨_, rfl⟩
    have hbody2 : (if c = 0x2B ∨ c = 0x2D then cs else c :: cs) = body := by
      rw [hbody]; by_cases h1 : c = 0x2B <;> by_cases h2 : c = 0x2D <;> simp [h1, h2]
    have hdec : decimalInt (c :: cs) =
        if body ≠ [] ∧ body.all isDigit then
          some (if c = 0x2D then - (digitsValue body 0 : Int) else (digitsValue body 0 : Int))
        else none := by
      simp only [decimalInt, hbody2, List.head?_cons, Option.some.injEq]
    have hparse : ParseInt (c :: cs) =
        match ParseUint body with
        | .error .ErrSyntax => .error (.numError (lit "ParseInt") (c :: cs) .ErrSyntax)
        | .error .ErrRange => signedResult (c :: cs) (decide (c = 0x2D)) (2 ^ 32 - 1)
        | .ok un => signedResult (c :: cs) (decide (c = 0x2D)) un := by
      simp only [ParseInt, ← hbody]
    rw [hdec, hparse]
    by_cases hgood : body ≠ [] ∧ body.all isDigit
    · rw [if_pos hgood]
      have hu : ParseUint body =
          if digitsValue body 0 ≤ 2 ^ 32 - 1 then .ok (digitsValue body 0)
          else .error .ErrRange := by
        simp only [ParseUint, if_neg hgood.1]
        exact parseUintLoop_digits body 0 hgood.2 (by norm_num)
      rw [hu]
      by_cases hle : digitsValue body 0 ≤ 2 ^ 32 - 1
      · simp only [if_pos hle]
        by_cases hneg : c = 0x2D
        · simp only [hneg, if_true, decide_True, signedResult]
          constructor
          · intro z hz h1 h2
            simp only [Option.some.injEq] at hz
            subst hz
            have : digitsValue body 0 ≤ 2147483648 := by
              norm_num at h1 h2; omega
            simp [this]
          · intro h
            have := h _ rfl
            have h3 : 2147483648 < digitsValue body 0 := by
              norm_num at this; omega
            exact ⟨.ErrRange, by simp [h3]⟩
        · simp only [hneg, if_false, decide_False, signedResult]
          constructor
          · intro z hz h1 h2
            simp only [Option.some.injEq] at hz
            subst hz
            have : digitsValue body 0 < 2147483648 := by
              norm_num at h1 h2; omega
            simp [this]
          · intro h
            have := h _ rfl
            have h3 : 2147483648 ≤ digitsValue body 0 := by
              norm_num at this; omega
            exact ⟨.ErrRange, by simp [h3]⟩
      · simp only [if_neg hle]
        constructor
        · intro z hz h1 h2
          simp only [Option.some.injEq] at hz
          subst hz
          exfalso
          norm_num at hle
          split at h1 <;> split at h2 <;> omega
        · intro _
          by_cases hneg : c = 0x2D
          · exact ⟨.ErrRange, by simp [signedResult, hneg]⟩
          · exact ⟨.ErrRange, by simp [signedResult, hneg]⟩
    · rw [if_neg hgood]
      refine ⟨by simp, fun _ => ?_⟩
      have herr : ∃ k, ParseUint body = .error k := by
        by_cases hnil : body = []
        · exact ⟨.ErrSyntax, by simp [ParseUint, hnil]⟩
        · have hnd : body.all isDigit = false := by
            cases h : body.all isDigit with
            | false => rfl
            | true => exact absurd ⟨hnil, h⟩ hgood
          simp only [ParseUint, if_neg hnil]
          exact parseUintLoop_not_digits body 0 hnd
      obtain ⟨k, hk⟩ := herr
      rw [hk]
      cases k with
      | ErrSyntax => exact ⟨.ErrSyntax, rfl⟩
      | ErrRange =>
        by_cases hneg : c = 0x2D
        · exact ⟨.ErrRange, by simp [signedResult, hneg]⟩
        · exact ⟨.ErrRange, by simp [signedResult, hneg]⟩

theorem toInt32_of_range (z : Int) (h1 : -2 ^ 31 ≤ z) (h2 : z ≤ 2 ^ 31 - 1) :
    toInt32 z = z := by
  unfold toInt32
  norm_num at h1 h2 ⊢
  omega
/-! ## Lemmas: maps and the validators -/

theorem valid_nil {ρ : RangeOrder} (h : ρ.Valid) : ρ [] = [] := by
  have := h []
  simpa using this

theorem valid_singleton {ρ : RangeOrder} (h : ρ.Valid) (e : Str × Str) : ρ [e] = [e] := by
  have := h [e]
  simpa using this

theorem cutByte_append (sep : Nat) (n v : Str) (h : sep ∉ n) :
    cutByte sep (n ++ sep :: v) = some (n, v) := by
  induction n with
  | nil => simp [cutByte]
  | cons b n ih =>
    have hb : b ≠ sep := by
      intro hb; apply h; simp [hb]
    have hn : sep ∉ n := by
      intro hn; apply h; simp [hn]
    simp [cutByte, hb, ih hn]

theorem cutByte_none (sep : Nat) (s : Str) (h : sep ∉ s) : cutByte sep s = none := by
  induction s with
  | nil => simp [cutByte]
  | cons b n ih =>
    have hb : b ≠ sep := by
      intro hb; apply h; simp [hb]
    have hn : sep ∉ n := by
      intro hn; apply h; simp [hn]
    simp [cutByte, hb, ih hn]

theorem optsGet_eq_none (l : Opts) (k : Str) (h : k ∉ l.map Prod.fst) :
    optsGet l k = none := by
  induction l with
  | nil => rfl
  | cons e l ih =>
    obtain ⟨k0, v0⟩ := e
    simp only [List.map_cons, List.mem_cons, not_or] at h
    simp [optsGet, Ne.symm h.1, ih h.2]

theorem optsGet_eq_some (l : Opts) (k v : Str) (hnd : (l.map Prod.fst).Nodup)
    (h : (k, v) ∈ l) : optsGet l k = some v := by
  induction l with
  | nil => simp at h
  | cons e l ih =>
    obtain ⟨k0, v0⟩ := e
    simp only [List.map_cons, List.nodup_cons] at hnd
    simp only [List.mem_cons, Prod.mk.injEq] at h
    rcases h with ⟨h1, h2⟩ | h
    · simp [optsGet, h1, h2]
    · have hne : k0 ≠ k := by
        intro he
        apply hnd.1
        rw [he]
        exact List.mem_map_of_mem Prod.fst h
      simp [optsGet, hne, ih hnd.2 h]

theorem optsGet_mem (l : Opts) (k v : Str) (h : optsGet l k = some v) : (k, v) ∈ l := by
  induction l with
  | nil => simp [optsGet] at h
  | cons e l ih =>
    obtain ⟨k0, v0⟩ := e
    by_cases hk : k0 = k
    · simp [optsGet, hk] at h
      simp [hk, h]
    · simp [optsGet, hk] at h
      simp [ih h]

theorem optsGet_perm (l1 l2 : Opts) (k : Str) (hnd : (l1.map Prod.fst).Nodup)
    (hp : l2.Perm l1) : optsGet l2 k = optsGet l1 k := by
  have hnd2 : (l2.map Prod.fst).Nodup := ((hp.map Prod.fst).nodup_iff).2 hnd
  cases h1 : optsGet l1 k with
  | some v => exact optsGet_eq_some l2 k v hnd2 (hp.mem_iff.2 (optsGet_mem l1 k v h1))
  | none =>
    cases h2 : optsGet l2 k with
    | none => rfl
    | some v =>
      have := optsGet_eq_some l1 k v hnd (hp.mem_iff.1 (optsGet_mem l2 k v h2))
      rw [h1] at this
      cases this

theorem repoOptions_spec (l : List (Str × Str)) (dir : RepoDirective)
    (hnd : (l.map Prod.fst).Nodup)
    (hv : ∀ e ∈ l, e.1 = lit "arch" ∨ e.1 = lit "signed-by") :
    repoOptions l dir = .ok
      { dir with
        Arch := (optsGet l (lit "arch")).getD dir.Arch,
        SignedBy := (optsGet l (lit "signed-by")).getD dir.SignedBy } := by
  induction l generalizing dir with
  | nil => simp [repoOptions, optsGet]
  | cons e l ih =>
    obtain ⟨k, v⟩ := e
    simp only [List.map_cons, List.nodup_cons] at hnd
    have hv2 : ∀ e ∈ l, e.1 = lit "arch" ∨ e.1 = lit "signed-by" :=
      fun e he => hv e (List.mem_cons_of_mem _ he)
    have hne : lit "arch" ≠ lit "signed-by" := by decide
    rcases hv (k, v) (List.mem_cons_self _ _) with hk | hk
    · simp only at hk
      subst hk
      simp only [repoOptions, if_true, ih _ hnd.2 hv2, optsGet, optsGet_eq_none l _ hnd.1,
        if_neg hne, Option.getD_none, Option.getD_some]
    · simp only at hk
      subst hk
      simp only [repoOptions, if_true, if_neg hne.symm, ih _ hnd.2 hv2, optsGet,
        optsGet_eq_none l _ hnd.1, Option.getD_none, Option.getD_some]

theorem parseRepoDirective_spec (ρ : RangeOrder) (hρ : ρ.Valid) (cmd : Str)
    (args : List Str) (opts : Opts) (hargs : args ≠ [])
    (hnd : (opts.map Prod.fst).Nodup)
    (hv : ∀ e ∈ opts, e.1 = lit "arch" ∨ e.1 = lit "signed-by") :
    parseRepoDirective ρ cmd args opts = .ok
      { IsSrc := decide (cmd = lit "repo-src"),
        URL := (args[0]?).getD [],
        Suite := (args[1]?).getD [],
        Component := (args[2]?).getD [],
        Arch := (optsGet opts (lit "arch")).getD [],
        SignedBy := (optsGet opts (lit "signed-by")).getD [] } := by
  have hp := hρ opts
  have hnd2 : ((ρ opts).map Prod.fst).Nodup := ((hp.map Prod.fst).nodup_iff).2 hnd
  have hv2 : ∀ e ∈ ρ opts, e.1 = lit "arch" ∨ e.1 = lit "signed-by" :=
    fun e he => hv e (hp.mem_iff.1 he)
  have h1 := optsGet_perm opts (ρ opts) (lit "arch") hnd hp
  have h2 := optsGet_perm opts (ρ opts) (lit "signed-by") hnd hp
  match args, hargs with
  | [a0], _ =>
    simp [parseRepoDirective, idx, bind, Except.bind, pure, Except.pure,
      repoOptions_spec _ _ hnd2 hv2, h1, h2]
  | [a0, a1], _ =>
    simp [parseRepoDirective, idx, bind, Except.bind, pure, Except.pure,
      repoOptions_spec _ _ hnd2 hv2, h1, h2]
  | a0 :: a1 :: a2 :: rest, _ =>
    simp [parseRepoDirective, idx, bind, Except.bind, pure, Except.pure,
      repoOptions_spec _ _ hnd2 hv2, h1, h2]

/-! ## Claims -/

/-- C5: for a package name `n` without `=` and any version `v`, the single
argument `n=v` without options and the single argument `n` with the option
`version: v` both give `PackageDirective{Name: n, Version: v}`; the argument
is split at its first `=`. -/
theorem c5_version_shorthand (ρ : RangeOrder) (hρ : ρ.Valid) (cmd n v : Str)
    (hn : 0x3D ∉ n) :
    parsePackageDirective ρ cmd [n ++ lit "=" ++ v] []
        = .ok { Name := n, Version := v, Release := [] }
      ∧ parsePackageDirective ρ cmd [n] [(lit "version", v)]
        = .ok { Name := n, Version := v, Release := [] } := by
  constructor
  · have h1 : n ++ lit "=" ++ v = n ++ 0x3D :: v := by simp [lit]
    simp [parsePackageDirective, valid_nil hρ, idx, h1, SplitN2,
      cutByte_append _ _ _ hn, bind, Except.bind, pure, Except.pure]
  · simp [parsePackageDirective, valid_singleton hρ, idx, bind, Except.bind,
      pure, Except.pure]

/-- C5, at the test case `curl=5.3=1`: the version may itself contain `=`. -/
theorem c5_version_shorthand_witness :
    0x3D ∉ lit "curl"
      ∧ parsePackageDirective id (lit "package") [lit "curl" ++ lit "=" ++ lit "5.3=1"] []
        = .ok { Name := lit "curl", Version := lit "5.3=1", Release := [] }
      ∧ parsePackageDirective id (lit "package") [lit "curl"] [(lit "version", lit "5.3=1")]
        = .ok { Name := lit "curl", Version := lit "5.3=1", Release := [] } :=
  ⟨by decide,
   c5_version_shorthand id (fun _ => List.Perm.refl _) (lit "package") (lit "curl")
     (lit "5.3=1") (by decide)⟩

/-- C6 as stated fails: for the name `curl` and the release text `a=b` the
shorthand `curl/a=b` is split at `=` and gives the name `curl/a` with the
version `b`, while the long form gives the name `curl` with the release
`a=b`. -/
theorem c6_release_shorthand_counterexample :
    0x2F ∉ lit "curl" ∧ 0x3D ∉ lit "curl"
      ∧ parsePackageDirective id (lit "package") [lit "curl" ++ lit "/" ++ lit "a=b"] []
        = .ok { Name := lit "curl/a", Version := lit "b", Release := [] }
      ∧ parsePackageDirective id (lit "package") [lit "curl"] [(lit "release", lit "a=b")]
        = .ok { Name := lit "curl", Version := [], Release := lit "a=b" }
      ∧ parsePackageDirective id (lit "package") [lit "curl" ++ lit "/" ++ lit "a=b"] []
        ≠ parsePackageDirective id (lit "package") [lit "curl"] [(lit "release", lit "a=b")] := by
  decide

/-- C6, amended: for a package name `n` with neither `/` nor `=` and a
release text `r` without `=`, the single argument `n/r` without options and
the single argument `n` with the option `release: r` both give
`PackageDirective{Name: n, Release: r}`. -/
theorem c6_release_shorthand (ρ : RangeOrder) (hρ : ρ.Valid) (cmd n r : Str)
    (hn1 : 0x2F ∉ n) (hn2 : 0x3D ∉ n) (hr : 0x3D ∉ r) :
    parsePackageDirective ρ cmd [n ++ lit "/" ++ r] []
        = .ok { Name := n, Version := [], Release := r }
      ∧ parsePackageDirective ρ cmd [n] [(lit "release", r)]
        = .ok { Name := n, Version := [], Release := r } := by
  constructor
  · have h1 : n ++ lit "/" ++ r = n ++ 0x2F :: r := by simp [lit]
    have h2 : 0x3D ∉ n ++ 0x2F :: r := by
      simp only [List.mem_append, List.mem_cons, not_or]
      exact ⟨hn2, by decide, hr⟩
    simp [parsePackageDirective, valid_nil hρ, idx, h1, SplitN2,
      cutByte_append _ _ _ hn1, cutByte_none _ _ h2, bind, Except.bind, pure, Except.pure]
  · have hne : lit "release" ≠ lit "version" := by decide
    simp [parsePackageDirective, valid_singleton hρ, idx, bind, Except.bind,
      pure, Except.pure, hne]

/-- C6, amended, at the test case `curl/multiverse`. -/
theorem c6_release_shorthand_witness :
    (0x2F ∉ lit "curl" ∧ 0x3D ∉ lit "curl" ∧ 0x3D ∉ lit "multiverse")
      ∧ parsePackageDirective id (lit "package") [lit "curl" ++ lit "/" ++ lit "multiverse"] []
        = .ok { Name := lit "curl", Version := [], Release := lit "multiverse" }
      ∧ parsePackageDirective id (lit "package") [lit "curl"] [(lit "release", lit "multiverse")]
        = .ok { Name := lit "curl", Version := [], Release := lit "multiverse" } :=
  ⟨by decide,
   c6_release_shorthand id (fun _ => List.Perm.refl _) (lit "package") (lit "curl")
     (lit "multiverse") (by decide) (by decide) (by decide)⟩

/-- C7: for every command name, in particular `repo` and `repo-src`, a
non-empty argument list and
a map of options whose keys are among `arch` and `signed-by`,
`parseRepoDirective` succeeds; `IsSrc` holds exactly for `repo-src`, `URL`,
`Suite` and `Component` are the first three arguments (empty when absent),
`Arch` and `SignedBy` the values of the two options (empty when absent).  The
result is the same for every order of iteration and for every order in which
the options were entered into the map. -/
theorem c7_repo_directive (ρ : RangeOrder) (hρ : ρ.Valid) (cmd : Str)
    (args : List Str) (opts : Opts) (hargs : args ≠ [])
    (hnd : (opts.map Prod.fst).Nodup)
    (hv : ∀ e ∈ opts, e.1 = lit "arch" ∨ e.1 = lit "signed-by") :
    parseRepoDirective ρ cmd args opts = .ok
        { IsSrc := decide (cmd = lit "repo-src"),
          URL := (args[0]?).getD [],
          Suite := (args[1]?).getD [],
          Component := (args[2]?).getD [],
          Arch := (optsGet opts (lit "arch")).getD [],
          SignedBy := (optsGet opts (lit "signed-by")).getD [] }
      ∧ ∀ (ρ2 : RangeOrder) (opts2 : Opts), ρ2.Valid → opts2.Perm opts →
          parseRepoDirective ρ2 cmd args opts2 = parseRepoDirective ρ cmd args opts := by
  refine ⟨parseRepoDirective_spec ρ hρ cmd args opts hargs hnd hv, ?_⟩
  · intro ρ2 opts2 hρ2 hp
    have hnd2 : (opts2.map Prod.fst).Nodup := ((hp.map Prod.fst).nodup_iff).2 hnd
    have hv2 : ∀ e ∈ opts2, e.1 = lit "arch" ∨ e.1 = lit "signed-by" :=
      fun e he => hv e (hp.mem_iff.1 he)
    rw [parseRepoDirective_spec ρ hρ cmd args opts hargs hnd hv,
      parseRepoDirective_spec ρ2 hρ2 cmd args opts2 hargs hnd2 hv2,
      optsGet_perm opts opts2 _ hnd hp, optsGet_perm opts opts2 _ hnd hp]

/-- C7, at the line of the test `repo directive with arch and key`, the map
iterated in reverse order. -/
theorem c7_repo_directive_witness :
    parseRepoDirective List.reverse (lit "repo-src")
        [lit "https://example.com/ubuntu", lit "jammy", lit "main"]
        [(lit "arch", lit "amd64"), (lit "signed-by", lit "https://example.com/key/thing.gpg")]
      = .ok
        { IsSrc := true,
          URL := lit "https://example.com/ubuntu",
          Suite := lit "jammy",
          Component := lit "main",
          Arch := lit "amd64",
          SignedBy := lit "https://example.com/key/thing.gpg" } :=
  (c7_repo_directive List.reverse (fun m => List.reverse_perm m) (lit "repo-src")
    [lit "https://example.com/ubuntu", lit "jammy", lit "main"]
    [(lit "arch", lit "amd64"), (lit "signed-by", lit "https://example.com/key/thing.gpg")]
    (by simp) (by decide) (by decide)).1

/-- C8: for a `pin` directive with the two arguments `name` and `p` and at
most one option among `version`, `origin` and `release`: when `p` is an
optional sign followed by decimal digits that denote an integer `z` of the
signed 32-bit range, the result is the `PinDirective` of `name` with priority
`z` and only the field of the given option set; for every other `p` the
result is the error of `strconv.ParseInt`. -/
theorem c8_pin_priority (ρ : RangeOrder) (hρ : ρ.Valid) (cmd name p : Str)
    (opts : Opts)
    (hopts : opts = [] ∨ ∃ k v, opts = [(k, v)]
      ∧ (k = lit "version" ∨ k = lit "origin" ∨ k = lit "release")) :
    (∀ z, decimalInt p = some z → -2 ^ 31 ≤ z → z ≤ 2 ^ 31 - 1 →
        parsePinDirective ρ cmd [name, p] opts = .ok
          { PackageName := name, Priority := z,
            Version := (optsGet opts (lit "version")).getD [],
            Origin := (optsGet opts (lit "origin")).getD [],
            Release := (optsGet opts (lit "release")).getD [] })
      ∧ ((∀ z, decimalInt p = some z → z < -2 ^ 31 ∨ 2 ^ 31 - 1 < z) →
        ∃ k, parsePinDirective ρ cmd [name, p] opts
          = .error (.numError (lit "ParseInt") p k)) := by
  obtain ⟨hok, herr⟩ := ParseInt_spec p
  constructor
  · intro z hz h1 h2
    have hp := hok z hz h1 h2
    have h32 := toInt32_of_range z h1 h2
    rcases hopts with h | ⟨k, v, h, hk⟩
    · subst h
      simp [parsePinDirective, idx, hp, h32, valid_nil hρ, optsGet, bind, Except.bind,
        pure, Except.pure]
    · subst h
      have e1 : lit "origin" ≠ lit "version" := by decide
      have e2 : lit "release" ≠ lit "version" := by decide
      have e3 : lit "release" ≠ lit "origin" := by decide
      rcases hk with hk | hk | hk <;> subst hk <;>
        simp [parsePinDirective, idx, hp, h32, valid_singleton hρ, optsGet, bind,
          Except.bind, pure, Except.pure, e1, e2, e3, e1.symm, e2.symm, e3.symm]
  · intro h
    obtain ⟨k, hk⟩ := herr h
    exact ⟨k, by simp [parsePinDirective, idx, hk, bind, Except.bind]⟩

/-- C8, at the line `pin "curl" 333, version: "5.3"` of the specification. -/
theorem c8_pin_priority_witness :
    parsePinDirective id (lit "pin") [lit "curl", lit "333"] [(lit "version", lit "5.3")]
      = .ok { PackageName := lit "curl", Priority := 333, Version := lit "5.3",
              Origin := [], Release := [] } :=
  (c8_pin_priority id (fun _ => List.Perm.refl _) (lit "pin") (lit "curl") (lit "333")
    [(lit "version", lit "5.3")] (Or.inr ⟨_, _, rfl, Or.inl rfl⟩)).1 333
    (by decide) (by decide) (by decide)
/-! ## Lemmas: decoding of runes -/

theorem decodeRune_ascii (b : Nat) (rest : Str) (h : b < 0x80) :
    decodeRune (b :: rest) = (b, 1) := by
  simp [decodeRune, h]

theorem decodeRune_width_le (b : Nat) (rest : Str) :
    (decodeRune (b :: rest)).2 - 1 ≤ rest.length := by
  have hsz : 2 ≤ runeSize b ∧ runeSize b ≤ 4 := by
    unfold runeSize; split_ifs <;> omega
  simp only [decodeRune]
  split_ifs <;> simp only [] <;> omega

/-- A leading byte that is followed by too few bytes, or by a second byte
outside its range, decodes to `RuneError` of width 1. -/
theorem decodeRune_bad_second (b : Nat) (rest : Str)
    (h : rest.length + 1 < runeSize b
      ∨ rest.getD 0 0 < acceptLo b ∨ acceptHi b < rest.getD 0 0)
    (h1 : ¬ b < 0x80) :
    decodeRune (b :: rest) = (RuneError, 1) := by
  simp only [decodeRune, if_neg h1]
  by_cases h2 : b < 0xC2 ∨ 0xF4 < b
  · rw [if_pos h2]
  · rw [if_neg h2]
    by_cases h3 : rest.length + 1 < runeSize b
    · rw [if_pos h3]
    · rw [if_neg h3, if_pos (h.resolve_left h3)]

theorem decodeRune_append_ascii (b a : Nat) (pre post : Str) (ha : a < 0x80) :
    decodeRune (b :: (pre ++ a :: post)) = decodeRune (b :: pre) := by
  have hlo : a < acceptLo b := by
    unfold acceptLo; split_ifs <;> omega
  have hsz : 2 ≤ runeSize b ∧ runeSize b ≤ 4 := by
    unfold runeSize; split_ifs <;> omega
  by_cases h1 : b < 0x80
  · rw [decodeRune_ascii _ _ h1, decodeRune_ascii _ _ h1]
  rcases pre with _ | ⟨s1, pre⟩
  · rw [decodeRune_bad_second b [] (Or.inl (by simp; omega)) h1,
      decodeRune_bad_second b _ (Or.inr (Or.inl (by simpa using hlo))) h1]
  simp only [decodeRune, if_neg h1, List.cons_append, List.getD_cons_zero,
    List.getD_cons_succ, List.length_cons, List.length_append]
  by_cases h2 : b < 0xC2 ∨ 0xF4 < b
  · rw [if_pos h2, if_pos h2]
  rw [if_neg h2, if_neg h2]
  by_cases h3 : s1 < acceptLo b ∨ acceptHi b < s1
  · simp only [if_pos h3, ite_self]
  simp only [if_neg h3]
  by_cases h4 : runeSize b ≤ 2
  · have e1 : ¬ (pre.length + (post.length + 1) + 1 + 1 < runeSize b) := by omega
    have e2 : ¬ (pre.length + 1 + 1 < runeSize b) := by omega
    rw [if_neg e1, if_neg e2, if_pos h4, if_pos h4]
  simp only [if_neg h4]
  rcases pre with _ | ⟨s2, pre⟩
  · have e2 : ([] : Str).length + 1 + 1 < runeSize b := by simp; omega
    rw [if_pos e2]
    simp only [List.nil_append, List.getD_cons_zero]
    have e3 : a < 0x80 ∨ 0xBF < a := Or.inl ha
    simp only [if_pos e3, ite_self]
  simp only [List.cons_append, List.getD_cons_zero, List.getD_cons_succ, List.length_cons,
    List.length_append]
  by_cases h5 : s2 < 0x80 ∨ 0xBF < s2
  · simp only [if_pos h5, ite_self]
  simp only [if_neg h5]
  by_cases h6 : runeSize b ≤ 3
  · simp only [if_pos h6]
    split_ifs <;> first | rfl | omega
  simp only [if_neg h6]
  rcases pre with _ | ⟨s3, pre⟩
  · have e2 : ([] : Str).length + 1 + 1 + 1 < runeSize b := by simp; omega
    rw [if_pos e2]
    simp only [List.nil_append, List.getD_cons_zero]
    have e3 : a < 0x80 ∨ 0xBF < a := Or.inl ha
    simp only [if_pos e3, ite_self]
  simp only [List.cons_append, List.getD_cons_zero, List.length_cons, List.length_append]
  split_ifs <;> first | rfl | omega
theorem runesAux_cons_zero (b : Nat) (rest : Str) (i : Nat) :
    runesAux (b :: rest) i 0
      = (i, (decodeRune (b :: rest)).1)
        :: runesAux rest (i + 1) ((decodeRune (b :: rest)).2 - 1) := rfl

theorem runesAux_cons_succ (b : Nat) (rest : Str) (i k : Nat) :
    runesAux (b :: rest) i (k + 1) = runesAux rest (i + 1) k := rfl

theorem runesAux_ascii (b : Nat) (rest : Str) (i : Nat) (h : b < 0x80) :
    runesAux (b :: rest) i 0 = (i, b) :: runesAux rest (i + 1) 0 := by
  rw [runesAux_cons_zero, decodeRune_ascii b rest h]
  rfl

theorem runesAux_append_ascii (a : Nat) (ys : Str) (ha : a < 0x80) (xs : Str) :
    ∀ (i skip : Nat), skip ≤ xs.length →
      runesAux (xs ++ a :: ys) i skip
        = runesAux xs i skip ++ (i + xs.length, a) :: runesAux ys (i + xs.length + 1) 0 := by
  induction xs with
  | nil =>
    intro i skip hs
    have : skip = 0 := by simpa using hs
    subst this
    rw [List.nil_append, runesAux_ascii a ys i ha]
    simp [runesAux]
  | cons b xs ih =>
    intro i skip hs
    have e : i + 1 + xs.length = i + (b :: xs).length := by
      simp only [List.length_cons]; omega
    cases skip with
    | zero =>
      have hw := decodeRune_width_le b xs
      rw [List.cons_append, runesAux_cons_zero, decodeRune_append_ascii b a xs ys ha,
        ih (i + 1) _ hw, runesAux_cons_zero, e, List.cons_append]
    | succ k =>
      have hk : k ≤ xs.length := by simpa using hs
      rw [List.cons_append, runesAux_cons_succ, ih (i + 1) k hk, runesAux_cons_succ, e]

theorem runes_append_ascii (xs : Str) (a : Nat) (ys : Str) (ha : a < 0x80) :
    runes (xs ++ a :: ys)
      = runes xs ++ (xs.length, a) :: runesAux ys (xs.length + 1) 0 := by
  have := runesAux_append_ascii a ys ha xs 0 0 (Nat.zero_le _)
  simpa [runes] using this

theorem runesAux_shift (s : Str) (i k : Nat) :
    runesAux s i k = (runesAux s 0 k).map fun p => (i + p.1, p.2) := by
  induction s generalizing i k with
  | nil => simp [runesAux]
  | cons b s ih =>
    cases k with
    | zero =>
      simp only [runesAux, List.map_cons, ih (i + 1), ih (0 + 1), List.map_map]
      congr 1
      apply List.map_congr_left
      intro p _
      simp only [Function.comp, Prod.mk.injEq, and_true]
      omega
    | succ k =>
      simp only [runesAux, ih (i + 1), ih (0 + 1), List.map_map]
      apply List.map_congr_left
      intro p _
      simp only [Function.comp, Prod.mk.injEq, and_true]
      omega

theorem runesAux_runes (s : Str) (i : Nat) :
    runesAux s i 0 = (runes s).map fun p => (i + p.1, p.2) :=
  runesAux_shift s i 0

theorem runes_head (b : Nat) (s : Str) :
    ∃ r l, runes (b :: s) = (0, r) :: l := by
  simp [runes, runesAux]

/-! ## Lemmas: the loop of `ParseLine` -/

theorem Token.Text_of_inBounds (t : Token) (h : t.InBounds) : t.Text = .ok t.span := by
  unfold Token.InBounds at h
  simp [Token.Text, FileCoord.Text, Token.span, h]

theorem idx_drop {α : Type} (toks : List α) (curr : Nat) (l : List α)
    (h : toks.drop curr = l) (j : Nat) (hj : j < l.length) :
    idx toks (curr + j) = .ok (l.get ⟨j, hj⟩) := by
  have h1 : toks[curr + j]? = l[j]? := by
    rw [← h, List.getElem?_drop]
  have h2 : l[j]? = some (l.get ⟨j, hj⟩) := by
    simp [List.getElem?_eq_getElem hj]
  simp [idx, h1, h2]

theorem drop_length_lt {α : Type} (toks : List α) (curr : Nat) (t : α) (rest : List α)
    (h : toks.drop curr = t :: rest) : curr + rest.length + 1 = toks.length := by
  have := congrArg List.length h
  simp only [List.length_drop, List.length_cons] at this
  omega

theorem drop_append_length {α : Type} (toks : List α) (curr : Nat) (l1 l2 : List α)
    (h : toks.drop curr = l1 ++ l2) : toks.drop (curr + l1.length) = l2 := by
  rw [← List.drop_drop, h, List.drop_left]

theorem parseLoop_nil (line : Str) (lineNum : Int) (toks : List Token)
    (fuel curr : Nat) (ph : Bool) (args : List Str) (opts : Opts)
    (h : toks.drop curr = []) :
    parseLoop line lineNum toks (fuel + 1) curr ph args opts = .ok (args, opts) := by
  have hlen : ¬ curr < toks.length := by
    have := List.drop_eq_nil_iff.1 h
    omega
  simp [parseLoop, hlen, pure, Except.pure]

theorem parseLoop_pos (line : Str) (lineNum : Int) (toks : List Token)
    (fuel curr : Nat) (args : List Str) (opts : Opts) (t : Token) (rest : List Token)
    (h : toks.drop curr = t :: rest) :
    parseLoop line lineNum toks (fuel + 1) curr false args opts =
      if t.Typ = CommaToken then parseLoop line lineNum toks fuel curr true args opts
      else if t.Typ = ColonToken then
        .error (.parse { Message := lit "unexpected colon", Coord := t.Coord })
      else
        t.Text >>= fun a =>
          parseLoop line lineNum toks fuel (curr + 1) false (args ++ [a]) opts := by
  have hlen : curr < toks.length := by
    have := drop_length_lt toks curr t rest h
    omega
  have h0 := idx_drop toks curr _ h 0 (by simp)
  simp only [Nat.add_zero, List.get_eq_getElem, List.getElem_cons_zero] at h0
  rw [parseLoop]
  simp only [if_pos hlen, h0, bind, Except.bind, Bool.false_eq_true, if_false]
  split_ifs <;> rfl

theorem parseLoop_opts_short (line : Str) (lineNum : Int) (toks : List Token)
    (fuel curr : Nat) (args : List Str) (opts : Opts) (t : Token) (rest : List Token)
    (h : toks.drop curr = t :: rest) (hshort : rest.length < 3) :
    parseLoop line lineNum toks (fuel + 1) curr true args opts =
      .error (.parse
        { Message := lit "expected option, got end of line",
          Coord := { Line := line, LineNum := lineNum,
                     ColStart := t.Coord.ColStart,
                     ColEnd := ((t :: rest).getLast (List.cons_ne_nil _ _)).Coord.ColEnd } }) := by
  have hl := drop_length_lt toks curr t rest h
  have hlen : curr < toks.length := by omega
  have h3 : curr + 3 ≥ toks.length := by omega
  have h0 := idx_drop toks curr _ h 0 (by simp)
  simp only [Nat.add_zero, List.get_eq_getElem, List.getElem_cons_zero] at h0
  have hlast := idx_drop toks curr _ h rest.length (by simp)
  have e1 : curr + rest.length = toks.length - 1 := by omega
  rw [e1] at hlast
  have e2 : (t :: rest).get ⟨rest.length, by simp⟩
      = (t :: rest).getLast (List.cons_ne_nil _ _) := by
    rw [List.getLast_eq_getElem]
    simp
  rw [e2] at hlast
  rw [parseLoop]
  simp only [if_pos hlen, if_pos h3, h0, hlast, bind, Except.bind, if_true]
  rfl

theorem parseLoop_opts_group (line : Str) (lineNum : Int) (toks : List Token)
    (fuel curr : Nat) (args : List Str) (opts : Opts) (t0 t1 t2 t3 : Token)
    (rest : List Token) (h : toks.drop curr = t0 :: t1 :: t2 :: t3 :: rest) :
    parseLoop line lineNum toks (fuel + 1) curr true args opts =
      if t0.Typ = CommaToken ∧ t1.Typ = StringToken
          ∧ t2.Typ = ColonToken ∧ t3.Typ = StringToken then
        t1.Text >>= fun k => t3.Text >>= fun v =>
          parseLoop line lineNum toks fuel (curr + 4) true args (optsSet opts k v)
      else
        .error (.parse
          { Message := lit "expected key-value pair",
            Coord := { Line := line, LineNum := lineNum,
                       ColStart := t0.Coord.ColStart,
                       ColEnd := t3.Coord.ColEnd } }) := by
  have hl := drop_length_lt toks curr t0 _ h
  simp only [List.length_cons] at hl
  have hlen : curr < toks.length := by omega
  have h3 : ¬ curr + 3 ≥ toks.length := by omega
  have hmin : min (curr + 3) (toks.length - 1) = curr + 3 := by omega
  have i0 := idx_drop toks curr _ h 0 (by simp)
  have i1 := idx_drop toks curr _ h 1 (by simp)
  have i2 := idx_drop toks curr _ h 2 (by simp)
  have i3 := idx_drop toks curr _ h 3 (by simp)
  simp only [Nat.add_zero, List.get_eq_getElem, List.getElem_cons_zero,
    List.getElem_cons_succ] at i0 i1 i2 i3
  rw [parseLoop]
  simp only [if_pos hlen, if_neg h3, i0, i1, i2, i3, hmin, bind, Except.bind, if_true]
  split_ifs <;> rfl
theorem parseLoop_pos_run (line : Str) (lineNum : Int) (toks : List Token) (opts : Opts)
    (ps : List Token) :
    ∀ (fuel curr : Nat) (args : List Str) (tail : List Token),
      toks.drop curr = ps ++ tail → (∀ p ∈ ps, p.Typ = StringToken) →
      (∀ p ∈ ps, p.InBounds) →
      parseLoop line lineNum toks (fuel + ps.length) curr false args opts
        = parseLoop line lineNum toks fuel (curr + ps.length) false
            (args ++ ps.map Token.span) opts := by
  induction ps with
  | nil => intro fuel curr args tail _ _ _; simp
  | cons p ps ih =>
    intro fuel curr args tail h hty hin
    have hp : p.Typ = StringToken := hty p (List.mem_cons_self _ _)
    have h1 : ¬ p.Typ = CommaToken := by rw [hp]; decide
    have h2 : ¬ p.Typ = ColonToken := by rw [hp]; decide
    have hnext : toks.drop (curr + 1) = ps ++ tail :=
      drop_append_length toks curr [p] (ps ++ tail) (by simpa using h)
    have e : fuel + (p :: ps).length = (fuel + ps.length) + 1 := by
      simp only [List.length_cons]; omega
    rw [e, parseLoop_pos line lineNum toks _ curr args opts p (ps ++ tail) (by simpa using h),
      if_neg h1, if_neg h2, Token.Text_of_inBounds p (hin p (List.mem_cons_self _ _))]
    simp only [bind, Except.bind]
    rw [ih (fuel) (curr + 1) (args ++ [p.span]) tail hnext
      (fun q hq => hty q (List.mem_cons_of_mem _ hq))
      (fun q hq => hin q (List.mem_cons_of_mem _ hq))]
    simp only [List.length_cons, List.map_cons, List.append_assoc, List.singleton_append]
    congr 1
    omega

theorem parseLoop_opts_run (line : Str) (lineNum : Int) (toks : List Token)
    (args : List Str) (gs : List OptionGroup) :
    ∀ (fuel curr : Nat) (opts : Opts) (tail : List Token),
      toks.drop curr = groupsToks gs ++ tail → (∀ g ∈ gs, g.WellFormed) →
      (∀ g ∈ gs, g.key.InBounds ∧ g.value.InBounds) →
      parseLoop line lineNum toks (fuel + gs.length) curr true args opts
        = parseLoop line lineNum toks fuel (curr + 4 * gs.length) true args
            (mapOf gs opts) := by
  induction gs with
  | nil => intro fuel curr opts tail _ _ _; simp [mapOf]
  | cons g gs ih =>
    intro fuel curr opts tail h hwf hin
    have hg : g.comma.Typ = CommaToken ∧ g.key.Typ = StringToken
        ∧ g.colon.Typ = ColonToken ∧ g.value.Typ = StringToken :=
      hwf g (List.mem_cons_self _ _)
    have hgi := hin g (List.mem_cons_self _ _)
    have h4 : toks.drop curr
        = g.comma :: g.key :: g.colon :: g.value :: (groupsToks gs ++ tail) := by
      simpa [groupsToks, OptionGroup.toks] using h
    have hnext : toks.drop (curr + 4) = groupsToks gs ++ tail :=
      drop_append_length toks curr [g.comma, g.key, g.colon, g.value] _ (by simpa using h4)
    have e : fuel + (g :: gs).length = (fuel + gs.length) + 1 := by
      simp only [List.length_cons]; omega
    rw [e, parseLoop_opts_group line lineNum toks _ curr args opts _ _ _ _ _ h4,
      if_pos hg, Token.Text_of_inBounds _ hgi.1, Token.Text_of_inBounds _ hgi.2]
    simp only [bind, Except.bind]
    rw [ih fuel (curr + 4) _ tail hnext
      (fun q hq => hwf q (List.mem_cons_of_mem _ hq))
      (fun q hq => hin q (List.mem_cons_of_mem _ hq))]
    simp only [List.length_cons, mapOf, List.foldl_cons]
    congr 1
    omega

theorem parseLoop_opts_ok (line : Str) (lineNum : Int) (toks : List Token) :
    ∀ (fuel curr : Nat) (args : List Str) (opts : Opts) (r : List Str × Opts),
      parseLoop line lineNum toks fuel curr true args opts = .ok r →
      ∃ gs, toks.drop curr = groupsToks gs ∧ ∀ g ∈ gs, g.WellFormed := by
  intro fuel
  induction fuel with
  | zero => intro curr args opts r h; simp [parseLoop] at h
  | succ fuel ih =>
    intro curr args opts r h
    match hd : toks.drop curr with
    | [] => exact ⟨[], by simp [groupsToks], by simp⟩
    | [t0] =>
      rw [parseLoop_opts_short line lineNum toks fuel curr args opts t0 [] hd (by simp)] at h
      cases h
    | [t0, t1] =>
      rw [parseLoop_opts_short line lineNum toks fuel curr args opts t0 [t1] hd (by simp)] at h
      cases h
    | [t0, t1, t2] =>
      rw [parseLoop_opts_short line lineNum toks fuel curr args opts t0 [t1, t2] hd
        (by simp)] at h
      cases h
    | t0 :: t1 :: t2 :: t3 :: rest =>
      rw [parseLoop_opts_group line lineNum toks fuel curr args opts t0 t1 t2 t3 rest hd] at h
      by_cases hty : t0.Typ = CommaToken ∧ t1.Typ = StringToken
          ∧ t2.Typ = ColonToken ∧ t3.Typ = StringToken
      · rw [if_pos hty] at h
        cases hk : t1.Text with
        | error e => rw [hk] at h; cases h
        | ok k =>
          cases hv : t3.Text with
          | error e => rw [hk, hv] at h; cases h
          | ok v =>
            rw [hk, hv] at h
            simp only [bind, Except.bind] at h
            have hnext : toks.drop (curr + 4) = rest :=
              drop_append_length toks curr [t0, t1, t2, t3] rest (by simpa using hd)
            obtain ⟨gs, hgs, hwf⟩ := ih _ _ _ _ h
            refine ⟨⟨t0, t1, t2, t3⟩ :: gs, ?_, ?_⟩
            · rw [hnext] at hgs
              simp [groupsToks, OptionGroup.toks, hgs]
            · intro g hg
              rcases List.mem_cons.1 hg with rfl | hg
              · exact hty
              · exact hwf g hg
      · rw [if_neg hty] at h
        cases h

theorem parseLoop_pos_ok (line : Str) (lineNum : Int) (toks : List Token)
    (hty : ∀ t ∈ toks, t.Typ = StringToken ∨ t.Typ = CommaToken ∨ t.Typ = ColonToken) :
    ∀ (fuel curr : Nat) (args : List Str) (opts : Opts) (r : List Str × Opts),
      parseLoop line lineNum toks fuel curr false args opts = .ok r →
      ∃ ps gs, toks.drop curr = ps ++ groupsToks gs
        ∧ (∀ p ∈ ps, p.Typ = StringToken) ∧ ∀ g ∈ gs, g.WellFormed := by
  intro fuel
  induction fuel with
  | zero => intro curr args opts r h; simp [parseLoop] at h
  | succ fuel ih =>
    intro curr args opts r h
    match hd : toks.drop curr with
    | [] => exact ⟨[], [], by simp [groupsToks], by simp, by simp⟩
    | t :: rest =>
      rw [parseLoop_pos line lineNum toks fuel curr args opts t rest hd] at h
      by_cases h1 : t.Typ = CommaToken
      · rw [if_pos h1] at h
        obtain ⟨gs, hgs, hwf⟩ := parseLoop_opts_ok line lineNum toks _ _ _ _ _ h
        exact ⟨[], gs, by rw [← hd, hgs]; simp, by simp, hwf⟩
      · rw [if_neg h1] at h
        by_cases h2 : t.Typ = ColonToken
        · rw [if_pos h2] at h
          cases h
        · rw [if_neg h2] at h
          cases ha : t.Text with
          | error e => rw [ha] at h; cases h
          | ok a =>
            rw [ha] at h
            simp only [bind, Except.bind] at h
            have hnext : toks.drop (curr + 1) = rest :=
              drop_append_length toks curr [t] rest (by simpa using hd)
            obtain ⟨ps, gs, hps, hs, hwf⟩ := ih _ _ _ _ h
            have hmem : t ∈ toks := by
              have : t ∈ toks.drop curr := by rw [hd]; exact List.mem_cons_self _ _
              exact List.mem_of_mem_drop this
            have ht : t.Typ = StringToken := by
              rcases hty t hmem with h0 | h0 | h0
              · exact h0
              · exact absurd h0 h1
              · exact absurd h0 h2
            refine ⟨t :: ps, gs, ?_, ?_, hwf⟩
            · rw [hnext] at hps
              simp [hps]
            · intro p hp
              rcases List.mem_cons.1 hp with rfl | hp
              · exact ht
              · exact hs p hp
/-! ## Lemmas: the lexer -/

theorem push_noop (coord : FileCoord) (st : LexState) (e : Int) (h : st.bStart < 0) :
    pushAccumulatedToken coord st e false = .ok st := by
  have : ¬ (false = true ∨ (st.bStart ≥ 0 ∧ e - st.bStart > 0)) := by
    intro h1
    rcases h1 with h1 | h1
    · cases h1
    · omega
  simp only [pushAccumulatedToken, if_neg this]
  rfl

/-- The token that `pushAccumulatedToken` appends. -/
theorem push_cases (coord : FileCoord) (st st1 : LexState) (e : Int) (force : Bool)
    (h : pushAccumulatedToken coord st e force = .ok st1) :
    (st1 = st) ∨
      ∃ t : Token, st1 = { st with toks := st.toks ++ [t], bStart := -1 }
        ∧ t.Coord = { Line := coord.Line, LineNum := coord.LineNum,
                      ColStart := st.bStart, ColEnd := e }
        ∧ t.InBounds
        ∧ (t.Typ = StringToken ∨ t.Typ = CommaToken ∨ t.Typ = ColonToken) := by
  unfold pushAccumulatedToken at h
  split_ifs at h with hc
  · right
    cases htext : FileCoord.Text
        { Line := coord.Line, LineNum := coord.LineNum, ColStart := st.bStart, ColEnd := e } with
    | error err =>
      simp only [htext, bind, Except.bind] at h
      cases h
    | ok text =>
      simp only [htext, bind, Except.bind, pure, Except.pure, Except.ok.injEq] at h
      have hb : 0 ≤ st.bStart ∧ st.bStart ≤ e ∧ e ≤ (coord.Line.length : Int) := by
        unfold FileCoord.Text at htext
        split_ifs at htext with hb
        exact hb
      refine ⟨_, h.symm, rfl, hb, ?_⟩
      simp only
      split_ifs <;> simp
  · left
    simp only [pure, Except.pure, Except.ok.injEq] at h
    exact h.symm

theorem push_inv (coord : FileCoord) (st st1 : LexState) (e : Int) (force : Bool)
    (h : pushAccumulatedToken coord st e force = .ok st1)
    (hinv : ∀ t ∈ st.toks, TokOK t) : ∀ t ∈ st1.toks, TokOK t := by
  rcases push_cases coord st st1 e force h with h1 | ⟨t, h1, _, hb, hty⟩
  · rw [h1]; exact hinv
  · rw [h1]
    intro u hu
    simp only [List.mem_append, List.mem_singleton] at hu
    rcases hu with hu | hu
    · exact hinv u hu
    · rw [hu]; exact ⟨hb, hty⟩

theorem bind_eq_ok {α β : Type} (x : Except Error α) (k : α → Except Error β) (r : β)
    (h : (x >>= k) = .ok r) : ∃ a, x = .ok a ∧ k a = .ok r := by
  cases x with
  | error e => cases h
  | ok a => exact ⟨a, rfl, h⟩

theorem lexLoop_inv (coord : FileCoord) (l : List (Nat × Nat)) :
    ∀ (st st1 : LexState) (e : Int), lexLoop coord l st = .ok (st1, e) →
      (∀ t ∈ st.toks, TokOK t) → ∀ t ∈ st1.toks, TokOK t := by
  induction l with
  | nil =>
    intro st st1 e h hinv
    simp only [lexLoop, pure, Except.pure, Except.ok.injEq, Prod.mk.injEq] at h
    rw [← h.1]; exact hinv
  | cons p l ih =>
    obtain ⟨i, r⟩ := p
    intro st st1 e h hinv
    rw [lexLoop] at h
    by_cases hq : st.quoted = true
    · rw [if_pos hq] at h
      by_cases hr : r = 0x22
      · rw [if_pos hr] at h
        obtain ⟨s1, hp, h⟩ := bind_eq_ok _ _ _ h
        exact ih _ _ _ h (push_inv coord st s1 _ _ hp hinv)
      · rw [if_neg hr] at h
        exact ih _ _ _ h hinv
    · rw [if_neg hq] at h
      by_cases h22 : r = 0x22
      · rw [if_pos h22] at h
        by_cases hi : i = 0
        · rw [if_pos hi] at h
          cases h
        · rw [if_neg hi] at h
          obtain ⟨s1, hp, h⟩ := bind_eq_ok _ _ _ h
          exact ih _ _ _ h (push_inv coord st s1 _ _ hp hinv)
      · rw [if_neg h22] at h
        by_cases h23 : r = 0x23
        · rw [if_pos h23] at h
          obtain ⟨s1, hp, h⟩ := bind_eq_ok _ _ _ h
          simp only [pure, Except.pure, Except.ok.injEq, Prod.mk.injEq] at h
          rw [← h.1]
          exact push_inv coord st s1 _ _ hp hinv
        · rw [if_neg h23] at h
          by_cases h3a : r = 0x3A
          · rw [if_pos h3a] at h
            obtain ⟨s1, hp, h⟩ := bind_eq_ok _ _ _ h
            obtain ⟨s2, hp2, h⟩ := bind_eq_ok _ _ _ h
            exact ih _ _ _ h
              (push_inv coord _ s2 _ _ hp2 (push_inv coord st s1 _ _ hp hinv))
          · rw [if_neg h3a] at h
            by_cases h2c : r = 0x2C
            · rw [if_pos h2c] at h
              obtain ⟨s1, hp, h⟩ := bind_eq_ok _ _ _ h
              obtain ⟨s2, hp2, h⟩ := bind_eq_ok _ _ _ h
              exact ih _ _ _ h
                (push_inv coord _ s2 _ _ hp2 (push_inv coord st s1 _ _ hp hinv))
            · rw [if_neg h2c] at h
              by_cases hsp : IsSpace r = true
              · rw [if_pos hsp] at h
                obtain ⟨s1, hp, h⟩ := bind_eq_ok _ _ _ h
                exact ih _ _ _ h (push_inv coord st s1 _ _ hp hinv)
              · rw [if_neg hsp] at h
                refine ih _ _ _ h ?_
                by_cases hb : st.bStart < 0
                · rw [if_pos hb]; exact hinv
                · rw [if_neg hb]; exact hinv

theorem lexLine_inv (coord : FileCoord) (toks : List Token)
    (h : lexLine coord = .ok toks) : ∀ t ∈ toks, TokOK t := by
  unfold lexLine at h
  obtain ⟨res, hl, h⟩ := bind_eq_ok _ _ _ h
  obtain ⟨st, e0⟩ := res
  have hst := lexLoop_inv coord _ _ _ _ hl (by simp)
  simp only at h
  by_cases hq : st.quoted = true
  · rw [if_pos hq] at h
    cases h
  · rw [if_neg hq] at h
    obtain ⟨s1, hp, h⟩ := bind_eq_ok _ _ _ h
    simp only [pure, Except.pure, Except.ok.injEq] at h
    rw [← h]
    exact push_inv coord st s1 _ _ hp hst
/-! ## Lemmas: `ParseLine` on a token sequence -/

theorem groupsToks_length (gs : List OptionGroup) :
    (groupsToks gs).length = 4 * gs.length := by
  induction gs with
  | nil => rfl
  | cons g gs ih => simp [groupsToks, OptionGroup.toks, ih]; omega

theorem mem_groupsToks (gs : List OptionGroup) (g : OptionGroup) (t : Token)
    (hg : g ∈ gs) (ht : t ∈ g.toks) : t ∈ groupsToks gs := by
  induction gs with
  | nil => cases hg
  | cons q gs ih =>
    rcases List.mem_cons.1 hg with rfl | hg
    · simp [groupsToks, ht]
    · simp [groupsToks, ih hg]

theorem parseLoop_grammar (line : Str) (lineNum : Int) (toks : List Token)
    (ps : List Token) (gs : List OptionGroup) (curr : Nat) (args : List Str)
    (opts : Opts) (f : Nat)
    (hdrop : toks.drop curr = ps ++ groupsToks gs)
    (hps : ∀ p ∈ ps, p.Typ = StringToken) (hgs : ∀ g ∈ gs, g.WellFormed)
    (hok : ∀ t ∈ toks, TokOK t) :
    parseLoop line lineNum toks (f + 1 + gs.length + 1 + ps.length) curr false args opts
      = .ok (args ++ ps.map Token.span, mapOf gs opts) := by
  have hsub : ∀ t ∈ ps ++ groupsToks gs, t ∈ toks := by
    intro t ht
    rw [← hdrop] at ht
    exact List.mem_of_mem_drop ht
  rw [parseLoop_pos_run line lineNum toks opts ps _ curr args _ hdrop hps
    (fun p hp => (hok p (hsub p (List.mem_append_left _ hp))).1)]
  have hnext := drop_append_length toks curr ps _ hdrop
  cases gs with
  | nil =>
    exact parseLoop_nil line lineNum toks _ _ _ _ _ (by simpa [groupsToks] using hnext)
  | cons g gs =>
    have hg : g.comma.Typ = CommaToken := (hgs g (List.mem_cons_self _ _)).1
    have hd : toks.drop (curr + ps.length)
        = g.comma :: ([g.key, g.colon, g.value] ++ groupsToks gs) := by
      simpa [groupsToks, OptionGroup.toks] using hnext
    rw [parseLoop_pos line lineNum toks _ _ _ _ _ _ hd, if_pos hg]
    have hin : ∀ h ∈ g :: gs, h.key.InBounds ∧ h.value.InBounds := by
      intro h hh
      have hm : ∀ t ∈ h.toks, t ∈ toks := by
        intro t ht
        exact hsub t (List.mem_append_right _ (mem_groupsToks _ h t hh ht))
      exact ⟨(hok _ (hm _ (by simp [OptionGroup.toks]))).1,
        (hok _ (hm _ (by simp [OptionGroup.toks]))).1⟩
    rw [parseLoop_opts_run line lineNum toks _ (g :: gs) (f + 1) _ opts []
      (by simpa using hnext) hgs hin]
    exact parseLoop_nil line lineNum toks _ _ _ _ _
      (by
        have := drop_append_length toks (curr + ps.length) (groupsToks (g :: gs)) []
          (by simpa using hnext)
        rwa [groupsToks_length] at this)

theorem optsGet_optsSet (m : Opts) (k v k1 : Str) :
    optsGet (optsSet m k v) k1 = if k = k1 then some v else optsGet m k1 := by
  induction m with
  | nil => simp [optsSet, optsGet]
  | cons e m ih =>
    obtain ⟨k0, v0⟩ := e
    by_cases h0 : k0 = k
    · subst h0
      by_cases h1 : k0 = k1 <;> simp [optsSet, optsGet, h1]
    · by_cases h1 : k0 = k1
      · subst h1
        have : ¬ k = k0 := fun h => h0 h.symm
        simp [optsSet, optsGet, h0, this]
      · simp [optsSet, optsGet, h0, h1, ih]

theorem mapOf_append (gs1 gs2 : List OptionGroup) (m : Opts) :
    mapOf (gs1 ++ gs2) m = mapOf gs2 (mapOf gs1 m) := by
  simp [mapOf, List.foldl_append]

theorem optsGet_mapOf_other (gs : List OptionGroup) (k : Str)
    (h : ∀ g ∈ gs, g.key.span ≠ k) : ∀ m, optsGet (mapOf gs m) k = optsGet m k := by
  induction gs with
  | nil => intro m; rfl
  | cons g gs ih =>
    intro m
    have h1 : g.key.span ≠ k := h g (List.mem_cons_self _ _)
    have : mapOf (g :: gs) m = mapOf gs (optsSet m g.key.span g.value.span) := rfl
    rw [this, ih (fun q hq => h q (List.mem_cons_of_mem _ hq)), optsGet_optsSet, if_neg h1]

theorem optsGet_mapOf_last (gs1 gs2 : List OptionGroup) (g : OptionGroup) (m : Opts)
    (h : ∀ q ∈ gs2, q.key.span ≠ g.key.span) :
    optsGet (mapOf (gs1 ++ g :: gs2) m) g.key.span = some g.value.span := by
  rw [mapOf_append]
  have : mapOf (g :: gs2) (mapOf gs1 m)
      = mapOf gs2 (optsSet (mapOf gs1 m) g.key.span g.value.span) := rfl
  rw [this, optsGet_mapOf_other gs2 _ h, optsGet_optsSet, if_pos rfl]

theorem parseTokens_cons (ρ : RangeOrder) (lineNum : Int) (line : Str) (t0 : Token)
    (rest : List Token) (h0 : t0.Typ = StringToken) (hb : t0.InBounds) :
    parseTokens ρ lineNum line (t0 :: rest) =
      parseLoop line lineNum (t0 :: rest) ((t0 :: rest).length + 1) 1 false [] []
        >>= fun r => dispatch ρ t0.span r.1 r.2 := by
  have h1 : ¬ (t0.Typ ≠ StringToken) := by simp [h0]
  simp only [parseTokens, List.length_cons, Nat.add_one_ne_zero, if_false, idx,
    List.getElem?_cons_zero, bind, Except.bind, if_neg h1, Token.Text_of_inBounds t0 hb]

theorem ParseLine_of_lex (ρ : RangeOrder) (lineNum : Int) (line : Str) (toks : List Token)
    (h : lexLine { Line := line, LineNum := lineNum, ColStart := 0, ColEnd := 0 } = .ok toks) :
    ParseLine ρ lineNum line = parseTokens ρ lineNum line toks := by
  simp [ParseLine, h, bind, Except.bind]

theorem parseTokens_grammar (ρ : RangeOrder) (lineNum : Int) (line : Str)
    (t0 : Token) (ps : List Token) (gs : List OptionGroup)
    (h0 : t0.Typ = StringToken) (hps : ∀ p ∈ ps, p.Typ = StringToken)
    (hgs : ∀ g ∈ gs, g.WellFormed)
    (hok : ∀ t ∈ t0 :: (ps ++ groupsToks gs), TokOK t) :
    parseTokens ρ lineNum line (t0 :: (ps ++ groupsToks gs))
      = dispatch ρ t0.span (ps.map Token.span) (mapOf gs []) := by
  rw [parseTokens_cons ρ lineNum line t0 _ h0 (hok t0 (List.mem_cons_self _ _)).1]
  have hf : (t0 :: (ps ++ groupsToks gs)).length + 1
      = 3 * gs.length + 1 + gs.length + 1 + ps.length := by
    simp only [List.length_cons, List.length_append, groupsToks_length]
    omega
  rw [hf, parseLoop_grammar line lineNum _ ps gs 1 [] [] _ (by simp) hps hgs hok]
  rfl
/-- C1: when `lexLine` returns the tokens `t0 ps gs` whose kinds match
`String String* (Comma String Colon String)*`, every token has a text, and
`ParseLine` returns what the validator selected by the text of `t0` returns
on the texts of the positional tokens `ps`, in source order, and the mapping
built from the key/value pairs of the groups `gs`, in which the last pair with
a given key gives the value of that key; the names `repo`, `repo-src`,
`package`, `deb`, `ppa`, `pin` and `hold` select their validators and every
other command text `c` gives the error `unexpected directive "c"`. -/
theorem c1_parseLine_dispatch (ρ : RangeOrder) (lineNum : Int) (line : Str)
    (t0 : Token) (ps : List Token) (gs : List OptionGroup)
    (hlex : lexLine { Line := line, LineNum := lineNum, ColStart := 0, ColEnd := 0 }
      = .ok (t0 :: (ps ++ groupsToks gs)))
    (h0 : t0.Typ = StringToken) (hps : ∀ p ∈ ps, p.Typ = StringToken)
    (hgs : ∀ g ∈ gs, g.WellFormed) :
    (∀ t ∈ t0 :: (ps ++ groupsToks gs), t.Text = .ok t.span)
      ∧ (∀ gs1 g gs2, gs = gs1 ++ g :: gs2 → (∀ q ∈ gs2, q.key.span ≠ g.key.span) →
          optsGet (mapOf gs []) g.key.span = some g.value.span)
      ∧ (∀ k, (∀ g ∈ gs, g.key.span ≠ k) → optsGet (mapOf gs []) k = none)
      ∧ ParseLine ρ lineNum line =
          if t0.span = lit "repo" ∨ t0.span = lit "repo-src" then
            (parseRepoDirective ρ t0.span (ps.map Token.span) (mapOf gs [])).map .repo
          else if t0.span = lit "package" then
            (parsePackageDirective ρ t0.span (ps.map Token.span) (mapOf gs [])).map .package
          else if t0.span = lit "deb" then
            (parseDebFileDirective t0.span (ps.map Token.span) (mapOf gs [])).map .deb
          else if t0.span = lit "ppa" then
            (parsePpaDirective t0.span (ps.map Token.span) (mapOf gs [])).map .ppa
          else if t0.span = lit "pin" then
            (parsePinDirective ρ t0.span (ps.map Token.span) (mapOf gs [])).map .pin
          else if t0.span = lit "hold" then
            (parseHoldDirective t0.span (ps.map Token.span) (mapOf gs [])).map .hold
          else
            .error (.errorf (lit "unexpected directive \"" ++ t0.span ++ lit "\"")) := by
  have hok := lexLine_inv _ _ hlex
  refine ⟨fun t ht => Token.Text_of_inBounds t (hok t ht).1, ?_, ?_, ?_⟩
  · intro gs1 g gs2 hgs2 hlast
    rw [hgs2]
    exact optsGet_mapOf_last gs1 gs2 g [] hlast
  · intro k hk
    rw [optsGet_mapOf_other gs k hk]
    rfl
  · rw [ParseLine_of_lex ρ lineNum line _ hlex,
      parseTokens_grammar ρ lineNum line t0 ps gs h0 hps hgs hok]
    rfl

/-- C1, at the line `package "curl", version: "5.3", version: "6"` and at
the unknown command of the line `foo bar`. -/
theorem c1_parseLine_dispatch_witness :
    ParseLine id 0 (lit "package \"curl\", version: \"5.3\", version: \"6\"")
        = .ok (.package { Name := lit "curl", Version := lit "6", Release := [] })
      ∧ ParseLine id 0 (lit "foo bar")
        = .error (.errorf (lit "unexpected directive \"foo\"")) :=
  ⟨(c1_parseLine_dispatch id 0 (lit "package \"curl\", version: \"5.3\", version: \"6\"")
      ⟨StringToken, ⟨lit "package \"curl\", version: \"5.3\", version: \"6\"", 0, 0, 7⟩⟩
      [⟨StringToken, ⟨lit "package \"curl\", version: \"5.3\", version: \"6\"", 0, 9, 13⟩⟩]
      [⟨⟨CommaToken, ⟨lit "package \"curl\", version: \"5.3\", version: \"6\"", 0, 14, 15⟩⟩,
        ⟨StringToken, ⟨lit "package \"curl\", version: \"5.3\", version: \"6\"", 0, 16, 23⟩⟩,
        ⟨ColonToken, ⟨lit "package \"curl\", version: \"5.3\", version: \"6\"", 0, 23, 24⟩⟩,
        ⟨StringToken, ⟨lit "package \"curl\", version: \"5.3\", version: \"6\"", 0, 26, 29⟩⟩⟩,
       ⟨⟨CommaToken, ⟨lit "package \"curl\", version: \"5.3\", version: \"6\"", 0, 30, 31⟩⟩,
        ⟨StringToken, ⟨lit "package \"curl\", version: \"5.3\", version: \"6\"", 0, 32, 39⟩⟩,
        ⟨ColonToken, ⟨lit "package \"curl\", version: \"5.3\", version: \"6\"", 0, 39, 40⟩⟩,
        ⟨StringToken, ⟨lit "package \"curl\", version: \"5.3\", version: \"6\"", 0, 42, 43⟩⟩⟩]
      (by decide) (by decide) (by decide) (by decide)).2.2.2.trans (by decide),
   (c1_parseLine_dispatch id 0 (lit "foo bar")
      ⟨StringToken, ⟨lit "foo bar", 0, 0, 3⟩⟩
      [⟨StringToken, ⟨lit "foo bar", 0, 4, 7⟩⟩] []
      (by decide) (by decide) (by decide) (by decide)).2.2.2.trans (by decide)⟩
/-! ## Lemmas: the grammar errors of `ParseLine` -/

theorem parseTokens_first_not_string (ρ : RangeOrder) (lineNum : Int) (line : Str)
    (t0 : Token) (rest : List Token) (h0 : t0.Typ ≠ StringToken) :
    parseTokens ρ lineNum line (t0 :: rest)
      = .error (.parse { Message := lit "expected string value", Coord := t0.Coord }) := by
  simp only [parseTokens, List.length_cons, Nat.add_one_ne_zero, if_false, idx,
    List.getElem?_cons_zero, bind, Except.bind, if_pos h0]
  rfl

theorem parseTokens_colon (ρ : RangeOrder) (lineNum : Int) (line : Str)
    (t0 : Token) (ps : List Token) (tc : Token) (rest : List Token)
    (h0 : t0.Typ = StringToken) (hps : ∀ p ∈ ps, p.Typ = StringToken)
    (hc : tc.Typ = ColonToken)
    (hok : ∀ t ∈ t0 :: (ps ++ tc :: rest), TokOK t) :
    parseTokens ρ lineNum line (t0 :: (ps ++ tc :: rest))
      = .error (.parse { Message := lit "unexpected colon", Coord := tc.Coord }) := by
  rw [parseTokens_cons ρ lineNum line t0 _ h0 (hok t0 (List.mem_cons_self _ _)).1]
  have hf : (t0 :: (ps ++ tc :: rest)).length + 1 = (rest.length + 2) + 1 + ps.length := by
    simp only [List.length_cons, List.length_append]
    omega
  have hd : (t0 :: (ps ++ tc :: rest)).drop 1 = ps ++ tc :: rest := by simp
  have hnc : ¬ tc.Typ = CommaToken := by rw [hc]; decide
  rw [hf, parseLoop_pos_run line lineNum _ [] ps _ 1 [] _ hd hps
      (fun p hp => (hok p (List.mem_cons_of_mem _ (List.mem_append_left _ hp))).1),
    parseLoop_pos line lineNum _ _ _ _ _ tc rest (drop_append_length _ 1 ps _ hd),
    if_neg hnc, if_pos hc]
  rfl

theorem parseTokens_bad_option (ρ : RangeOrder) (lineNum : Int) (line : Str)
    (t0 : Token) (ps : List Token) (gs : List OptionGroup) (bad : List Token)
    (h0 : t0.Typ = StringToken) (hps : ∀ p ∈ ps, p.Typ = StringToken)
    (hgs : ∀ g ∈ gs, g.WellFormed) (hbad : bad ≠ [])
    (hcomma : gs = [] → ∃ b rest, bad = b :: rest ∧ b.Typ = CommaToken)
    (hnot : ¬ ∃ (g : OptionGroup) (rest : List Token), g.WellFormed ∧ bad = g.toks ++ rest)
    (hok : ∀ t ∈ t0 :: (ps ++ (groupsToks gs ++ bad)), TokOK t) :
    ∃ coord,
      parseTokens ρ lineNum line (t0 :: (ps ++ (groupsToks gs ++ bad)))
          = .error (.parse { Message := lit "expected key-value pair", Coord := coord })
        ∨ parseTokens ρ lineNum line (t0 :: (ps ++ (groupsToks gs ++ bad)))
          = .error (.parse
              { Message := lit "expected option, got end of line", Coord := coord }) := by
  rw [parseTokens_cons ρ lineNum line t0 _ h0 (hok t0 (List.mem_cons_self _ _)).1]
  obtain ⟨toks, htoks⟩ : ∃ toks, toks = t0 :: (ps ++ (groupsToks gs ++ bad)) := ⟨_, rfl⟩
  rw [← htoks] at hok ⊢
  have hd : toks.drop 1 = ps ++ (groupsToks gs ++ bad) := by rw [htoks]; simp
  obtain ⟨b, brest, hb⟩ := List.exists_cons_of_ne_nil hbad
  have hf : toks.length + 1
      = (3 * gs.length + brest.length + 1 + 1) + gs.length + 1 + ps.length := by
    rw [htoks, hb]
    simp only [List.length_cons, List.length_append, groupsToks_length]
    omega
  have hsub : ∀ t ∈ ps ++ (groupsToks gs ++ bad), t ∈ toks := by
    intro t ht
    rw [htoks]
    exact List.mem_cons_of_mem _ ht
  have hd2 := drop_append_length toks 1 ps _ hd
  -- the token at which the positional phase ends is a comma
  obtain ⟨c, crest, hc, hcty⟩ : ∃ c crest, groupsToks gs ++ bad = c :: crest
      ∧ c.Typ = CommaToken := by
    cases gs with
    | nil =>
      obtain ⟨b1, r1, hb1, hty1⟩ := hcomma rfl
      exact ⟨b1, r1, by simp [groupsToks, hb1], hty1⟩
    | cons g gs =>
      exact ⟨g.comma, g.key :: g.colon :: g.value :: (groupsToks gs ++ bad),
        by simp [groupsToks, OptionGroup.toks],
        (hgs g (List.mem_cons_self _ _)).1⟩
  have hin : ∀ h ∈ gs, h.key.InBounds ∧ h.value.InBounds := by
    intro h hh
    have hm : ∀ t ∈ h.toks, t ∈ toks := fun t ht =>
      hsub t (List.mem_append_right _ (List.mem_append_left _ (mem_groupsToks _ h t hh ht)))
    exact ⟨(hok _ (hm _ (by simp [OptionGroup.toks]))).1,
      (hok _ (hm _ (by simp [OptionGroup.toks]))).1⟩
  have hd3 : toks.drop (1 + ps.length + 4 * gs.length) = bad := by
    have := drop_append_length toks (1 + ps.length) (groupsToks gs) bad hd2
    rwa [groupsToks_length] at this
  rw [hf, parseLoop_pos_run line lineNum toks [] ps _ 1 [] _ hd hps
      (fun p hp => (hok p (hsub p (List.mem_append_left _ hp))).1),
    parseLoop_pos line lineNum toks _ _ _ _ c crest (by rw [hd2, hc]), if_pos hcty,
    parseLoop_opts_run line lineNum toks _ gs _ _ [] bad hd2 hgs hin]
  rw [hb] at hd3
  by_cases hshort : brest.length < 3
  · rw [parseLoop_opts_short line lineNum toks _ _ _ _ b brest hd3 hshort]
    exact ⟨_, Or.inr rfl⟩
  · match brest, hshort, hb, hd3 with
    | b1 :: b2 :: b3 :: rest, _, hb, hd3 =>
      rw [parseLoop_opts_group line lineNum toks _ _ _ _ b b1 b2 b3 rest hd3]
      have hw : ¬ (b.Typ = CommaToken ∧ b1.Typ = StringToken
          ∧ b2.Typ = ColonToken ∧ b3.Typ = StringToken) := by
        intro hw
        exact hnot ⟨⟨b, b1, b2, b3⟩, rest, hw, by simp [OptionGroup.toks, hb]⟩
      rw [if_neg hw]
      exact ⟨_, Or.inl rfl⟩
    | [], h, _, _ => exact absurd (by simp) h
    | [_], h, _, _ => exact absurd (by simp) h
    | [_, _], h, _, _ => exact absurd (by simp) h

theorem parseTokens_ok_grammar (ρ : RangeOrder) (lineNum : Int) (line : Str)
    (toks : List Token) (d : Directive) (hok : ∀ t ∈ toks, TokOK t)
    (h : parseTokens ρ lineNum line toks = .ok d) :
    ∃ t0 ps gs, toks = t0 :: (ps ++ groupsToks gs) ∧ t0.Typ = StringToken
      ∧ (∀ p ∈ ps, p.Typ = StringToken) ∧ ∀ g ∈ gs, g.WellFormed := by
  cases toks with
  | nil => simp [parseTokens] at h
  | cons t0 rest =>
    by_cases h0 : t0.Typ = StringToken
    · rw [parseTokens_cons ρ lineNum line t0 rest h0 (hok t0 (List.mem_cons_self _ _)).1] at h
      obtain ⟨r, hr, _⟩ := bind_eq_ok _ _ _ h
      obtain ⟨ps, gs, hd, hps, hgs⟩ :=
        parseLoop_pos_ok line lineNum (t0 :: rest) (fun t ht => (hok t ht).2) _ _ _ _ _ hr
      refine ⟨t0, ps, gs, ?_, h0, hps, hgs⟩
      simp only [List.drop_succ_cons, List.drop_zero] at hd
      rw [hd]
    · rw [parseTokens_first_not_string ρ lineNum line t0 rest h0] at h
      cases h
/-- C3: on the tokens that `lexLine` returns, `ParseLine` succeeds only when
their kinds match `String String* (Comma String Colon String)*`; a first
token that is a Comma or a Colon gives the ParseError "expected string value"
at that token; a Colon after the command and positional Strings, before any
Comma, gives the ParseError "unexpected colon" at that token; and once a Comma
has been met, tokens `bad` that remain after complete groups and do not begin
with a complete group give the ParseError "expected key-value pair" or
"expected option, got end of line". -/
theorem c3_grammar_errors (ρ : RangeOrder) (lineNum : Int) (line : Str)
    (toks : List Token)
    (hlex : lexLine { Line := line, LineNum := lineNum, ColStart := 0, ColEnd := 0 }
      = .ok toks) :
    (∀ d, ParseLine ρ lineNum line = .ok d →
        ∃ t0 ps gs, toks = t0 :: (ps ++ groupsToks gs) ∧ t0.Typ = StringToken
          ∧ (∀ p ∈ ps, p.Typ = StringToken) ∧ ∀ g ∈ gs, g.WellFormed)
      ∧ (∀ t0 rest, toks = t0 :: rest → t0.Typ = CommaToken ∨ t0.Typ = ColonToken →
          ParseLine ρ lineNum line
            = .error (.parse { Message := lit "expected string value", Coord := t0.Coord }))
      ∧ (∀ t0 ps tc rest, toks = t0 :: (ps ++ tc :: rest) → t0.Typ = StringToken →
          (∀ p ∈ ps, p.Typ = StringToken) → tc.Typ = ColonToken →
          ParseLine ρ lineNum line
            = .error (.parse { Message := lit "unexpected colon", Coord := tc.Coord }))
      ∧ (∀ t0 ps gs bad, toks = t0 :: (ps ++ (groupsToks gs ++ bad)) →
          t0.Typ = StringToken → (∀ p ∈ ps, p.Typ = StringToken) →
          (∀ g ∈ gs, g.WellFormed) → bad ≠ [] →
          (gs = [] → ∃ b rest, bad = b :: rest ∧ b.Typ = CommaToken) →
          (¬ ∃ (g : OptionGroup) (rest : List Token), g.WellFormed ∧ bad = g.toks ++ rest) →
          ∃ coord,
            ParseLine ρ lineNum line
                = .error (.parse { Message := lit "expected key-value pair", Coord := coord })
              ∨ ParseLine ρ lineNum line
                = .error (.parse
                    { Message := lit "expected option, got end of line",
                      Coord := coord })) := by
  have hok := lexLine_inv _ _ hlex
  rw [ParseLine_of_lex ρ lineNum line toks hlex]
  refine ⟨?_, ?_, ?_, ?_⟩
  · intro d h
    exact parseTokens_ok_grammar ρ lineNum line toks d hok h
  · intro t0 rest ht h0
    rw [ht]
    refine parseTokens_first_not_string ρ lineNum line t0 rest ?_
    rcases h0 with h0 | h0 <;> rw [h0] <;> decide
  · intro t0 ps tc rest ht h0 hps hc
    rw [ht] at hok ⊢
    exact parseTokens_colon ρ lineNum line t0 ps tc rest h0 hps hc hok
  · intro t0 ps gs bad ht h0 hps hgs hbad hcomma hnot
    rw [ht] at hok ⊢
    exact parseTokens_bad_option ρ lineNum line t0 ps gs bad h0 hps hgs hbad hcomma hnot hok

/-- C3, at the line `package foo: bar` of the test `invalid syntax`. -/
theorem c3_grammar_errors_witness :
    ParseLine id 0 (lit "package foo: bar")
      = .error (.parse
          { Message := lit "unexpected colon",
            Coord := { Line := lit "package foo: bar", LineNum := 0,
                       ColStart := 11, ColEnd := 12 } }) :=
  (c3_grammar_errors id 0 (lit "package foo: bar")
    [⟨StringToken, ⟨lit "package foo: bar", 0, 0, 7⟩⟩,
     ⟨StringToken, ⟨lit "package foo: bar", 0, 8, 11⟩⟩,
     ⟨ColonToken, ⟨lit "package foo: bar", 0, 11, 12⟩⟩,
     ⟨StringToken, ⟨lit "package foo: bar", 0, 13, 16⟩⟩]
    (by decide)).2.2.1
    ⟨StringToken, ⟨lit "package foo: bar", 0, 0, 7⟩⟩
    [⟨StringToken, ⟨lit "package foo: bar", 0, 8, 11⟩⟩]
    ⟨ColonToken, ⟨lit "package foo: bar", 0, 11, 12⟩⟩
    [⟨StringToken, ⟨lit "package foo: bar", 0, 13, 16⟩⟩]
    rfl rfl (by decide) rfl
/-! ## Lemmas: runs of the lexer over blanks, words and quoted text -/

theorem lexLoop_nil (coord : FileCoord) (st : LexState) :
    lexLoop coord [] st = .ok (st, -1) := rfl

theorem isSpace_not_special (r : Nat) (h : IsSpace r = true) :
    r ≠ 0x22 ∧ r ≠ 0x23 ∧ r ≠ 0x3A ∧ r ≠ 0x2C := by
  refine ⟨?_, ?_, ?_, ?_⟩ <;> intro hr <;> rw [hr] at h <;> exact absurd h (by decide)

theorem lexLoop_space (coord : FileCoord) (i r : Nat) (l : List (Nat × Nat))
    (st : LexState) (hq : st.quoted = false) (hb : st.bStart < 0)
    (hr : IsSpace r = true) :
    lexLoop coord ((i, r) :: l) st = lexLoop coord l st := by
  obtain ⟨h1, h2, h3, h4⟩ := isSpace_not_special r hr
  rw [lexLoop]
  simp only [hq, Bool.false_eq_true, if_false, if_neg h1, if_neg h2, if_neg h3, if_neg h4,
    hr, if_true, push_noop coord st _ hb, bind, Except.bind]

theorem lexLoop_blank (coord : FileCoord) (l1 l2 : List (Nat × Nat)) (st : LexState)
    (hq : st.quoted = false) (hb : st.bStart < 0)
    (h : ∀ p ∈ l1, IsSpace p.2 = true) :
    lexLoop coord (l1 ++ l2) st = lexLoop coord l2 st := by
  induction l1 with
  | nil => rfl
  | cons p l1 ih =>
    obtain ⟨i, r⟩ := p
    rw [List.cons_append, lexLoop_space coord i r _ st hq hb (h (i, r) (List.mem_cons_self _ _))]
    exact ih (fun q hq => h q (List.mem_cons_of_mem _ hq))

theorem lexLoop_wordRune (coord : FileCoord) (i r : Nat) (l : List (Nat × Nat))
    (st : LexState) (hq : st.quoted = false) (hr : isWordRune r = true) :
    lexLoop coord ((i, r) :: l) st
      = lexLoop coord l (if st.bStart < 0 then { st with bStart := i } else st) := by
  simp only [isWordRune, ne_eq, Bool.decide_and, Bool.and_eq_true, decide_eq_true_eq,
    decide_not, Bool.not_eq_true'] at hr
  obtain ⟨h1, h2, h3, h4, h5⟩ := hr
  have h1' : ¬ r = 0x22 := by simpa using h1
  have h2' : ¬ r = 0x23 := by simpa using h2
  have h3' : ¬ r = 0x3A := by simpa using h3
  have h4' : ¬ r = 0x2C := by simpa using h4
  rw [lexLoop]
  simp only [hq, Bool.false_eq_true, if_false, if_neg h1', if_neg h2', if_neg h3',
    if_neg h4', h5]

theorem lexLoop_word_cont (coord : FileCoord) (l1 l2 : List (Nat × Nat)) (st : LexState)
    (hq : st.quoted = false) (hb : 0 ≤ st.bStart)
    (h : ∀ p ∈ l1, isWordRune p.2 = true) :
    lexLoop coord (l1 ++ l2) st = lexLoop coord l2 st := by
  induction l1 with
  | nil => rfl
  | cons p l1 ih =>
    obtain ⟨i, r⟩ := p
    have hnb : ¬ st.bStart < 0 := by omega
    rw [List.cons_append, lexLoop_wordRune coord i r _ st hq (h (i, r) (List.mem_cons_self _ _)),
      if_neg hnb]
    exact ih (fun q hq => h q (List.mem_cons_of_mem _ hq))

theorem lexLoop_word_start (coord : FileCoord) (i r : Nat) (l1 l2 : List (Nat × Nat))
    (st : LexState) (hq : st.quoted = false) (hb : st.bStart < 0)
    (h : ∀ p ∈ (i, r) :: l1, isWordRune p.2 = true) :
    lexLoop coord ((i, r) :: l1 ++ l2) st
      = lexLoop coord l2 { st with bStart := i } := by
  rw [List.cons_append, lexLoop_wordRune coord i r _ st hq (h (i, r) (List.mem_cons_self _ _)),
    if_pos hb]
  exact lexLoop_word_cont coord l1 l2 _ hq (by simp)
    (fun q hq => h q (List.mem_cons_of_mem _ hq))

theorem lexLoop_quoted (coord : FileCoord) (l1 l2 : List (Nat × Nat)) (st : LexState)
    (hq : st.quoted = true) (h : ∀ p ∈ l1, p.2 ≠ 0x22) :
    lexLoop coord (l1 ++ l2) st = lexLoop coord l2 st := by
  induction l1 with
  | nil => rfl
  | cons p l1 ih =>
    obtain ⟨i, r⟩ := p
    have hr : ¬ r = 0x22 := h (i, r) (List.mem_cons_self _ _)
    rw [List.cons_append, lexLoop]
    simp only [hq, if_true, if_neg hr]
    exact ih (fun q hq => h q (List.mem_cons_of_mem _ hq))

/-- The slice of a line between two columns that bound a middle part. -/
theorem Text_middle (pre mid post : Str) (lineNum s e : Int)
    (hs : s = pre.length) (he : e = pre.length + mid.length) :
    FileCoord.Text { Line := pre ++ (mid ++ post), LineNum := lineNum,
                     ColStart := s, ColEnd := e } = .ok mid := by
  have h1 : 0 ≤ s ∧ s ≤ e ∧ e ≤ ((pre ++ (mid ++ post)).length : Int) := by
    simp only [List.length_append, Nat.cast_add]
    omega
  have h2 : s.toNat = pre.length := by omega
  have h3 : (e - s).toNat = mid.length := by omega
  simp only [FileCoord.Text, h1, and_self, if_true, h2, h3, List.drop_left,
    List.take_left]
theorem lexLoop_hash (coord : FileCoord) (i : Nat) (l : List (Nat × Nat)) (st : LexState)
    (hq : st.quoted = false) :
    lexLoop coord ((i, 0x23) :: l) st
      = pushAccumulatedToken coord st i false >>= fun st1 => pure (st1, (i : Int)) := by
  rw [lexLoop]
  simp [hq]

theorem lexLoop_quote_open (coord : FileCoord) (i : Nat) (l : List (Nat × Nat))
    (st : LexState) (hq : st.quoted = false) (hi : i ≠ 0) :
    lexLoop coord ((i, 0x22) :: l) st
      = pushAccumulatedToken coord st i false >>= fun st1 =>
          lexLoop coord l { st1 with quoted := true, bStart := i + 1 } := by
  rw [lexLoop]
  simp [hq, hi]

theorem lexLoop_quote_close (coord : FileCoord) (i : Nat) (l : List (Nat × Nat))
    (st : LexState) (hq : st.quoted = true) :
    lexLoop coord ((i, 0x22) :: l) st
      = pushAccumulatedToken coord st i true >>= fun st1 =>
          lexLoop coord l { st1 with quoted := false } := by
  rw [lexLoop]
  simp [hq]

theorem lexLoop_quote_zero (coord : FileCoord) (l : List (Nat × Nat)) (st : LexState)
    (hq : st.quoted = false) :
    lexLoop coord ((0, 0x22) :: l) st = .error (quotedCommandError coord) := by
  rw [lexLoop]
  simp [hq]
  rfl

theorem lexLine_blank (ws : Str) (lineNum cs ce : Int) (hws : IsBlank ws) :
    lexLine { Line := ws, LineNum := lineNum, ColStart := cs, ColEnd := ce } = .ok [] := by
  have h := lexLoop_blank { Line := ws, LineNum := lineNum, ColStart := cs, ColEnd := ce }
    (runes ws) [] { toks := [], bStart := -1, quoted := false } rfl (by decide) hws
  rw [List.append_nil, lexLoop_nil] at h
  simp only [lexLine, h, bind, Except.bind, Bool.false_eq_true, if_false]
  rw [push_noop _ _ _ (by decide)]
  rfl

theorem lexLine_comment (ws rest : Str) (lineNum cs ce : Int) (hws : IsBlank ws) :
    lexLine { Line := ws ++ 0x23 :: rest, LineNum := lineNum, ColStart := cs, ColEnd := ce }
      = .ok [] := by
  have h := lexLoop_blank
    { Line := ws ++ 0x23 :: rest, LineNum := lineNum, ColStart := cs, ColEnd := ce }
    (runes ws) ((ws.length, 0x23) :: runesAux rest (ws.length + 1) 0)
    { toks := [], bStart := -1, quoted := false } rfl (by decide) hws
  rw [← runes_append_ascii ws 0x23 rest (by decide), lexLoop_hash _ _ _ _ rfl,
    push_noop _ _ _ (by decide)] at h
  simp only [lexLine, h, bind, Except.bind, pure, Except.pure, Bool.false_eq_true, if_false]
  rw [push_noop _ _ _ (by decide)]

/-- C2: a line made only of whitespace characters, and such a line followed
by `#` and any text, yields no token, and `ParseLine` returns the sentinel
`ErrNoDirective`: neither a `ParseError` nor a directive. -/
theorem c2_blank_or_comment (ρ : RangeOrder) (lineNum : Int) (ws rest : Str)
    (hws : IsBlank ws) :
    ParseLine ρ lineNum ws = .error .ErrNoDirective
      ∧ ParseLine ρ lineNum (ws ++ lit "#" ++ rest) = .error .ErrNoDirective := by
  have e : ws ++ lit "#" ++ rest = ws ++ 0x23 :: rest := by simp [lit]
  rw [e, ParseLine_of_lex ρ lineNum _ _ (lexLine_blank ws lineNum 0 0 hws),
    ParseLine_of_lex ρ lineNum _ _ (lexLine_comment ws rest lineNum 0 0 hws)]
  exact ⟨rfl, rfl⟩

/-- C2, at a line of a space, a no-break space (U+00A0, two bytes) and a tab,
followed by a comment that holds a quote, a comma and a colon. -/
theorem c2_blank_or_comment_witness :
    ParseLine id 7 [0x20, 0xC2, 0xA0, 0x09] = .error .ErrNoDirective
      ∧ ParseLine id 7 ([0x20, 0xC2, 0xA0, 0x09] ++ lit "#" ++ lit " \"a, b: c")
        = .error .ErrNoDirective :=
  c2_blank_or_comment id 7 [0x20, 0xC2, 0xA0, 0x09] (lit " \"a, b: c") (by decide)

/-- C9: on every line whose first byte is `"`, `lexLine` and `ParseLine` fail
with the `ParseError` "cannot quote directive command" at the columns 0 to 1
of that line, whatever follows. -/
theorem c9_quoted_command_column_zero (ρ : RangeOrder) (rest : Str)
    (lineNum colStart colEnd : Int) :
    lexLine { Line := 0x22 :: rest, LineNum := lineNum,
              ColStart := colStart, ColEnd := colEnd }
        = .error (.parse
            { Message := lit "cannot quote directive command",
              Coord := { Line := 0x22 :: rest, LineNum := lineNum,
                         ColStart := 0, ColEnd := 1 } })
      ∧ ParseLine ρ lineNum (0x22 :: rest)
        = .error (.parse
            { Message := lit "cannot quote directive command",
              Coord := { Line := 0x22 :: rest, LineNum := lineNum,
                         ColStart := 0, ColEnd := 1 } }) := by
  have h : ∀ cs ce : Int,
      lexLine { Line := 0x22 :: rest, LineNum := lineNum, ColStart := cs, ColEnd := ce }
        = .error (.parse
            { Message := lit "cannot quote directive command",
              Coord := { Line := 0x22 :: rest, LineNum := lineNum,
                         ColStart := 0, ColEnd := 1 } }) := by
    intro cs ce
    have hr : runes (0x22 :: rest) = (0, 0x22) :: runesAux rest 1 0 :=
      runesAux_ascii 0x22 rest 0 (by decide)
    simp only [lexLine, hr,
      lexLoop_quote_zero _ _ { toks := [], bStart := -1, quoted := false } rfl,
      bind, Except.bind]
    rfl
  exact ⟨h _ _, by simp [ParseLine, h, bind, Except.bind]⟩

/-- C10 fails on the code: in the line ` "package" curl` the first token is
written in quotes after one space, and `ParseLine` returns the directive
`PackageDirective{Name: "curl"}` instead of a lexical error. -/
theorem c10_quoted_command_after_blank :
    ParseLine id 0 (lit " \"package\" curl")
      = .ok (.package { Name := lit "curl", Version := [], Release := [] }) := by
  decide
/-! ## Lemmas: the lexer on a command word and one argument -/

theorem push_emit (coord : FileCoord) (st : LexState) (e : Int) (force : Bool) (text : Str)
    (hc : force = true ∨ (st.bStart ≥ 0 ∧ e - st.bStart > 0))
    (ht : FileCoord.Text { Line := coord.Line, LineNum := coord.LineNum,
                           ColStart := st.bStart, ColEnd := e } = .ok text)
    (h1 : text ≠ lit ",") (h2 : text ≠ lit ":") :
    pushAccumulatedToken coord st e force
      = .ok { st with
              toks := st.toks ++
                [{ Typ := StringToken,
                   Coord := { Line := coord.Line, LineNum := coord.LineNum,
                              ColStart := st.bStart, ColEnd := e } }],
              bStart := -1 } := by
  simp only [pushAccumulatedToken, if_pos hc, ht, bind, Except.bind, if_neg h1, if_neg h2]
  rfl

theorem isWord_not_delim (w : Str) (hw : IsWord w) : w ≠ lit "," ∧ w ≠ lit ":" := by
  constructor
  · intro h
    rw [h] at hw
    exact absurd hw (by decide)
  · intro h
    rw [h] at hw
    exact absurd hw (by decide)

theorem isWord_no_quote (w : Str) (hw : IsWord w) : ∀ p ∈ runes w, p.2 ≠ 0x22 := by
  intro p hp h
  have := hw p hp
  rw [h] at this
  exact absurd this (by decide)

/-- The tokens of the command word `c`: none when it is empty. -/
theorem lexLoop_command (c tail : Str) (lineNum cs ce : Int) (l2 : List (Nat × Nat))
    (hc : IsWord c) :
    lexLoop { Line := c ++ 0x20 :: tail, LineNum := lineNum, ColStart := cs, ColEnd := ce }
        (runes c ++ (c.length, 0x20) :: l2) { toks := [], bStart := -1, quoted := false }
      = lexLoop
          { Line := c ++ 0x20 :: tail, LineNum := lineNum, ColStart := cs, ColEnd := ce } l2
          { toks := if c = [] then [] else
              [{ Typ := StringToken,
                 Coord := { Line := c ++ 0x20 :: tail, LineNum := lineNum,
                            ColStart := 0, ColEnd := c.length } }],
            bStart := -1, quoted := false } := by
  have hsp : IsSpace 0x20 = true := by decide
  cases c with
  | nil =>
    simp only [runes, runesAux, List.nil_append, List.length_nil, if_true]
    exact lexLoop_space _ _ _ _ _ rfl (by decide) hsp
  | cons b c =>
    obtain ⟨r, l, hr⟩ := runes_head b c
    have hw : ∀ p ∈ (0, r) :: l, isWordRune p.2 = true := by
      rw [← hr]; exact hc
    obtain ⟨hn1, hn2⟩ := isWord_not_delim _ hc
    rw [hr, lexLoop_word_start _ 0 r l _ _ rfl (by decide) hw, lexLoop]
    have ht := Text_middle [] (b :: c) (0x20 :: tail) lineNum ((0 : Nat) : Int)
      ((b :: c).length : Int) (by simp) (by simp)
    simp only [List.nil_append, List.cons_append] at ht
    have hpush := push_emit
      { Line := b :: (c ++ 0x20 :: tail), LineNum := lineNum, ColStart := cs, ColEnd := ce }
      { toks := [], bStart := ((0 : Nat) : Int), quoted := false } ((b :: c).length : Int)
      false (b :: c)
      (Or.inr (by simp only [List.length_cons, Nat.cast_add, Nat.cast_one]; omega))
      ht hn1 hn2
    simp only [Bool.false_eq_true, if_false, List.cons_append, hpush, bind, Except.bind,
      List.nil_append, reduceCtorEq]
    simp [hsp]
theorem Text_of_parts (line pre mid post : Str) (lineNum s e : Int)
    (hl : line = pre ++ (mid ++ post))
    (hs : s = pre.length) (he : e = pre.length + mid.length) :
    FileCoord.Text { Line := line, LineNum := lineNum, ColStart := s, ColEnd := e }
      = .ok mid := by
  subst hl
  exact Text_middle pre mid post lineNum s e hs he

theorem runesAux_word (w : Str) (i : Nat) (hw : IsWord w) :
    ∀ p ∈ runesAux w i 0, isWordRune p.2 = true := by
  intro p hp
  rw [runesAux_runes] at hp
  obtain ⟨q, hq, rfl⟩ := List.mem_map.1 hp
  exact hw q hq

theorem runesAux_head (b : Nat) (w : Str) (i : Nat) :
    ∃ r l, runesAux (b :: w) i 0 = (i, r) :: l := by
  rw [runesAux_cons_zero]
  exact ⟨_, _, rfl⟩

theorem lexLine_unquoted (c w : Str) (lineNum cs ce : Int) (hc : IsWord c)
    (hw : IsWord w) (hne : w ≠ []) :
    ∃ s e : Int,
      lexLine { Line := c ++ 0x20 :: w, LineNum := lineNum, ColStart := cs, ColEnd := ce }
          = .ok (commandToks c (c ++ 0x20 :: w) lineNum ++
              [{ Typ := StringToken,
                 Coord := { Line := c ++ 0x20 :: w, LineNum := lineNum,
                            ColStart := s, ColEnd := e } }])
        ∧ FileCoord.Text { Line := c ++ 0x20 :: w, LineNum := lineNum,
                           ColStart := s, ColEnd := e } = .ok w := by
  obtain ⟨b, w1, rfl⟩ := List.exists_cons_of_ne_nil hne
  obtain ⟨r, l, hr⟩ := runesAux_head b w1 (c.length + 1)
  have hwr : ∀ p ∈ (c.length + 1, r) :: l, isWordRune p.2 = true := by
    rw [← hr]; exact runesAux_word _ _ hw
  obtain ⟨hn1, hn2⟩ := isWord_not_delim _ hw
  have ht := Text_of_parts (c ++ 0x20 :: b :: w1) (c ++ [0x20]) (b :: w1) [] lineNum
    ((c.length + 1 : Nat) : Int) ((c ++ 0x20 :: b :: w1).length : Int) (by simp)
    (by simp) (by simp; omega)
  refine ⟨_, _, ?_, ht⟩
  have hloop : lexLoop
      { Line := c ++ 0x20 :: b :: w1, LineNum := lineNum, ColStart := cs, ColEnd := ce }
      (runes (c ++ 0x20 :: b :: w1)) { toks := [], bStart := -1, quoted := false }
      = .ok ({ toks := commandToks c (c ++ 0x20 :: b :: w1) lineNum,
               bStart := ((c.length + 1 : Nat) : Int), quoted := false }, -1) := by
    rw [runes_append_ascii c 0x20 (b :: w1) (by decide), lexLoop_command c _ lineNum cs ce _ hc,
      hr]
    have := lexLoop_word_start
      { Line := c ++ 0x20 :: b :: w1, LineNum := lineNum, ColStart := cs, ColEnd := ce }
      (c.length + 1) r l []
      { toks := commandToks c (c ++ 0x20 :: b :: w1) lineNum, bStart := -1, quoted := false }
      rfl (by simp) hwr
    rw [List.append_nil] at this
    rw [commandToks]
    rw [commandToks] at this
    rw [this, lexLoop_nil]
  have hpush := push_emit
    { Line := c ++ 0x20 :: b :: w1, LineNum := lineNum, ColStart := cs, ColEnd := ce }
    { toks := commandToks c (c ++ 0x20 :: b :: w1) lineNum,
      bStart := ((c.length + 1 : Nat) : Int), quoted := false }
    ((c ++ 0x20 :: b :: w1).length : Int) false (b :: w1)
    (Or.inr (by simp; omega)) ht hn1 hn2
  simp only [lexLine, hloop, bind, Except.bind, Bool.false_eq_true, if_false]
  rw [if_pos (by decide), hpush]
  rfl

theorem lexLine_quoted (c w : Str) (lineNum cs ce : Int) (hc : IsWord c)
    (hw : IsWord w) :
    ∃ s e : Int,
      lexLine { Line := c ++ 0x20 :: 0x22 :: (w ++ [0x22]), LineNum := lineNum,
                ColStart := cs, ColEnd := ce }
          = .ok (commandToks c (c ++ 0x20 :: 0x22 :: (w ++ [0x22])) lineNum ++
              [{ Typ := StringToken,
                 Coord := { Line := c ++ 0x20 :: 0x22 :: (w ++ [0x22]), LineNum := lineNum,
                            ColStart := s, ColEnd := e } }])
        ∧ FileCoord.Text { Line := c ++ 0x20 :: 0x22 :: (w ++ [0x22]), LineNum := lineNum,
                           ColStart := s, ColEnd := e } = .ok w := by
  obtain ⟨hn1, hn2⟩ := isWord_not_delim _ hw
  have hnq : ∀ p ∈ runesAux w (c.length + 1 + 1) 0, p.2 ≠ 0x22 := by
    intro p hp
    rw [runesAux_runes] at hp
    obtain ⟨q, hq, rfl⟩ := List.mem_map.1 hp
    exact isWord_no_quote w hw q hq
  have ht := Text_of_parts (c ++ 0x20 :: 0x22 :: (w ++ [0x22])) (c ++ [0x20, 0x22]) w [0x22]
    lineNum (((c.length + 1 : Nat) : Int) + 1) ((c.length + 1 + 1 + w.length : Nat) : Int)
    (by simp) (by simp; omega) (by simp; omega)
  refine ⟨_, _, ?_, ht⟩
  have hpush := push_emit
    { Line := c ++ 0x20 :: 0x22 :: (w ++ [0x22]), LineNum := lineNum,
      ColStart := cs, ColEnd := ce }
    { toks := commandToks c (c ++ 0x20 :: 0x22 :: (w ++ [0x22])) lineNum,
      bStart := ((c.length + 1 : Nat) : Int) + 1, quoted := true }
    ((c.length + 1 + 1 + w.length : Nat) : Int) true w (Or.inl rfl) ht hn1 hn2
  have hloop : lexLoop
      { Line := c ++ 0x20 :: 0x22 :: (w ++ [0x22]), LineNum := lineNum,
        ColStart := cs, ColEnd := ce }
      (runes (c ++ 0x20 :: 0x22 :: (w ++ [0x22])))
      { toks := [], bStart := -1, quoted := false }
      = .ok ({ toks := commandToks c (c ++ 0x20 :: 0x22 :: (w ++ [0x22])) lineNum ++
                [{ Typ := StringToken,
                   Coord := { Line := c ++ 0x20 :: 0x22 :: (w ++ [0x22]),
                              LineNum := lineNum,
                              ColStart := ((c.length + 1 : Nat) : Int) + 1,
                              ColEnd := ((c.length + 1 + 1 + w.length : Nat) : Int) } }],
               bStart := -1, quoted := false }, -1) := by
    rw [runes_append_ascii c 0x20 _ (by decide), lexLoop_command c _ lineNum cs ce _ hc,
      runesAux_ascii 0x22 _ _ (by decide),
      runesAux_append_ascii 0x22 [] (by decide) w (c.length + 1 + 1) 0 (Nat.zero_le _),
      lexLoop_quote_open _ _ _ _ rfl (by omega), push_noop _ _ _ (by simp)]
    simp only [bind, Except.bind]
    rw [lexLoop_quoted _ _ _ _ rfl hnq, lexLoop_quote_close _ _ _ _ rfl]
    rw [commandToks] at hpush
    rw [hpush]
    simp only [bind, Except.bind, runesAux, lexLoop_nil, commandToks]
  simp only [lexLine, hloop, bind, Except.bind, Bool.false_eq_true, if_false]
  rw [push_noop _ _ _ (by simp)]
  rfl
theorem span_of_Text (t : Token) (s : Str) (h : t.Text = .ok s) : t.span = s := by
  unfold Token.Text FileCoord.Text at h
  split_ifs at h
  simp only [Except.ok.injEq] at h
  exact h

theorem span_of_coord_Text (ty : Nat) (coord : FileCoord) (s : Str)
    (h : coord.Text = .ok s) : ({ Typ := ty, Coord := coord } : Token).span = s :=
  span_of_Text _ s h

theorem parseTokens_strings (ρ : RangeOrder) (lineNum : Int) (line : Str) (t0 : Token)
    (ps : List Token) (h0 : t0.Typ = StringToken) (hps : ∀ p ∈ ps, p.Typ = StringToken)
    (hok : ∀ t ∈ t0 :: ps, TokOK t) :
    parseTokens ρ lineNum line (t0 :: ps) = dispatch ρ t0.span (ps.map Token.span) [] := by
  have := parseTokens_grammar ρ lineNum line t0 ps [] h0 hps (by simp)
    (by simpa [groupsToks] using hok)
  simpa [groupsToks, mapOf] using this

theorem commandToks_text (c post : Str) (lineNum : Int) :
    (commandToks c (c ++ post) lineNum).map (fun t => (t.Typ, t.Text))
      = if c = [] then [] else [(StringToken, .ok c)] := by
  unfold commandToks
  by_cases h : c = []
  · simp [h]
  · have ht := Text_of_parts (c ++ post) [] c post lineNum 0 (c.length : Int) (by simp)
      (by simp) (by simp)
    simp [h, Token.Text, ht]

/-- C4: for words `c` and `w` made only of characters that are not
whitespace, `,`, `:`, `"` or `#`, `w` not empty, `lexLine` on `c "w"` and on
`c w` yields tokens of the same kinds and texts (a String token for `c`
unless it is empty, then a String token of text `w`), and `ParseLine` returns
the same result on both lines. -/
theorem c4_quoting_round_trip (ρ : RangeOrder) (lineNum : Int) (c w : Str)
    (hc : IsWord c) (hw : IsWord w) (hne : w ≠ []) :
    ∃ toks1 toks2,
      lexLine { Line := c ++ lit " \"" ++ w ++ lit "\"", LineNum := lineNum,
                ColStart := 0, ColEnd := 0 } = .ok toks1
        ∧ lexLine { Line := c ++ lit " " ++ w, LineNum := lineNum,
                    ColStart := 0, ColEnd := 0 } = .ok toks2
        ∧ toks1.map (fun t => (t.Typ, t.Text)) = toks2.map (fun t => (t.Typ, t.Text))
        ∧ toks2.map (fun t => (t.Typ, t.Text))
            = (if c = [] then [] else [(StringToken, .ok c)]) ++ [(StringToken, .ok w)]
        ∧ ParseLine ρ lineNum (c ++ lit " \"" ++ w ++ lit "\"")
            = ParseLine ρ lineNum (c ++ lit " " ++ w) := by
  have e1 : c ++ lit " \"" ++ w ++ lit "\"" = c ++ 0x20 :: 0x22 :: (w ++ [0x22]) := by
    simp [lit]
  have e2 : c ++ lit " " ++ w = c ++ 0x20 :: w := by simp [lit]
  rw [e1, e2]
  obtain ⟨s1, f1, hl1, ht1⟩ := lexLine_quoted c w lineNum 0 0 hc hw
  obtain ⟨s2, f2, hl2, ht2⟩ := lexLine_unquoted c w lineNum 0 0 hc hw hne
  have hm1 := commandToks_text c (0x20 :: 0x22 :: (w ++ [0x22])) lineNum
  have hm2 := commandToks_text c (0x20 :: w) lineNum
  have hok1 := lexLine_inv _ _ hl1
  have hok2 := lexLine_inv _ _ hl2
  refine ⟨_, _, hl1, hl2, ?_, ?_, ?_⟩
  · rw [List.map_append, List.map_append, hm1, hm2]
    simp only [List.map_cons, List.map_nil, Token.Text, ht1, ht2]
  · rw [List.map_append, hm2]
    simp only [List.map_cons, List.map_nil, Token.Text, ht2]
  · rw [ParseLine_of_lex ρ lineNum _ _ hl1, ParseLine_of_lex ρ lineNum _ _ hl2]
    by_cases hcn : c = []
    · subst hcn
      simp only [commandToks, if_true, List.nil_append] at hok1 hok2 ht1 ht2 ⊢
      rw [parseTokens_strings ρ lineNum _ _ [] rfl (by simp) hok1,
        parseTokens_strings ρ lineNum _ _ [] rfl (by simp) hok2,
        span_of_coord_Text _ _ w ht1, span_of_coord_Text _ _ w ht2]
    · have hc1 := Text_of_parts (c ++ 0x20 :: 0x22 :: (w ++ [0x22])) [] c
        (0x20 :: 0x22 :: (w ++ [0x22])) lineNum 0 (c.length : Int) (by simp) (by simp)
        (by simp)
      have hc2 := Text_of_parts (c ++ 0x20 :: w) [] c (0x20 :: w) lineNum 0
        (c.length : Int) (by simp) (by simp) (by simp)
      simp only [commandToks, if_neg hcn, List.singleton_append] at hok1 hok2 ⊢
      rw [parseTokens_strings ρ lineNum _ _ _ rfl (by simp) hok1,
        parseTokens_strings ρ lineNum _ _ _ rfl (by simp) hok2,
        span_of_coord_Text _ _ c hc1, span_of_coord_Text _ _ c hc2]
      simp only [List.map_cons, List.map_nil]
      rw [span_of_coord_Text _ _ w ht1, span_of_coord_Text _ _ w ht2]

/-- C4, at the lines `package "curl"` and `package curl` of the test
`package directive`. -/
theorem c4_quoting_round_trip_witness :
    ParseLine id 0 (lit "package" ++ lit " \"" ++ lit "curl" ++ lit "\"")
        = ParseLine id 0 (lit "package" ++ lit " " ++ lit "curl")
      ∧ ParseLine id 0 (lit "package" ++ lit " " ++ lit "curl")
        = .ok (.package { Name := lit "curl", Version := [], Release := [] }) :=
  ⟨(c4_quoting_round_trip id 0 (lit "package") (lit "curl") (by decide) (by decide)
      (by decide)).elim fun _ h => h.elim fun _ h => h.2.2.2.2,
   by decide⟩
/-! ## Claims on the validators: arity and unknown options -/

/-- C15: whatever the options are, `parsePackageDirective`,
`parsePpaDirective`, `parseDebFileDirective` and `parseHoldDirective` return
an error when the number of arguments is not 1, `parsePinDirective` when it is
not 2 and `parseRepoDirective` when it is 0; with one argument and no options
`ppa`, `deb` and `hold` return that argument unchanged. -/
theorem c15_arity (ρ : RangeOrder) (cmd : Str) (args : List Str) (opts : Opts) :
    (args.length ≠ 1 →
        parsePackageDirective ρ cmd args opts
          = .error (.errorf (lit "expected only one argument, got " ++ fmtStrings args)))
      ∧ (args.length ≠ 1 →
        parsePpaDirective cmd args opts
          = .error (.errorf (lit "expected one argument, got " ++ fmtStrings args)))
      ∧ (args.length ≠ 1 →
        parseDebFileDirective cmd args opts
          = .error (.errorf (lit "expected one argument, got " ++ fmtStrings args)))
      ∧ (args.length ≠ 1 →
        parseHoldDirective cmd args opts
          = .error (.errorf (lit "expected one argument, got " ++ fmtStrings args)))
      ∧ (args.length ≠ 2 →
        parsePinDirective ρ cmd args opts
          = .error (.errorf (lit "expected two positional arguments")))
      ∧ (args.length = 0 →
        parseRepoDirective ρ cmd args opts
          = .error (.errorf (lit "expected at least one argument")))
      ∧ (∀ a : Str,
        parsePpaDirective cmd [a] [] = .ok { Name := a }
          ∧ parseDebFileDirective cmd [a] [] = .ok { Path := a }
          ∧ parseHoldDirective cmd [a] [] = .ok { PackageName := a }) := by
  refine ⟨?_, ?_, ?_, ?_, ?_, ?_, ?_⟩
  · intro h; simp [parsePackageDirective, h]
  · intro h; simp [parsePpaDirective, h]
  · intro h; simp [parseDebFileDirective, h]
  · intro h; simp [parseHoldDirective, h]
  · intro h; simp [parsePinDirective, h]
  · intro h; simp [parseRepoDirective, h]
  · intro a
    simp [parsePpaDirective, parseDebFileDirective, parseHoldDirective, idx, bind,
      Except.bind, pure, Except.pure]

/-- C15, at the arguments of the line `package`, which has none, with an
option given. -/
theorem c15_arity_witness :
    parsePackageDirective id (lit "package") [] [(lit "version", lit "1")]
      = .error (.errorf (lit "expected only one argument, got []")) :=
  (c15_arity id (lit "package") [] [(lit "version", lit "1")]).1 (by decide)

/-- C14 fails on the code: with the options `version: "1"` and `bogus: "x"`
the validators of `package` and `pin` return the directive when the iteration
visits `version` first, and the error of the unknown key only when it visits
`bogus` first. -/
theorem c14_unknown_option_masked :
    parsePackageDirective id (lit "package") [lit "curl"]
        [(lit "version", lit "1"), (lit "bogus", lit "x")]
        = .ok { Name := lit "curl", Version := lit "1", Release := [] }
      ∧ parsePackageDirective List.reverse (lit "package") [lit "curl"]
        [(lit "version", lit "1"), (lit "bogus", lit "x")]
        = .error (.errorf (lit "unknown package option: bogus"))
      ∧ parsePinDirective id (lit "pin") [lit "curl", lit "5"]
        [(lit "version", lit "1"), (lit "bogus", lit "x")]
        = .ok { PackageName := lit "curl", Priority := 5, Version := lit "1",
                Origin := [], Release := [] }
      ∧ parsePinDirective List.reverse (lit "pin") [lit "curl", lit "5"]
        [(lit "version", lit "1"), (lit "bogus", lit "x")]
        = .error (.errorf (lit "unknown pin option bogus"))
      ∧ ParseLine id 0 (lit "package curl, version: \"1\", bogus: \"x\"")
        = .ok (.package { Name := lit "curl", Version := lit "1", Release := [] }) := by
  decide

/-- C16 fails on the code: on the line
`package curl, version: "1", release: "x"` the result is the version or the
release according to the order in which the map of options is iterated, and
likewise on a `pin` line with two options. -/
theorem c16_result_depends_on_iteration :
    ParseLine id 0 (lit "package curl, version: \"1\", release: \"x\"")
        = .ok (.package { Name := lit "curl", Version := lit "1", Release := [] })
      ∧ ParseLine List.reverse 0 (lit "package curl, version: \"1\", release: \"x\"")
        = .ok (.package { Name := lit "curl", Version := [], Release := lit "x" })
      ∧ ParseLine id 0 (lit "pin curl 5, version: \"1\", origin: \"o\"")
        = .ok (.pin { PackageName := lit "curl", Priority := 5, Version := lit "1",
                      Origin := [], Release := [] })
      ∧ ParseLine List.reverse 0 (lit "pin curl 5, version: \"1\", origin: \"o\"")
        = .ok (.pin { PackageName := lit "curl", Priority := 5, Version := [],
                      Origin := lit "o", Release := [] })
      ∧ RangeOrder.Valid id ∧ RangeOrder.Valid List.reverse :=
  ⟨by decide, by decide, by decide, by decide, fun _ => List.Perm.refl _,
    fun m => List.reverse_perm m⟩
/-! ## Lemmas: runes and bytes -/

theorem runeSize_facts (b : Nat) :
    (runeSize b = 2 ∧ b < 0xE0) ∨ (runeSize b = 3 ∧ 0xE0 ≤ b ∧ b < 0xF0)
      ∨ (runeSize b = 4 ∧ 0xF0 ≤ b) := by
  unfold runeSize
  split_ifs <;> omega

theorem acceptLo_facts (b : Nat) :
    0x80 ≤ acceptLo b ∧ (b ≠ 0xE0 ∨ acceptLo b = 0xA0) ∧ (b ≠ 0xF0 ∨ acceptLo b = 0x90) := by
  unfold acceptLo
  split_ifs <;> omega

theorem acceptHi_facts (b : Nat) : acceptHi b ≤ 0xBF := by
  unfold acceptHi
  split_ifs <;> omega

theorem decodeRune_fst_ge (b : Nat) (rest : Str) (h : ¬ b < 0x80) :
    0x80 ≤ (decodeRune (b :: rest)).1 := by
  have h1 := runeSize_facts b
  have h2 := acceptLo_facts b
  have h3 := acceptHi_facts b
  simp only [decodeRune, if_neg h, RuneError]
  split_ifs <;> simp only [] <;> omega

theorem decodeRune_cont (b : Nat) (rest : Str) (j : Nat)
    (hj : j < (decodeRune (b :: rest)).2 - 1) : 0x80 ≤ rest.getD j 0 := by
  have h1 := runeSize_facts b
  have h2 := acceptLo_facts b
  have h3 := acceptHi_facts b
  simp only [decodeRune] at hj
  split_ifs at hj <;> simp only [] at hj <;>
    first
    | omega
    | (have hj0 : j = 0 := by omega
       subst hj0
       omega)
    | (have hj0 : j = 0 ∨ j = 1 := by omega
       rcases hj0 with rfl | rfl <;> omega)
    | (have hj0 : j = 0 ∨ j = 1 ∨ j = 2 := by omega
       rcases hj0 with rfl | rfl | rfl <;> omega)

/-- A rune below `0x80` is the byte it was decoded from. -/
theorem runesAux_ascii_mem (s : Str) :
    ∀ (i k : Nat) (p : Nat × Nat), p ∈ runesAux s i k → p.2 < 0x80 → p.2 ∈ s := by
  induction s with
  | nil => intro i k p hp; simp [runesAux] at hp
  | cons b s ih =>
    intro i k p hp hlt
    cases k with
    | zero =>
      rw [runesAux_cons_zero] at hp
      rcases List.mem_cons.1 hp with rfl | hp
      · by_cases hb : b < 0x80
        · rw [decodeRune_ascii b s hb]
          exact List.mem_cons_self _ _
        · have := decodeRune_fst_ge b s hb
          simp only at hlt
          omega
      · exact List.mem_cons_of_mem _ (ih _ _ p hp hlt)
    | succ k =>
      rw [runesAux_cons_succ] at hp
      exact List.mem_cons_of_mem _ (ih _ _ p hp hlt)

theorem runes_no_quote (s : Str) (i : Nat) (h : 0x22 ∉ s) :
    ∀ p ∈ runesAux s i 0, p.2 ≠ 0x22 := by
  intro p hp he
  exact h (he ▸ runesAux_ascii_mem s i 0 p hp (by omega))

theorem Mode.step_other (m : Mode) (i b : Nat) (h1 : b ≠ 0x22) (h2 : b ≠ 0x23) :
    m.step i b = m := by
  cases m <;> simp [Mode.step, h1, h2]

theorem runeScan_runesAux (s : Str) :
    ∀ (i k : Nat) (m : Mode), (∀ j < k, 0x80 ≤ s.getD j 0) →
      runeScan (runesAux s i k) m = scanFrom s i m := by
  induction s with
  | nil => intro i k m _; rfl
  | cons b s ih =>
    intro i k m hk
    cases k with
    | zero =>
      rw [runesAux_cons_zero]
      simp only [runeScan, scanFrom]
      rw [ih _ _ _ (fun j hj => decodeRune_cont b s j hj)]
      congr 1
      by_cases hb : b < 0x80
      · rw [decodeRune_ascii b s hb]
      · have := decodeRune_fst_ge b s hb
        rw [Mode.step_other m i _ (by omega) (by omega),
          Mode.step_other m i b (by omega) (by omega)]
    | succ k =>
      rw [runesAux_cons_succ]
      simp only [scanFrom]
      have hb : 0x80 ≤ b := by simpa using hk 0 (Nat.succ_pos _)
      rw [Mode.step_other m i b (by omega) (by omega)]
      exact ih _ _ _ (fun j hj => by simpa using hk (j + 1) (by omega))

theorem runeScan_runes (s : Str) : runeScan (runes s) .plain = modeAfter s :=
  runeScan_runesAux s 0 0 .plain (fun _ hj => absurd hj (Nat.not_lt_zero _))

theorem scanFrom_cons (b : Nat) (s : Str) (i : Nat) (m : Mode) :
    scanFrom (b :: s) i m = scanFrom s (i + 1) (m.step i b) := rfl

theorem scanFrom_append (a b : Str) :
    ∀ (i : Nat) (m : Mode), scanFrom (a ++ b) i m = scanFrom b (i + a.length) (scanFrom a i m) := by
  induction a with
  | nil => intro i m; rfl
  | cons x a ih =>
    intro i m
    have e : i + 1 + a.length = i + (a.length + 1) := by omega
    rw [List.cons_append, scanFrom_cons, ih, scanFrom_cons, List.length_cons, e]

theorem scanFrom_quoted (s : Str) (h : 0x22 ∉ s) :
    ∀ (i q : Nat), scanFrom s i (.quoted q) = .quoted q := by
  induction s with
  | nil => intro i q; rfl
  | cons x s ih =>
    intro i q
    have hx : x ≠ 0x22 := fun hx => h (hx ▸ List.mem_cons_self _ _)
    simp only [scanFrom, Mode.step, if_neg hx]
    exact ih (fun hs => h (List.mem_cons_of_mem _ hs)) _ _

theorem runeScan_comment (l : List (Nat × Nat)) : runeScan l .comment = .comment := by
  induction l with
  | nil => rfl
  | cons p l ih =>
    obtain ⟨i, r⟩ := p
    simp only [runeScan, Mode.step]
    exact ih
/-! ## Lemmas: the lexer on a quoted argument of any content -/

theorem push_emit_kind (coord : FileCoord) (st : LexState) (e : Int) (force : Bool)
    (text : Str) (hc : force = true ∨ (st.bStart ≥ 0 ∧ e - st.bStart > 0))
    (ht : FileCoord.Text { Line := coord.Line, LineNum := coord.LineNum,
                           ColStart := st.bStart, ColEnd := e } = .ok text) :
    pushAccumulatedToken coord st e force
      = .ok { st with
              toks := st.toks ++
                [{ Typ := tokenKind text,
                   Coord := { Line := coord.Line, LineNum := coord.LineNum,
                              ColStart := st.bStart, ColEnd := e } }],
              bStart := -1 } := by
  simp only [pushAccumulatedToken, if_pos hc, ht, bind, Except.bind, tokenKind]
  rfl

theorem lexLine_quoted_any (c w : Str) (lineNum cs ce : Int) (hc : IsWord c)
    (hq : 0x22 ∉ w) :
    lexLine { Line := c ++ 0x20 :: 0x22 :: (w ++ [0x22]), LineNum := lineNum,
              ColStart := cs, ColEnd := ce }
        = .ok (commandToks c (c ++ 0x20 :: 0x22 :: (w ++ [0x22])) lineNum ++
            [{ Typ := tokenKind w,
               Coord := { Line := c ++ 0x20 :: 0x22 :: (w ++ [0x22]), LineNum := lineNum,
                          ColStart := (c.length : Int) + 2,
                          ColEnd := (c.length : Int) + 2 + w.length } }])
      ∧ FileCoord.Text { Line := c ++ 0x20 :: 0x22 :: (w ++ [0x22]), LineNum := lineNum,
                         ColStart := (c.length : Int) + 2,
                         ColEnd := (c.length : Int) + 2 + w.length } = .ok w := by
  have hnq := runes_no_quote w (c.length + 1 + 1) hq
  have e1 : ((c.length + 1 : Nat) : Int) + 1 = (c.length : Int) + 2 := by
    push_cast; ring
  have e2 : ((c.length + 1 + 1 + w.length : Nat) : Int) = (c.length : Int) + 2 + w.length := by
    push_cast; ring
  have ht := Text_of_parts (c ++ 0x20 :: 0x22 :: (w ++ [0x22])) (c ++ [0x20, 0x22]) w [0x22]
    lineNum (((c.length + 1 : Nat) : Int) + 1) ((c.length + 1 + 1 + w.length : Nat) : Int)
    (by simp) (by simp; omega) (by simp; omega)
  have hpush := push_emit_kind
    { Line := c ++ 0x20 :: 0x22 :: (w ++ [0x22]), LineNum := lineNum,
      ColStart := cs, ColEnd := ce }
    { toks := commandToks c (c ++ 0x20 :: 0x22 :: (w ++ [0x22])) lineNum,
      bStart := ((c.length + 1 : Nat) : Int) + 1, quoted := true }
    ((c.length + 1 + 1 + w.length : Nat) : Int) true w (Or.inl rfl) ht
  have hloop : lexLoop
      { Line := c ++ 0x20 :: 0x22 :: (w ++ [0x22]), LineNum := lineNum,
        ColStart := cs, ColEnd := ce }
      (runes (c ++ 0x20 :: 0x22 :: (w ++ [0x22])))
      { toks := [], bStart := -1, quoted := false }
      = .ok ({ toks := commandToks c (c ++ 0x20 :: 0x22 :: (w ++ [0x22])) lineNum ++
                [{ Typ := tokenKind w,
                   Coord := { Line := c ++ 0x20 :: 0x22 :: (w ++ [0x22]),
                              LineNum := lineNum,
                              ColStart := ((c.length + 1 : Nat) : Int) + 1,
                              ColEnd := ((c.length + 1 + 1 + w.length : Nat) : Int) } }],
               bStart := -1, quoted := false }, -1) := by
    rw [runes_append_ascii c 0x20 _ (by decide), lexLoop_command c _ lineNum cs ce _ hc,
      runesAux_ascii 0x22 _ _ (by decide),
      runesAux_append_ascii 0x22 [] (by decide) w (c.length + 1 + 1) 0 (Nat.zero_le _),
      lexLoop_quote_open _ _ _ _ rfl (by omega), push_noop _ _ _ (by simp)]
    simp only [bind, Except.bind]
    rw [lexLoop_quoted _ _ _ _ rfl hnq, lexLoop_quote_close _ _ _ _ rfl]
    rw [commandToks] at hpush
    rw [hpush]
    simp only [bind, Except.bind, runesAux, lexLoop_nil, commandToks]
  rw [e1, e2] at ht hloop
  refine ⟨?_, ht⟩
  simp only [lexLine, hloop, bind, Except.bind, Bool.false_eq_true, if_false]
  rw [push_noop _ _ _ (by simp)]
  rfl

/-- C12: for every command word `c`, not empty, `lexLine` on `c ""` yields
exactly two String tokens, the second of zero width and of empty text; and
`ParseLine` on `ppa ""`, `deb ""` and `hold ""` returns the directive with the
empty string for its field. -/
theorem c12_empty_quoted_string (lineNum : Int) (c : Str) (hc : IsWord c)
    (hne : c ≠ []) :
    lexLine { Line := c ++ lit " \"\"", LineNum := lineNum, ColStart := 0, ColEnd := 0 }
        = .ok [{ Typ := StringToken,
                 Coord := { Line := c ++ lit " \"\"", LineNum := lineNum,
                            ColStart := 0, ColEnd := c.length } },
               { Typ := StringToken,
                 Coord := { Line := c ++ lit " \"\"", LineNum := lineNum,
                            ColStart := (c.length : Int) + 2,
                            ColEnd := (c.length : Int) + 2 } }]
      ∧ FileCoord.Text { Line := c ++ lit " \"\"", LineNum := lineNum,
                         ColStart := 0, ColEnd := c.length } = .ok c
      ∧ FileCoord.Text { Line := c ++ lit " \"\"", LineNum := lineNum,
                         ColStart := (c.length : Int) + 2,
                         ColEnd := (c.length : Int) + 2 } = .ok []
      ∧ (∀ ρ : RangeOrder, ParseLine ρ 0 (lit "ppa \"\"") = .ok (.ppa { Name := [] })
          ∧ ParseLine ρ 0 (lit "deb \"\"") = .ok (.deb { Path := [] })
          ∧ ParseLine ρ 0 (lit "hold \"\"") = .ok (.hold { PackageName := [] })) := by
  have e : c ++ lit " \"\"" = c ++ 0x20 :: 0x22 :: ([] ++ [0x22]) := by simp [lit]
  obtain ⟨h1, h2⟩ := lexLine_quoted_any c [] lineNum 0 0 hc (by simp)
  have h3 := Text_of_parts (c ++ 0x20 :: 0x22 :: ([] ++ [0x22])) [] c
    (0x20 :: 0x22 :: ([] ++ [0x22])) lineNum 0 (c.length : Int) (by simp) (by simp) (by simp)
  rw [e]
  refine ⟨?_, h3, by simpa using h2, ?_⟩
  · rw [h1]
    simp [commandToks, hne, tokenKind]
    decide
  · intro ρ
    exact ⟨rfl, rfl, rfl⟩
/-- C12, at the command word `ppa`. -/
theorem c12_empty_quoted_string_witness :
    lexLine { Line := lit "ppa" ++ lit " \"\"", LineNum := 3, ColStart := 0, ColEnd := 0 }
      = .ok [{ Typ := StringToken,
               Coord := { Line := lit "ppa" ++ lit " \"\"", LineNum := 3,
                          ColStart := 0, ColEnd := 3 } },
             { Typ := StringToken,
               Coord := { Line := lit "ppa" ++ lit " \"\"", LineNum := 3,
                          ColStart := 5, ColEnd := 5 } }] :=
  (c12_empty_quoted_string 3 (lit "ppa") (by decide) (by decide)).1

/-! ## Lemmas: every token of the lexer -/

theorem push_cases_from (coord : FileCoord) (st st1 : LexState) (e : Int) (force : Bool)
    (h : pushAccumulatedToken coord st e force = .ok st1) :
    (st1 = st) ∨
      ∃ t : Token, st1 = { st with toks := st.toks ++ [t], bStart := -1 }
        ∧ t.Coord = { Line := coord.Line, LineNum := coord.LineNum,
                      ColStart := st.bStart, ColEnd := e }
        ∧ TokFrom coord t := by
  unfold pushAccumulatedToken at h
  split_ifs at h with hc
  · right
    cases htext : FileCoord.Text
        { Line := coord.Line, LineNum := coord.LineNum, ColStart := st.bStart, ColEnd := e } with
    | error err =>
      simp only [htext, bind, Except.bind] at h
      cases h
    | ok text =>
      simp only [htext, bind, Except.bind, pure, Except.pure, Except.ok.injEq] at h
      have hb : 0 ≤ st.bStart ∧ st.bStart ≤ e ∧ e ≤ (coord.Line.length : Int) := by
        unfold FileCoord.Text at htext
        split_ifs at htext with hb
        exact hb
      refine ⟨_, h.symm, rfl, rfl, rfl, hb, ?_⟩
      have hs := span_of_coord_Text
        (if text = lit "," then CommaToken else if text = lit ":" then ColonToken
          else StringToken) _ text htext
      simp only [hs, tokenKind]
  · left
    simp only [pure, Except.pure, Except.ok.injEq] at h
    exact h.symm

theorem push_inv_from (coord : FileCoord) (st st1 : LexState) (e : Int) (force : Bool)
    (h : pushAccumulatedToken coord st e force = .ok st1)
    (hinv : ∀ t ∈ st.toks, TokFrom coord t) : ∀ t ∈ st1.toks, TokFrom coord t := by
  rcases push_cases_from coord st st1 e force h with h1 | ⟨t, h1, _, ht⟩
  · rw [h1]; exact hinv
  · rw [h1]
    intro u hu
    simp only [List.mem_append, List.mem_singleton] at hu
    rcases hu with hu | hu
    · exact hinv u hu
    · rw [hu]; exact ht

/-- A property of tokens that every call of `pushAccumulatedToken` keeps
holds of the tokens at the exit of the loop. -/
theorem lexLoop_inv_of (coord : FileCoord) (P : Token → Prop)
    (hpush : ∀ (st st1 : LexState) (e : Int) (force : Bool),
      pushAccumulatedToken coord st e force = .ok st1 →
      (∀ t ∈ st.toks, P t) → ∀ t ∈ st1.toks, P t)
    (l : List (Nat × Nat)) :
    ∀ (st st1 : LexState) (e : Int), lexLoop coord l st = .ok (st1, e) →
      (∀ t ∈ st.toks, P t) → ∀ t ∈ st1.toks, P t := by
  induction l with
  | nil =>
    intro st st1 e h hinv
    simp only [lexLoop, pure, Except.pure, Except.ok.injEq, Prod.mk.injEq] at h
    rw [← h.1]; exact hinv
  | cons p l ih =>
    obtain ⟨i, r⟩ := p
    intro st st1 e h hinv
    rw [lexLoop] at h
    by_cases hq : st.quoted = true
    · rw [if_pos hq] at h
      by_cases hr : r = 0x22
      · rw [if_pos hr] at h
        obtain ⟨s1, hp, h⟩ := bind_eq_ok _ _ _ h
        exact ih _ _ _ h (hpush st s1 _ _ hp hinv)
      · rw [if_neg hr] at h
        exact ih _ _ _ h hinv
    · rw [if_neg hq] at h
      by_cases h22 : r = 0x22
      · rw [if_pos h22] at h
        by_cases hi : i = 0
        · rw [if_pos hi] at h
          cases h
        · rw [if_neg hi] at h
          obtain ⟨s1, hp, h⟩ := bind_eq_ok _ _ _ h
          exact ih _ _ _ h (hpush st s1 _ _ hp hinv)
      · rw [if_neg h22] at h
        by_cases h23 : r = 0x23
        · rw [if_pos h23] at h
          obtain ⟨s1, hp, h⟩ := bind_eq_ok _ _ _ h
          simp only [pure, Except.pure, Except.ok.injEq, Prod.mk.injEq] at h
          rw [← h.1]
          exact hpush st s1 _ _ hp hinv
        · rw [if_neg h23] at h
          by_cases h3a : r = 0x3A
          · rw [if_pos h3a] at h
            obtain ⟨s1, hp, h⟩ := bind_eq_ok _ _ _ h
            obtain ⟨s2, hp2, h⟩ := bind_eq_ok _ _ _ h
            exact ih _ _ _ h (hpush _ s2 _ _ hp2 (hpush st s1 _ _ hp hinv))
          · rw [if_neg h3a] at h
            by_cases h2c : r = 0x2C
            · rw [if_pos h2c] at h
              obtain ⟨s1, hp, h⟩ := bind_eq_ok _ _ _ h
              obtain ⟨s2, hp2, h⟩ := bind_eq_ok _ _ _ h
              exact ih _ _ _ h (hpush _ s2 _ _ hp2 (hpush st s1 _ _ hp hinv))
            · rw [if_neg h2c] at h
              by_cases hsp : IsSpace r = true
              · rw [if_pos hsp] at h
                obtain ⟨s1, hp, h⟩ := bind_eq_ok _ _ _ h
                exact ih _ _ _ h (hpush st s1 _ _ hp hinv)
              · rw [if_neg hsp] at h
                refine ih _ _ _ h ?_
                by_cases hb : st.bStart < 0
                · rw [if_pos hb]; exact hinv
                · rw [if_neg hb]; exact hinv

theorem lexLine_from (coord : FileCoord) (toks : List Token)
    (h : lexLine coord = .ok toks) : ∀ t ∈ toks, TokFrom coord t := by
  unfold lexLine at h
  obtain ⟨res, hl, h⟩ := bind_eq_ok _ _ _ h
  obtain ⟨st, e0⟩ := res
  have hst := lexLoop_inv_of coord (TokFrom coord) (push_inv_from coord) _ _ _ _ hl (by simp)
  simp only at h
  by_cases hq : st.quoted = true
  · rw [if_pos hq] at h
    cases h
  · rw [if_neg hq] at h
    obtain ⟨s1, hp, h⟩ := bind_eq_ok _ _ _ h
    simp only [pure, Except.pure, Except.ok.injEq] at h
    rw [← h]
    exact push_inv_from coord st s1 _ _ hp hst

/-- C13 fails on the code: a quoted string whose content is exactly `,` or
exactly `:` is lexed as a Comma or a Colon token, because the push at the
closing quote decides the kind from the text alone.  The lines `package ","`
and `package ":"` give a `ParseError` where the claim has
`PackageDirective{Name: ","}` and `PackageDirective{Name: ":"}`, and the
line `package curl "," version ":" 1` parses like
`package curl, version: 1`. -/
theorem c13_quoted_delimiter_lexed_as_delimiter :
    lexLine { Line := lit "package \",\"", LineNum := 0, ColStart := 0, ColEnd := 0 }
        = .ok [{ Typ := StringToken,
                 Coord := { Line := lit "package \",\"", LineNum := 0,
                            ColStart := 0, ColEnd := 7 } },
               { Typ := CommaToken,
                 Coord := { Line := lit "package \",\"", LineNum := 0,
                            ColStart := 9, ColEnd := 10 } }]
      ∧ ParseLine id 0 (lit "package \",\"")
        = .error (.parse
            { Message := lit "expected option, got end of line",
              Coord := { Line := lit "package \",\"", LineNum := 0,
                         ColStart := 9, ColEnd := 10 } })
      ∧ ParseLine id 0 (lit "package \",\"")
        ≠ .ok (.package { Name := lit ",", Version := [], Release := [] })
      ∧ ParseLine id 0 (lit "package \":\"")
        = .error (.parse
            { Message := lit "unexpected colon",
              Coord := { Line := lit "package \":\"", LineNum := 0,
                         ColStart := 9, ColEnd := 10 } })
      ∧ ParseLine id 0 (lit "package curl \",\" version \":\" 1")
        = .ok (.package { Name := lit "curl", Version := lit "1", Release := [] })
      ∧ ParseLine id 0 (lit "package \"a,\"")
        = .ok (.package { Name := lit "a,", Version := [], Release := [] }) := by
  decide

/-- The kind of every token that `lexLine` returns is the kind of its text;
the token of a quoted string `w` after a command word `c` has the kind of
`w`, which is String for every `w` other than `,` and `:`. -/
theorem lexLine_kind_of_text (lineNum : Int) (c w : Str) (hc : IsWord c)
    (hq : 0x22 ∉ w) :
    (∀ (coord : FileCoord) (toks : List Token), lexLine coord = .ok toks →
        ∀ t ∈ toks, t.Text = .ok t.span ∧ t.Typ = tokenKind t.span)
      ∧ lexLine { Line := c ++ lit " \"" ++ w ++ lit "\"", LineNum := lineNum,
                  ColStart := 0, ColEnd := 0 }
        = .ok (commandToks c (c ++ lit " \"" ++ w ++ lit "\"") lineNum ++
            [{ Typ := tokenKind w,
               Coord := { Line := c ++ lit " \"" ++ w ++ lit "\"", LineNum := lineNum,
                          ColStart := (c.length : Int) + 2,
                          ColEnd := (c.length : Int) + 2 + w.length } }])
      ∧ FileCoord.Text { Line := c ++ lit " \"" ++ w ++ lit "\"", LineNum := lineNum,
                         ColStart := (c.length : Int) + 2,
                         ColEnd := (c.length : Int) + 2 + w.length } = .ok w
      ∧ (w ≠ lit "," → w ≠ lit ":" → tokenKind w = StringToken)
      ∧ tokenKind (lit ",") = CommaToken ∧ tokenKind (lit ":") = ColonToken := by
  have e : c ++ lit " \"" ++ w ++ lit "\"" = c ++ 0x20 :: 0x22 :: (w ++ [0x22]) := by
    simp [lit]
  obtain ⟨h1, h2⟩ := lexLine_quoted_any c w lineNum 0 0 hc hq
  rw [e]
  refine ⟨?_, h1, h2, ?_, by decide, by decide⟩
  · intro coord toks h t ht
    obtain ⟨_, _, hb, hk⟩ := lexLine_from coord toks h t ht
    exact ⟨Token.Text_of_inBounds t hb, hk⟩
  · intro n1 n2
    simp [tokenKind, n1, n2]

/-- The quoted string `a, b: #c` after `package` is one String token. -/
theorem lexLine_kind_of_text_example :
    lexLine { Line := lit "package" ++ lit " \"" ++ lit "a, b: #c" ++ lit "\"",
              LineNum := 0, ColStart := 0, ColEnd := 0 }
      = .ok [{ Typ := StringToken,
               Coord := { Line := lit "package" ++ lit " \"" ++ lit "a, b: #c" ++ lit "\"",
                          LineNum := 0, ColStart := 0, ColEnd := 7 } },
             { Typ := StringToken,
               Coord := { Line := lit "package" ++ lit " \"" ++ lit "a, b: #c" ++ lit "\"",
                          LineNum := 0, ColStart := 9, ColEnd := 17 } }] :=
  (lexLine_kind_of_text 0 (lit "package") (lit "a, b: #c") (by decide) (by decide)).2.1
/-! ## Lemmas: decimal numerals and `LineAnnotated` -/

theorem digitsValue_append (a : Str) (d n : Nat) :
    digitsValue (a ++ [d]) n = 10 * digitsValue a n + (d - 0x30) := by
  simp [digitsValue, List.foldl_append]

theorem decimalAux_spec (fuel : Nat) :
    ∀ n, n < fuel →
      (decimalAux fuel n).all isDigit = true ∧ digitsValue (decimalAux fuel n) 0 = n
        ∧ decimalAux fuel n ≠ [] := by
  induction fuel with
  | zero => intro n h; omega
  | succ fuel ih =>
    intro n h
    by_cases h10 : n < 10
    · simp only [decimalAux, if_pos h10]
      refine ⟨?_, ?_, by simp⟩
      · simp [isDigit]; omega
      · simp [digitsValue]
    · simp only [decimalAux, if_neg h10]
      obtain ⟨h1, h2, _⟩ := ih (n / 10) (by omega)
      refine ⟨?_, ?_, by simp⟩
      · simp only [List.all_append, h1, List.all_cons, List.all_nil, Bool.and_true,
          Bool.true_and]
        simp [isDigit]; omega
      · rw [digitsValue_append, h2]
        omega

theorem fmtNat_spec (n : Nat) :
    (fmtNat n).all isDigit = true ∧ digitsValue (fmtNat n) 0 = n ∧ fmtNat n ≠ [] :=
  decimalAux_spec (n + 1) n (Nat.lt_succ_self n)

theorem decimalInt_fmtInt (z : Int) : decimalInt (fmtInt z) = some z := by
  obtain ⟨h1, h2, h3⟩ := fmtNat_spec z.natAbs
  obtain ⟨k1, k2, k3⟩ := fmtNat_spec z.toNat
  by_cases hz : z < 0
  · have hv : (-(z.natAbs : Int)) = z := by omega
    simp [fmtInt, hz, decimalInt, h1, h2, h3]
    rw [abs_of_neg hz]
    ring
  · obtain ⟨d, ds, hd⟩ := List.exists_cons_of_ne_nil k3
    have hdig : isDigit d = true := by
      have := k1
      rw [hd] at this
      simp only [List.all_cons, Bool.and_eq_true] at this
      exact this.1
    have hd1 : d ≠ 0x2B := by
      simp [isDigit] at hdig
      omega
    have hd2 : d ≠ 0x2D := by
      simp [isDigit] at hdig
      omega
    have hv : ((z.toNat : Nat) : Int) = z := by omega
    rw [hd] at k1 k2
    have k1a : isDigit d = true ∧ ds.all isDigit = true := by
      simpa using k1
    simp [fmtInt, hz, hd, decimalInt, hd1, hd2, k1a.1, k2, hv]
    intro x hx
    have := k1a.2
    simp only [List.all_eq_true] at this
    exact this x hx

theorem numDigits_length (z : Int) :
    (fmtInt z).length = numDigits z + (if z < 0 then 1 else 0) := by
  by_cases hz : z < 0
  · simp [fmtInt, hz, numDigits]
  · have : z.natAbs = z.toNat := by omega
    simp [fmtInt, hz, numDigits, this]

theorem Repeat_ok (b : Nat) (count : Int) (h : 0 ≤ count) :
    Repeat b count = .ok (List.replicate count.toNat b) := by
  have : ¬ count < 0 := by omega
  simp [Repeat, this]

theorem wrapInt_of_fit (z : Int) (h1 : -2 ^ 63 ≤ z) (h2 : z < 2 ^ 63) : wrapInt z = z := by
  unfold wrapInt
  have e63 : (2 : Int) ^ 63 = 9223372036854775808 := by norm_num
  have e64 : (2 : Int) ^ 64 = 18446744073709551616 := by norm_num
  rw [e63] at h1 h2 ⊢
  rw [e64]
  omega

theorem LineAnnotated_spec (c : FileCoord) (m : Str) (h : 0 ≤ c.ColStart) :
    c.LineAnnotated m = .ok
      (fmtInt c.LineNum ++ lit " | " ++ c.Line ++ lit "\n"
        ++ List.replicate ((fmtInt c.LineNum).length + 3 + c.ColStart.toNat) 0x20
        ++ List.replicate (max (wrapInt (c.ColEnd - c.ColStart)) 1).toNat 0x5E
        ++ lit " " ++ m) := by
  have e3 : lit "   " = List.replicate 3 0x20 := by decide
  simp only [FileCoord.LineAnnotated, Repeat_ok _ _ (Int.natCast_nonneg _), Repeat_ok _ _ h,
    Repeat_ok _ _ (le_trans (by decide) (le_max_right (wrapInt (c.ColEnd - c.ColStart)) 1)),
    bind, Except.bind, pure, Except.pure, Int.toNat_natCast, e3, List.replicate_add,
    List.append_assoc]

/-- For a negative line number, which `Parse` never produces, the minus sign
of the numeral counts in the indentation: for `LineNum = -5` the second line
is indented by five spaces. -/
theorem LineAnnotated_negative_lineNum :
    FileCoord.LineAnnotated { Line := lit "x", LineNum := -5, ColStart := 0, ColEnd := 1 }
        (lit "m")
        = .ok (lit "-5 | x\n     ^ m")
      ∧ numDigits (-5) = 1 := by
  decide

/-- C17: for every `FileCoord` with `0 ≤ ColStart` whose difference
`ColEnd - ColStart` lies in the range of `int`, and every message,
`LineAnnotated` is the decimal numeral of `LineNum`, ` | `, the line, a
newline, then as many spaces as the numeral has characters plus 3 plus
`ColStart`, then `max(ColEnd - ColStart, 1)` carets, one space and the
message.  For `LineNum ≥ 0`, which is every line number that `Parse` hands
out, the characters of the numeral are the digits of `LineNum`, so the spaces
are (number of digits of `LineNum`) + 3 + `ColStart`.  The first caret stands
at the offset of `Line[ColStart]` in the first line, and a span of zero width
draws one caret. -/
theorem c17_line_annotated (c : FileCoord) (m : Str) (h : 0 ≤ c.ColStart)
    (hfit : -2 ^ 63 ≤ c.ColEnd - c.ColStart ∧ c.ColEnd - c.ColStart < 2 ^ 63) :
    (0 ≤ c.LineNum →
        c.LineAnnotated m = .ok
          (fmtInt c.LineNum ++ lit " | " ++ c.Line ++ lit "\n"
            ++ List.replicate (numDigits c.LineNum + 3 + c.ColStart.toNat) 0x20
            ++ List.replicate (max (c.ColEnd - c.ColStart) 1).toNat 0x5E ++ lit " " ++ m))
      ∧ c.LineAnnotated m = .ok
        (fmtInt c.LineNum ++ lit " | " ++ c.Line ++ lit "\n"
          ++ List.replicate ((fmtInt c.LineNum).length + 3 + c.ColStart.toNat) 0x20
          ++ List.replicate (max (c.ColEnd - c.ColStart) 1).toNat 0x5E ++ lit " " ++ m)
      ∧ decimalInt (fmtInt c.LineNum) = some c.LineNum
      ∧ (fmtInt c.LineNum).length = numDigits c.LineNum + (if c.LineNum < 0 then 1 else 0)
      ∧ (fmtInt c.LineNum ++ lit " | ").length + c.ColStart.toNat
          = (fmtInt c.LineNum).length + 3 + c.ColStart.toNat
      ∧ (c.ColEnd ≤ c.ColStart → (max (c.ColEnd - c.ColStart) 1).toNat = 1) := by
  have hspec := LineAnnotated_spec c m h
  rw [wrapInt_of_fit _ hfit.1 hfit.2] at hspec
  have hlen := numDigits_length c.LineNum
  refine ⟨?_, hspec, decimalInt_fmtInt _, hlen, ?_, ?_⟩
  · intro hn
    have hneg : ¬ c.LineNum < 0 := by omega
    rw [if_neg hneg, Nat.add_zero] at hlen
    rw [← hlen]
    exact hspec
  · have : (lit " | ").length = 3 := by decide
    rw [List.length_append, this]
  · intro hle
    have : max (c.ColEnd - c.ColStart) 1 = 1 := max_eq_right (by omega)
    rw [this]
    rfl

/-- C17, at the example `ExampleFileCoord_LineAnnotated` of
`context_test.go`. -/
theorem c17_line_annotated_witness :
    FileCoord.LineAnnotated
        { Line := lit "deb http://www.example.com", LineNum := 20,
          ColStart := 4, ColEnd := 26 }
        (lit "argument with colon must be quoted")
      = .ok (lit
          "20 | deb http://www.example.com\n         ^^^^^^^^^^^^^^^^^^^^^^ argument with colon must be quoted") :=
  ((c17_line_annotated
      { Line := lit "deb http://www.example.com", LineNum := 20, ColStart := 4, ColEnd := 26 }
      (lit "argument with colon must be quoted") (by decide) (by decide)).1
      (by decide)).trans (by decide)
/-! ## Lemmas: the spans of the grammar errors -/

/-- After the command, the positional arguments and complete groups, the loop
of `ParseLine` stands in the options phase at the first token of `bad`. -/
theorem parseTokens_reach_options (ρ : RangeOrder) (lineNum : Int) (line : Str)
    (t0 : Token) (ps : List Token) (gs : List OptionGroup) (b : Token) (brest : List Token)
    (h0 : t0.Typ = StringToken) (hps : ∀ p ∈ ps, p.Typ = StringToken)
    (hgs : ∀ g ∈ gs, g.WellFormed)
    (hcomma : gs = [] → b.Typ = CommaToken)
    (hok : ∀ t ∈ t0 :: (ps ++ (groupsToks gs ++ b :: brest)), TokOK t) :
    parseTokens ρ lineNum line (t0 :: (ps ++ (groupsToks gs ++ b :: brest)))
      = parseLoop line lineNum (t0 :: (ps ++ (groupsToks gs ++ b :: brest)))
          (3 * gs.length + brest.length + 1 + 1) (1 + ps.length + 4 * gs.length) true
          ([] ++ ps.map Token.span) (mapOf gs [])
        >>= fun r => dispatch ρ t0.span r.1 r.2 := by
  rw [parseTokens_cons ρ lineNum line t0 _ h0 (hok t0 (List.mem_cons_self _ _)).1]
  obtain ⟨toks, htoks⟩ : ∃ toks, toks = t0 :: (ps ++ (groupsToks gs ++ b :: brest)) :=
    ⟨_, rfl⟩
  rw [← htoks] at hok ⊢
  have hd : toks.drop 1 = ps ++ (groupsToks gs ++ b :: brest) := by rw [htoks]; simp
  have hf : toks.length + 1
      = (3 * gs.length + brest.length + 1 + 1) + gs.length + 1 + ps.length := by
    rw [htoks]
    simp only [List.length_cons, List.length_append, groupsToks_length]
    omega
  have hsub : ∀ t ∈ ps ++ (groupsToks gs ++ b :: brest), t ∈ toks := by
    intro t ht
    rw [htoks]
    exact List.mem_cons_of_mem _ ht
  have hd2 := drop_append_length toks 1 ps _ hd
  obtain ⟨c, crest, hc, hcty⟩ : ∃ c crest, groupsToks gs ++ b :: brest = c :: crest
      ∧ c.Typ = CommaToken := by
    cases gs with
    | nil => exact ⟨b, brest, by simp [groupsToks], hcomma rfl⟩
    | cons g gs =>
      exact ⟨g.comma, g.key :: g.colon :: g.value :: (groupsToks gs ++ b :: brest),
        by simp [groupsToks, OptionGroup.toks], (hgs g (List.mem_cons_self _ _)).1⟩
  have hin : ∀ h ∈ gs, h.key.InBounds ∧ h.value.InBounds := by
    intro h hh
    have hm : ∀ t ∈ h.toks, t ∈ toks := fun t ht =>
      hsub t (List.mem_append_right _ (List.mem_append_left _ (mem_groupsToks _ h t hh ht)))
    exact ⟨(hok _ (hm _ (by simp [OptionGroup.toks]))).1,
      (hok _ (hm _ (by simp [OptionGroup.toks]))).1⟩
  rw [hf, parseLoop_pos_run line lineNum toks [] ps _ 1 [] _ hd hps
      (fun p hp => (hok p (hsub p (List.mem_append_left _ hp))).1),
    parseLoop_pos line lineNum toks _ _ _ _ c crest (by rw [hd2, hc]), if_pos hcty,
    parseLoop_opts_run line lineNum toks _ gs _ _ [] _ hd2 hgs hin]

theorem drop_reach (t0 : Token) (ps : List Token) (gs : List OptionGroup)
    (bad : List Token) :
    (t0 :: (ps ++ (groupsToks gs ++ bad))).drop (1 + ps.length + 4 * gs.length) = bad := by
  have hd : (t0 :: (ps ++ (groupsToks gs ++ bad))).drop 1 = ps ++ (groupsToks gs ++ bad) := by
    simp
  have hd2 := drop_append_length _ 1 ps _ hd
  have := drop_append_length _ (1 + ps.length) (groupsToks gs) bad hd2
  rwa [groupsToks_length] at this

theorem parseTokens_options_short (ρ : RangeOrder) (lineNum : Int) (line : Str)
    (t0 : Token) (ps : List Token) (gs : List OptionGroup) (b : Token) (brest : List Token)
    (h0 : t0.Typ = StringToken) (hps : ∀ p ∈ ps, p.Typ = StringToken)
    (hgs : ∀ g ∈ gs, g.WellFormed) (hcomma : gs = [] → b.Typ = CommaToken)
    (hshort : brest.length < 3)
    (hok : ∀ t ∈ t0 :: (ps ++ (groupsToks gs ++ b :: brest)), TokOK t) :
    parseTokens ρ lineNum line (t0 :: (ps ++ (groupsToks gs ++ b :: brest)))
      = .error (.parse
          { Message := lit "expected option, got end of line",
            Coord := { Line := line, LineNum := lineNum,
                       ColStart := b.Coord.ColStart,
                       ColEnd := ((b :: brest).getLast
                          (List.cons_ne_nil _ _)).Coord.ColEnd } }) := by
  rw [parseTokens_reach_options ρ lineNum line t0 ps gs b brest h0 hps hgs hcomma hok,
    parseLoop_opts_short line lineNum _ _ _ _ _ b brest (drop_reach t0 ps gs _) hshort]
  rfl

theorem parseTokens_options_group (ρ : RangeOrder) (lineNum : Int) (line : Str)
    (t0 : Token) (ps : List Token) (gs : List OptionGroup) (b0 b1 b2 b3 : Token)
    (rest : List Token)
    (h0 : t0.Typ = StringToken) (hps : ∀ p ∈ ps, p.Typ = StringToken)
    (hgs : ∀ g ∈ gs, g.WellFormed) (hcomma : gs = [] → b0.Typ = CommaToken)
    (hbad : ¬ (b0.Typ = CommaToken ∧ b1.Typ = StringToken
      ∧ b2.Typ = ColonToken ∧ b3.Typ = StringToken))
    (hok : ∀ t ∈ t0 :: (ps ++ (groupsToks gs ++ b0 :: b1 :: b2 :: b3 :: rest)), TokOK t) :
    parseTokens ρ lineNum line (t0 :: (ps ++ (groupsToks gs ++ b0 :: b1 :: b2 :: b3 :: rest)))
      = .error (.parse
          { Message := lit "expected key-value pair",
            Coord := { Line := line, LineNum := lineNum,
                       ColStart := b0.Coord.ColStart,
                       ColEnd := b3.Coord.ColEnd } }) := by
  rw [parseTokens_reach_options ρ lineNum line t0 ps gs b0 _ h0 hps hgs hcomma hok]
  have e : 3 * gs.length + (b1 :: b2 :: b3 :: rest).length + 1 + 1
      = (3 * gs.length + rest.length + 4) + 1 := by
    simp only [List.length_cons]; omega
  rw [e, parseLoop_opts_group line lineNum _ _ _ _ _ b0 b1 b2 b3 rest (drop_reach t0 ps gs _),
    if_neg hbad]
  rfl
theorem getLast_line (t0 : Token) (pre : List Token) (b : Token) (brest : List Token) :
    (t0 :: (pre ++ b :: brest)).getLast (List.cons_ne_nil _ _)
      = (b :: brest).getLast (List.cons_ne_nil _ _) := by
  have h : t0 :: (pre ++ b :: brest) = (t0 :: pre) ++ b :: brest := rfl
  simp only [h, List.getLast_append_of_ne_nil (List.cons_ne_nil b brest)]

/-- C20 as stated fails: on the line `package a, b c d e` the error
"expected key-value pair" spans the columns 9 to 16, the four tokens `, b c d`
of the malformed group, while the last token on the line ends at column 18. -/
theorem c20_error_span_counterexample :
    ParseLine id 0 (lit "package a, b c d e")
        = .error (.parse
            { Message := lit "expected key-value pair",
              Coord := { Line := lit "package a, b c d e", LineNum := 0,
                         ColStart := 9, ColEnd := 16 } })
      ∧ (lexLine { Line := lit "package a, b c d e", LineNum := 0,
                   ColStart := 0, ColEnd := 0 }).map
          (fun toks => toks.getLast?.map fun t => t.Coord.ColEnd)
        = .ok (some 18) := by
  decide

/-- C20, amended: in the options phase, when fewer than four tokens remain
from the first token `b` of the malformed group the error is "expected option,
got end of line" and spans from the `ColStart` of `b` to the `ColEnd` of the
last token on the line; when four or more remain it is "expected key-value
pair" and spans from the `ColStart` of the first to the `ColEnd` of the fourth
token of the malformed group; for "expected string value" and "unexpected
colon" the span is the coordinate of the offending token. -/
theorem c20_error_spans (ρ : RangeOrder) (lineNum : Int) (line : Str)
    (toks : List Token)
    (hlex : lexLine { Line := line, LineNum := lineNum, ColStart := 0, ColEnd := 0 }
      = .ok toks) :
    (∀ t0 ps gs b brest, toks = t0 :: (ps ++ (groupsToks gs ++ b :: brest)) →
        t0.Typ = StringToken → (∀ p ∈ ps, p.Typ = StringToken) →
        (∀ g ∈ gs, g.WellFormed) → (gs = [] → b.Typ = CommaToken) → brest.length < 3 →
        ∃ hne : toks ≠ [],
          ParseLine ρ lineNum line
            = .error (.parse
                { Message := lit "expected option, got end of line",
                  Coord := { Line := line, LineNum := lineNum,
                             ColStart := b.Coord.ColStart,
                             ColEnd := (toks.getLast hne).Coord.ColEnd } }))
      ∧ (∀ t0 ps gs b0 b1 b2 b3 rest,
          toks = t0 :: (ps ++ (groupsToks gs ++ b0 :: b1 :: b2 :: b3 :: rest)) →
          t0.Typ = StringToken → (∀ p ∈ ps, p.Typ = StringToken) →
          (∀ g ∈ gs, g.WellFormed) → (gs = [] → b0.Typ = CommaToken) →
          ¬ (b0.Typ = CommaToken ∧ b1.Typ = StringToken
            ∧ b2.Typ = ColonToken ∧ b3.Typ = StringToken) →
          ParseLine ρ lineNum line
            = .error (.parse
                { Message := lit "expected key-value pair",
                  Coord := { Line := line, LineNum := lineNum,
                             ColStart := b0.Coord.ColStart,
                             ColEnd := b3.Coord.ColEnd } }))
      ∧ (∀ t0 rest, toks = t0 :: rest → t0.Typ ≠ StringToken →
          ParseLine ρ lineNum line
            = .error (.parse { Message := lit "expected string value", Coord := t0.Coord }))
      ∧ (∀ t0 ps tc rest, toks = t0 :: (ps ++ tc :: rest) → t0.Typ = StringToken →
          (∀ p ∈ ps, p.Typ = StringToken) → tc.Typ = ColonToken →
          ParseLine ρ lineNum line
            = .error (.parse { Message := lit "unexpected colon", Coord := tc.Coord })) := by
  have hok := lexLine_inv _ _ hlex
  rw [ParseLine_of_lex ρ lineNum line toks hlex]
  refine ⟨?_, ?_, ?_, ?_⟩
  · intro t0 ps gs b brest ht h0 hps hgs hcomma hshort
    subst ht
    refine ⟨List.cons_ne_nil _ _, ?_⟩
    rw [parseTokens_options_short ρ lineNum line t0 ps gs b brest h0 hps hgs hcomma hshort hok]
    have hl := getLast_line t0 (ps ++ groupsToks gs) b brest
    simp only [List.append_assoc] at hl
    rw [hl]
  · intro t0 ps gs b0 b1 b2 b3 rest ht h0 hps hgs hcomma hbad
    subst ht
    exact parseTokens_options_group ρ lineNum line t0 ps gs b0 b1 b2 b3 rest h0 hps hgs
      hcomma hbad hok
  · intro t0 rest ht h0
    rw [ht]
    exact parseTokens_first_not_string ρ lineNum line t0 rest h0
  · intro t0 ps tc rest ht h0 hps hc
    rw [ht] at hok ⊢
    exact parseTokens_colon ρ lineNum line t0 ps tc rest h0 hps hc hok

/-- C20, amended, at the line `package a, b c d e`: the malformed group is
`, b c d` and one more token follows it. -/
theorem c20_error_spans_witness :
    ParseLine id 0 (lit "package a, b c d e")
      = .error (.parse
          { Message := lit "expected key-value pair",
            Coord := { Line := lit "package a, b c d e", LineNum := 0,
                       ColStart := 9, ColEnd := 16 } }) :=
  (c20_error_spans id 0 (lit "package a, b c d e")
    [⟨StringToken, ⟨lit "package a, b c d e", 0, 0, 7⟩⟩,
     ⟨StringToken, ⟨lit "package a, b c d e", 0, 8, 9⟩⟩,
     ⟨CommaToken, ⟨lit "package a, b c d e", 0, 9, 10⟩⟩,
     ⟨StringToken, ⟨lit "package a, b c d e", 0, 11, 12⟩⟩,
     ⟨StringToken, ⟨lit "package a, b c d e", 0, 13, 14⟩⟩,
     ⟨StringToken, ⟨lit "package a, b c d e", 0, 15, 16⟩⟩,
     ⟨StringToken, ⟨lit "package a, b c d e", 0, 17, 18⟩⟩]
    (by decide)).2.1
    ⟨StringToken, ⟨lit "package a, b c d e", 0, 0, 7⟩⟩
    [⟨StringToken, ⟨lit "package a, b c d e", 0, 8, 9⟩⟩] []
    ⟨CommaToken, ⟨lit "package a, b c d e", 0, 9, 10⟩⟩
    ⟨StringToken, ⟨lit "package a, b c d e", 0, 11, 12⟩⟩
    ⟨StringToken, ⟨lit "package a, b c d e", 0, 13, 14⟩⟩
    ⟨StringToken, ⟨lit "package a, b c d e", 0, 15, 16⟩⟩
    [⟨StringToken, ⟨lit "package a, b c d e", 0, 17, 18⟩⟩]
    rfl rfl (by decide) (by decide) (fun _ => rfl) (by decide)
/-! ## Lemmas: `Parse` -/

theorem parseLines_pass (ρ : Nat → RangeOrder) (lines : List Str) :
    ∀ (start : Nat) (result : List Directive),
      (∀ p ∈ lines.enumFrom start, Passes (ParseLine (ρ p.1) (p.1 : Int) p.2)) →
      parseLines ρ lines start result = (result ++ directivesOf ρ lines start, none) := by
  induction lines with
  | nil => intro start result _; simp [parseLines, directivesOf]
  | cons line rest ih =>
    intro start result h
    have h0 := h (start, line) (by simp [List.enumFrom])
    have hrest : ∀ p ∈ rest.enumFrom (start + 1),
        Passes (ParseLine (ρ p.1) (p.1 : Int) p.2) :=
      fun p hp => h p (by simp only [List.enumFrom]; exact List.mem_cons_of_mem _ hp)
    simp only at h0
    rw [parseLines, directivesOf]
    cases hp : ParseLine (ρ start) (start : Int) line with
    | ok dir =>
      simp only
      rw [ih (start + 1) (result ++ [dir]) hrest]
      simp
    | error err =>
      rw [hp] at h0
      cases err with
      | ErrNoDirective =>
        simp only
        rw [ih (start + 1) result hrest]
      | parse e => exact absurd h0 (by simp [Passes])
      | errorf m => exact absurd h0 (by simp [Passes])
      | numError f n k => exact absurd h0 (by simp [Passes])
      | panic => exact absurd h0 (by simp [Passes])
      | diverge => exact absurd h0 (by simp [Passes])

theorem parseLines_fail (ρ : Nat → RangeOrder) (bad : Str) (post : List Str) (e : Error)
    (he : e ≠ .ErrNoDirective) (pre : List Str) :
    ∀ (start : Nat) (result : List Directive),
      (∀ p ∈ pre.enumFrom start, Passes (ParseLine (ρ p.1) (p.1 : Int) p.2)) →
      ParseLine (ρ (start + pre.length)) ((start + pre.length : Nat) : Int) bad = .error e →
      parseLines ρ (pre ++ bad :: post) start result = ([], some e) := by
  induction pre with
  | nil =>
    intro start result _ hbad
    simp only [List.length_nil, Nat.add_zero] at hbad
    rw [List.nil_append, parseLines, hbad]
    cases e with
    | ErrNoDirective => exact absurd rfl he
    | parse e => rfl
    | errorf m => rfl
    | numError f n k => rfl
    | panic => rfl
    | diverge => rfl
  | cons line rest ih =>
    intro start result h hbad
    have h0 := h (start, line) (by simp [List.enumFrom])
    have hrest : ∀ p ∈ rest.enumFrom (start + 1),
        Passes (ParseLine (ρ p.1) (p.1 : Int) p.2) :=
      fun p hp => h p (by simp only [List.enumFrom]; exact List.mem_cons_of_mem _ hp)
    have hbad2 : ParseLine (ρ (start + 1 + rest.length))
        ((start + 1 + rest.length : Nat) : Int) bad = .error e := by
      have e : start + (line :: rest).length = start + 1 + rest.length := by
        simp only [List.length_cons]; omega
      rwa [e] at hbad
    simp only at h0
    rw [List.cons_append, parseLines]
    cases hp : ParseLine (ρ start) (start : Int) line with
    | ok dir =>
      simp only
      exact ih (start + 1) (result ++ [dir]) hrest hbad2
    | error err =>
      rw [hp] at h0
      cases err with
      | ErrNoDirective =>
        simp only
        exact ih (start + 1) result hrest hbad2
      | parse e => exact absurd h0 (by simp [Passes])
      | errorf m => exact absurd h0 (by simp [Passes])
      | numError f n k => exact absurd h0 (by simp [Passes])
      | panic => exact absurd h0 (by simp [Passes])
      | diverge => exact absurd h0 (by simp [Passes])

theorem Parse_of_loop_error (ρ : Nat → RangeOrder) (lines : List Str) (scanErr : Option Str)
    (e : Error) (h : parseLines ρ lines 0 [] = ([], some e)) :
    Parse ρ lines scanErr = ([], some e) := by
  unfold Parse
  rw [h]

theorem Parse_of_loop_ok (ρ : Nat → RangeOrder) (lines : List Str) (result : List Directive)
    (h : parseLines ρ lines 0 [] = (result, none)) :
    Parse ρ lines none = (result, none)
      ∧ ∀ msg, Parse ρ lines (some msg) = ([], some (.errorf msg)) := by
  unfold Parse
  rw [h]
  exact ⟨rfl, fun _ => rfl⟩

theorem scannerLoop_nil (fuel : Nat) : scannerLoop fuel [] = ([], none) := by
  cases fuel with
  | zero => rfl
  | succ k => rw [scannerLoop, if_pos rfl]

theorem scannerLoop_line (fuel : Nat) (hf : 0 < fuel) (line rest : Str) (h : 0x0A ∉ line)
    (hl : line.length + 1 ≤ MaxScanTokenSize) :
    scannerLoop fuel (line ++ 0x0A :: rest)
      = (dropCR line :: (scannerLoop (fuel - 1) rest).1, (scannerLoop (fuel - 1) rest).2) := by
  cases fuel with
  | zero => omega
  | succ k =>
    have hne : ¬ line ++ 0x0A :: rest = [] := by simp
    rw [scannerLoop, if_neg hne, cutByte_append 0x0A line rest h]
    simp only [if_pos hl, Nat.add_sub_cancel]

theorem scannerLoop_tooLong (fuel : Nat) (hf : 0 < fuel) (line rest : Str) (h : 0x0A ∉ line)
    (hl : ¬ line.length + 1 ≤ MaxScanTokenSize) :
    scannerLoop fuel (line ++ 0x0A :: rest) = ([], some ErrTooLong) := by
  cases fuel with
  | zero => omega
  | succ k =>
    have hne : ¬ line ++ 0x0A :: rest = [] := by simp
    rw [scannerLoop, if_neg hne, cutByte_append 0x0A line rest h]
    simp only [if_neg hl]

/-- The scanner yields every line of a manifest whose lines are shorter than
`MaxScanTokenSize` and reports no error. -/
theorem scannerLoop_lines (ls : List Str)
    (hls : ∀ l ∈ ls, 0x0A ∉ l ∧ l.getLast? ≠ some 0x0D ∧ l.length < MaxScanTokenSize) :
    ∀ fuel, ls.length < fuel →
      scannerLoop fuel ((ls.map fun l => l ++ [0x0A]).flatten) = (ls, none) := by
  induction ls with
  | nil =>
    intro fuel _
    exact scannerLoop_nil fuel
  | cons l ls ih =>
    intro fuel hf
    obtain ⟨h1, h2, h3⟩ := hls l (List.mem_cons_self _ _)
    have e : ((l :: ls).map fun l => l ++ [0x0A]).flatten
        = l ++ 0x0A :: ((ls.map fun l => l ++ [0x0A]).flatten) := by
      simp
    rw [e, scannerLoop_line fuel (by omega) l _ h1 (by omega),
      ih (fun x hx => hls x (List.mem_cons_of_mem _ hx)) (fuel - 1)
        (by simp only [List.length_cons] at hf; omega)]
    simp only [dropCR, if_neg h2]

theorem flatten_lines_length (ls : List Str) :
    ls.length ≤ ((ls.map fun l => l ++ [0x0A]).flatten).length := by
  induction ls with
  | nil => simp
  | cons l ls ih =>
    simp only [List.map_cons, List.flatten_cons, List.length_append, List.length_cons,
      List.length_nil]
    omega

theorem scannerRun_lines (ls : List Str)
    (hls : ∀ l ∈ ls, 0x0A ∉ l ∧ l.getLast? ≠ some 0x0D ∧ l.length < MaxScanTokenSize) :
    scannerRun ((ls.map fun l => l ++ [0x0A]).flatten) = (ls, none) := by
  unfold scannerRun
  exact scannerLoop_lines ls hls _ (by have := flatten_lines_length ls; omega)

/-- The scanner stops with `bufio.ErrTooLong` at a second line that does not
fit its buffer, after it has yielded the first line. -/
theorem scannerRun_second_tooLong (l1 l2 rest : Str) (h1 : 0x0A ∉ l1)
    (hl1 : l1.length + 1 ≤ MaxScanTokenSize) (hc : l1.getLast? ≠ some 0x0D)
    (h2 : 0x0A ∉ l2) (hl2 : ¬ l2.length + 1 ≤ MaxScanTokenSize) :
    scannerRun (l1 ++ 0x0A :: (l2 ++ 0x0A :: rest)) = ([l1], some ErrTooLong) := by
  unfold scannerRun
  have hf : 0 < (l1 ++ 0x0A :: (l2 ++ 0x0A :: rest)).length + 1 - 1 := by
    rw [List.length_append, List.length_cons]
    omega
  rw [scannerLoop_line _ (Nat.succ_pos _) _ _ h1 hl1, scannerLoop_tooLong _ hf _ _ h2 hl2]
  simp only [dropCR, if_neg hc]

/-- C19 as stated fails on a manifest with a line of 64 KiB or more.  In the
manifest of the line `hold a` and a comment line of 70001 bytes every line
yields a directive or `ErrNoDirective`; the scanner yields `hold a` and stops
at the second line with `bufio.ErrTooLong`, and `Parse` returns that error and
an empty list, not the directive of `hold a` and no error. -/
theorem c19_parse_driver_counterexample :
    scannerRun (lit "hold a" ++ 0x0A :: ((0x23 :: List.replicate 70000 0x78) ++ 0x0A :: []))
        = ([lit "hold a"], some ErrTooLong)
      ∧ ParseLine id 0 (lit "hold a") = .ok (.hold { PackageName := lit "a" })
      ∧ ParseLine id 1 (0x23 :: List.replicate 70000 0x78) = .error .ErrNoDirective
      ∧ Parse (fun _ => id) [lit "hold a"] (some ErrTooLong)
          = ([], some (.errorf (lit "bufio.Scanner: token too long")))
      ∧ Parse (fun _ => id) [lit "hold a"] (some ErrTooLong)
          ≠ ([.hold { PackageName := lit "a" }], none) := by
  refine ⟨?_, by decide, ?_, by decide, by decide⟩
  · have h2 : (0x0A : Nat) ∉ (0x23 :: List.replicate 70000 0x78 : Str) := by
      intro hc
      rcases List.mem_cons.1 hc with hc | hc
      · exact absurd hc (by decide)
      · exact absurd (List.eq_of_mem_replicate hc) (by decide)
    have h3 : ¬ (0x23 :: List.replicate 70000 0x78 : Str).length + 1 ≤ MaxScanTokenSize := by
      rw [List.length_cons, List.length_replicate]
      decide
    exact scannerRun_second_tooLong (lit "hold a") (0x23 :: List.replicate 70000 0x78) []
      (by decide) (by decide) (by decide) h2 h3
  · have hb : IsBlank [] := by decide
    have := ParseLine_of_lex id 1 _ _
      (lexLine_comment [] (List.replicate 70000 0x78) 1 0 0 hb)
    rw [List.nil_append] at this
    rw [this]
    rfl

/-- C19, amended: on a run of the scanner that yields `lines`, when every
line yields a directive or `ErrNoDirective`, `Parse` returns no error and the
directives of the lines that yield one, in source order, if the scanner
reports no error, and the error of the scanner with an empty list if it
reports one; otherwise `Parse` returns the error of the first line whose
result is an error other than `ErrNoDirective`, with an empty list of
directives, whatever the lines after it and the error of the scanner are.
The scanner reports no error on a manifest whose lines, each ended by `\n`,
are shorter than 64 KiB, and yields these lines.  The lines are numbered from
0, as `Parse` numbers them. -/
theorem c19_parse_driver (ρ : Nat → RangeOrder) (lines : List Str) (scanErr : Option Str) :
    ((∀ p ∈ lines.enum, Passes (ParseLine (ρ p.1) (p.1 : Int) p.2)) →
        Parse ρ lines none = (directivesOf ρ lines 0, none)
          ∧ ∀ msg, Parse ρ lines (some msg) = ([], some (.errorf msg)))
      ∧ (∀ pre bad post e, lines = pre ++ bad :: post →
          (∀ p ∈ pre.enum, Passes (ParseLine (ρ p.1) (p.1 : Int) p.2)) →
          ParseLine (ρ pre.length) (pre.length : Int) bad = .error e →
          e ≠ .ErrNoDirective →
          Parse ρ lines scanErr = ([], some e)
            ∧ ∀ post2 scanErr2, Parse ρ (pre ++ bad :: post2) scanErr2 = ([], some e))
      ∧ ((∀ l ∈ lines, 0x0A ∉ l ∧ l.getLast? ≠ some 0x0D ∧ l.length < MaxScanTokenSize) →
          scannerRun ((lines.map fun l => l ++ [0x0A]).flatten) = (lines, none)) := by
  refine ⟨?_, ?_, scannerRun_lines lines⟩
  · intro h
    have := parseLines_pass ρ lines 0 [] h
    rw [List.nil_append] at this
    exact Parse_of_loop_ok ρ lines _ this
  · intro pre bad post e hl hpre hbad he
    have key : ∀ post2 scanErr2, Parse ρ (pre ++ bad :: post2) scanErr2 = ([], some e) := by
      intro post2 scanErr2
      exact Parse_of_loop_error ρ _ scanErr2 e
        (parseLines_fail ρ bad post2 e he pre 0 [] hpre (by simpa using hbad))
    exact ⟨hl ▸ key post scanErr, key⟩

/-- C19, amended, at a manifest of four lines, the second blank and the third
a comment, and at the same manifest with a failing line and one more line. -/
theorem c19_parse_driver_witness :
    Parse (fun _ => id) [lit "package foo", lit "", lit "# c", lit "ppa x"] none
        = ([.package { Name := lit "foo", Version := [], Release := [] },
            .ppa { Name := lit "x" }], none)
      ∧ Parse (fun _ => id) [lit "package foo", lit "", lit "# c", lit "ppa x"]
          (some ErrTooLong)
        = ([], some (.errorf ErrTooLong))
      ∧ Parse (fun _ => id)
          ([lit "package foo", lit "", lit "# c"] ++ lit "ppa x y" :: [lit "hold z"])
          (some ErrTooLong)
        = ([], some (.errorf (lit "expected one argument, got [x y]")))
      ∧ scannerRun
          (([lit "package foo", lit "", lit "# c", lit "ppa x"].map fun l => l ++ [0x0A]).flatten)
        = ([lit "package foo", lit "", lit "# c", lit "ppa x"], none) :=
  have h := c19_parse_driver (fun _ => id)
    [lit "package foo", lit "", lit "# c", lit "ppa x"] none
  ⟨((h.1 (by decide)).1).trans (by decide),
   (h.1 (by decide)).2 ErrTooLong,
   ((c19_parse_driver (fun _ => id)
      ([lit "package foo", lit "", lit "# c"] ++ lit "ppa x y" :: [lit "hold z"])
      (some ErrTooLong)).2.1
      [lit "package foo", lit "", lit "# c"] (lit "ppa x y") [lit "hold z"]
      (.errorf (lit "expected one argument, got [x y]")) rfl (by decide) (by decide)
      (by decide)).1,
   h.2.2 (by decide)⟩
/-! ## Lemmas: the `ParseError` values of `ParseLine` -/

theorem bind_ne_parse {α β : Type} (x : Except Error α) (k : α → Except Error β)
    (hx : ∀ e, x ≠ .error (.parse e)) (hk : ∀ a e, k a ≠ .error (.parse e)) :
    ∀ e, (x >>= k) ≠ .error (.parse e) := by
  intro e
  cases x with
  | error err =>
    intro h
    simp only [bind, Except.bind, Except.error.injEq] at h
    exact hx e (by rw [h])
  | ok a => exact hk a e

theorem idx_ne_parse {α : Type} (l : List α) (i : Nat) :
    ∀ e, idx l i ≠ .error (.parse e) := by
  intro e h
  unfold idx at h
  split at h <;> cases h

theorem map_ne_parse {α β : Type} (x : Except Error α) (f : α → β)
    (hx : ∀ e, x ≠ .error (.parse e)) : ∀ e, x.map f ≠ .error (.parse e) := by
  intro e
  cases x with
  | error err =>
    intro h
    simp only [Except.map, Except.error.injEq] at h
    exact hx e (by rw [h])
  | ok a => intro h; cases h

theorem signedResult_ne_parse (s : Str) (neg : Bool) (un : Nat) :
    ∀ e, signedResult s neg un ≠ .error (.parse e) := by
  intro e h
  unfold signedResult at h
  split_ifs at h <;> cases h

theorem ParseInt_ne_parse (s : Str) : ∀ e, ParseInt s ≠ .error (.parse e) := by
  intro e h
  cases s with
  | nil => simp [ParseInt] at h
  | cons c cs =>
    simp only [ParseInt] at h
    split at h
    · cases h
    · exact signedResult_ne_parse _ _ _ e h
    · exact signedResult_ne_parse _ _ _ e h

theorem parsePackageDirective_ne_parse (ρ : RangeOrder) (cmd : Str) (args : List Str)
    (opts : Opts) : ∀ e, parsePackageDirective ρ cmd args opts ≠ .error (.parse e) := by
  unfold parsePackageDirective
  split_ifs
  · intro e h; cases h
  · refine bind_ne_parse _ _ (idx_ne_parse _ _) ?_
    intro name
    split
    · split_ifs <;> intro e h <;> cases h
    · simp only
      split_ifs
      · refine bind_ne_parse _ _ (idx_ne_parse _ _) fun p0 =>
          bind_ne_parse _ _ (idx_ne_parse _ _) fun p1 e h => ?_
        cases h
      · refine bind_ne_parse _ _ (idx_ne_parse _ _) fun p0 =>
          bind_ne_parse _ _ (idx_ne_parse _ _) fun p1 e h => ?_
        cases h
      · intro e h; cases h

theorem parsePinDirective_ne_parse (ρ : RangeOrder) (cmd : Str) (args : List Str)
    (opts : Opts) : ∀ e, parsePinDirective ρ cmd args opts ≠ .error (.parse e) := by
  unfold parsePinDirective
  split_ifs
  · intro e h; cases h
  · refine bind_ne_parse _ _ (idx_ne_parse _ _) fun a1 =>
      bind_ne_parse _ _ (ParseInt_ne_parse _) fun pri =>
      bind_ne_parse _ _ (idx_ne_parse _ _) fun a0 => ?_
    simp only
    split
    · split_ifs <;> intro e h <;> cases h
    · intro e h; cases h

theorem parsePpaDirective_ne_parse (cmd : Str) (args : List Str) (opts : Opts) :
    ∀ e, parsePpaDirective cmd args opts ≠ .error (.parse e) := by
  unfold parsePpaDirective
  split_ifs
  · intro e h; cases h
  · intro e h; cases h
  · exact bind_ne_parse _ _ (idx_ne_parse _ _) fun a e h => by cases h

theorem parseDebFileDirective_ne_parse (cmd : Str) (args : List Str) (opts : Opts) :
    ∀ e, parseDebFileDirective cmd args opts ≠ .error (.parse e) := by
  unfold parseDebFileDirective
  split_ifs
  · intro e h; cases h
  · intro e h; cases h
  · exact bind_ne_parse _ _ (idx_ne_parse _ _) fun a e h => by cases h

theorem parseHoldDirective_ne_parse (cmd : Str) (args : List Str) (opts : Opts) :
    ∀ e, parseHoldDirective cmd args opts ≠ .error (.parse e) := by
  unfold parseHoldDirective
  split_ifs
  · intro e h; cases h
  · intro e h; cases h
  · exact bind_ne_parse _ _ (idx_ne_parse _ _) fun a e h => by cases h

theorem repoOptions_ne_parse (l : List (Str × Str)) :
    ∀ (dir : RepoDirective) e, repoOptions l dir ≠ .error (.parse e) := by
  induction l with
  | nil => intro dir e h; cases h
  | cons p l ih =>
    obtain ⟨k, v⟩ := p
    intro dir e
    unfold repoOptions
    split_ifs
    · exact ih _ e
    · exact ih _ e
    · intro h; cases h

theorem parseRepoDirective_ne_parse (ρ : RangeOrder) (cmd : Str) (args : List Str)
    (opts : Opts) : ∀ e, parseRepoDirective ρ cmd args opts ≠ .error (.parse e) := by
  intro e
  match args with
  | [] => simp [parseRepoDirective]
  | [a0] =>
    simp only [parseRepoDirective, idx, bind, Except.bind, pure, Except.pure,
      List.length_cons, List.length_nil, List.getElem?_cons_zero]
    simp only [Nat.reduceAdd, Nat.reduceEqDiff, if_false, ge_iff_le, Nat.reduceLeDiff]
    exact repoOptions_ne_parse _ _ e
  | [a0, a1] =>
    simp only [parseRepoDirective, idx, bind, Except.bind, pure, Except.pure,
      List.length_cons, List.length_nil, List.getElem?_cons_zero, List.getElem?_cons_succ]
    simp only [Nat.reduceAdd, Nat.reduceEqDiff, if_false, ge_iff_le, Nat.reduceLeDiff,
      le_refl, if_true]
    exact repoOptions_ne_parse _ _ e
  | a0 :: a1 :: a2 :: rest =>
    simp only [parseRepoDirective, idx, bind, Except.bind, pure, Except.pure,
      List.length_cons, List.getElem?_cons_zero, List.getElem?_cons_succ]
    have h2 : rest.length + 1 + 1 + 1 ≥ 2 := by omega
    have h3 : rest.length + 1 + 1 + 1 ≥ 3 := by omega
    simp only [Nat.add_one_ne_zero, if_false, h2, h3, if_true]
    exact repoOptions_ne_parse _ _ e

theorem dispatch_ne_parse (ρ : RangeOrder) (cmd : Str) (args : List Str) (opts : Opts) :
    ∀ e, dispatch ρ cmd args opts ≠ .error (.parse e) := by
  unfold dispatch
  split_ifs
  · exact map_ne_parse _ _ (parseRepoDirective_ne_parse ρ cmd args opts)
  · exact map_ne_parse _ _ (parsePackageDirective_ne_parse ρ cmd args opts)
  · exact map_ne_parse _ _ (parseDebFileDirective_ne_parse cmd args opts)
  · exact map_ne_parse _ _ (parsePpaDirective_ne_parse cmd args opts)
  · exact map_ne_parse _ _ (parsePinDirective_ne_parse ρ cmd args opts)
  · exact map_ne_parse _ _ (parseHoldDirective_ne_parse cmd args opts)
  · intro e h; cases h
/-! ## Lemmas: the coordinates of the `ParseError` values -/

theorem bind_eq_error {α β : Type} (x : Except Error α) (k : α → Except Error β)
    (err : Error) (h : (x >>= k) = .error err) :
    x = .error err ∨ ∃ a, x = .ok a ∧ k a = .error err := by
  cases x with
  | error e0 =>
    left
    simp only [bind, Except.bind, Except.error.injEq] at h
    rw [h]
  | ok a => exact Or.inr ⟨a, rfl, h⟩

theorem push_ne_parse (coord : FileCoord) (st : LexState) (e : Int) (force : Bool) :
    ∀ pe, pushAccumulatedToken coord st e force ≠ .error (.parse pe) := by
  intro pe h
  unfold pushAccumulatedToken at h
  split_ifs at h
  · rcases bind_eq_error _ _ _ h with h1 | ⟨a, _, h1⟩
    · unfold FileCoord.Text at h1
      split_ifs at h1
      cases h1
    · cases h1
  · cases h

theorem push_quoted (coord : FileCoord) (st st1 : LexState) (e : Int) (force : Bool)
    (h : pushAccumulatedToken coord st e force = .ok st1) : st1.quoted = st.quoted := by
  rcases push_cases_from coord st st1 e force h with h1 | ⟨t, h1, _⟩
  · rw [h1]
  · rw [h1]

/-- The only `ParseError` of the loop of `lexLine` is that of the quoted
command. -/
theorem lexLoop_error (coord : FileCoord) (l : List (Nat × Nat)) :
    ∀ (st : LexState) (pe : ParseError), lexLoop coord l st = .error (.parse pe) →
      .parse pe = quotedCommandError coord := by
  induction l with
  | nil => intro st pe h; cases h
  | cons p l ih =>
    obtain ⟨i, r⟩ := p
    intro st pe h
    rw [lexLoop] at h
    by_cases hq : st.quoted = true
    · rw [if_pos hq] at h
      by_cases hr : r = 0x22
      · rw [if_pos hr] at h
        rcases bind_eq_error _ _ _ h with h1 | ⟨a, _, h1⟩
        · exact absurd h1 (push_ne_parse _ _ _ _ pe)
        · exact ih _ _ h1
      · rw [if_neg hr] at h
        exact ih _ _ h
    · rw [if_neg hq] at h
      by_cases h22 : r = 0x22
      · rw [if_pos h22] at h
        by_cases hi : i = 0
        · rw [if_pos hi] at h
          simp only [throw, throwThe, MonadExceptOf.throw, Except.error.injEq] at h
          exact h.symm
        · rw [if_neg hi] at h
          rcases bind_eq_error _ _ _ h with h1 | ⟨a, _, h1⟩
          · exact absurd h1 (push_ne_parse _ _ _ _ pe)
          · exact ih _ _ h1
      · rw [if_neg h22] at h
        by_cases h23 : r = 0x23
        · rw [if_pos h23] at h
          rcases bind_eq_error _ _ _ h with h1 | ⟨a, _, h1⟩
          · exact absurd h1 (push_ne_parse _ _ _ _ pe)
          · cases h1
        · rw [if_neg h23] at h
          by_cases h3a : r = 0x3A
          · rw [if_pos h3a] at h
            rcases bind_eq_error _ _ _ h with h1 | ⟨a, _, h1⟩
            · exact absurd h1 (push_ne_parse _ _ _ _ pe)
            · rcases bind_eq_error _ _ _ h1 with h2 | ⟨a2, _, h2⟩
              · exact absurd h2 (push_ne_parse _ _ _ _ pe)
              · exact ih _ _ h2
          · rw [if_neg h3a] at h
            by_cases h2c : r = 0x2C
            · rw [if_pos h2c] at h
              rcases bind_eq_error _ _ _ h with h1 | ⟨a, _, h1⟩
              · exact absurd h1 (push_ne_parse _ _ _ _ pe)
              · rcases bind_eq_error _ _ _ h1 with h2 | ⟨a2, _, h2⟩
                · exact absurd h2 (push_ne_parse _ _ _ _ pe)
                · exact ih _ _ h2
            · rw [if_neg h2c] at h
              by_cases hsp : IsSpace r = true
              · rw [if_pos hsp] at h
                rcases bind_eq_error _ _ _ h with h1 | ⟨a, _, h1⟩
                · exact absurd h1 (push_ne_parse _ _ _ _ pe)
                · exact ih _ _ h1
              · rw [if_neg hsp] at h
                exact ih _ _ h

/-- In quoting mode the start of the pending token is not negative. -/
theorem lexLoop_quoted_nonneg (coord : FileCoord) (l : List (Nat × Nat)) :
    ∀ (st st1 : LexState) (e : Int), lexLoop coord l st = .ok (st1, e) →
      (st.quoted = true → 0 ≤ st.bStart) → st1.quoted = true → 0 ≤ st1.bStart := by
  induction l with
  | nil =>
    intro st st1 e h hinv
    simp only [lexLoop, pure, Except.pure, Except.ok.injEq, Prod.mk.injEq] at h
    rw [← h.1]; exact hinv
  | cons p l ih =>
    obtain ⟨i, r⟩ := p
    intro st st1 e h hinv
    rw [lexLoop] at h
    by_cases hq : st.quoted = true
    · rw [if_pos hq] at h
      by_cases hr : r = 0x22
      · rw [if_pos hr] at h
        obtain ⟨s1, hp, h⟩ := bind_eq_ok _ _ _ h
        exact ih _ _ _ h (fun hc => by simp at hc)
      · rw [if_neg hr] at h
        exact ih _ _ _ h hinv
    · have hq1 : ∀ s1 : LexState, s1.quoted = st.quoted → ¬ s1.quoted = true :=
        fun s1 h1 => by rw [h1]; exact hq
      rw [if_neg hq] at h
      by_cases h22 : r = 0x22
      · rw [if_pos h22] at h
        by_cases hi : i = 0
        · rw [if_pos hi] at h
          cases h
        · rw [if_neg hi] at h
          obtain ⟨s1, hp, h⟩ := bind_eq_ok _ _ _ h
          exact ih _ _ _ h (fun _ => by simp only; omega)
      · rw [if_neg h22] at h
        by_cases h23 : r = 0x23
        · rw [if_pos h23] at h
          obtain ⟨s1, hp, h⟩ := bind_eq_ok _ _ _ h
          simp only [pure, Except.pure, Except.ok.injEq, Prod.mk.injEq] at h
          rw [← h.1]
          exact fun hc => absurd hc (hq1 s1 (push_quoted _ _ _ _ _ hp))
        · rw [if_neg h23] at h
          by_cases h3a : r = 0x3A
          · rw [if_pos h3a] at h
            obtain ⟨s1, hp, h⟩ := bind_eq_ok _ _ _ h
            obtain ⟨s2, hp2, h⟩ := bind_eq_ok _ _ _ h
            refine ih _ _ _ h (fun hc => absurd hc (hq1 s2 ?_))
            rw [push_quoted _ _ _ _ _ hp2]
            show s1.quoted = st.quoted
            exact push_quoted _ _ _ _ _ hp
          · rw [if_neg h3a] at h
            by_cases h2c : r = 0x2C
            · rw [if_pos h2c] at h
              obtain ⟨s1, hp, h⟩ := bind_eq_ok _ _ _ h
              obtain ⟨s2, hp2, h⟩ := bind_eq_ok _ _ _ h
              refine ih _ _ _ h (fun hc => absurd hc (hq1 s2 ?_))
              rw [push_quoted _ _ _ _ _ hp2]
              show s1.quoted = st.quoted
              exact push_quoted _ _ _ _ _ hp
            · rw [if_neg h2c] at h
              by_cases hsp : IsSpace r = true
              · rw [if_pos hsp] at h
                obtain ⟨s1, hp, h⟩ := bind_eq_ok _ _ _ h
                exact ih _ _ _ h
                  (fun hc => absurd hc (hq1 s1 (push_quoted _ _ _ _ _ hp)))
              · rw [if_neg hsp] at h
                refine ih _ _ _ h (fun hc => absurd hc (hq1 _ ?_))
                by_cases hb : st.bStart < 0
                · rw [if_pos hb]
                · rw [if_neg hb]

theorem lexLine_error_coord (coord : FileCoord) (pe : ParseError)
    (h : lexLine coord = .error (.parse pe)) :
    pe.Coord.Line = coord.Line ∧ pe.Coord.LineNum = coord.LineNum
      ∧ 0 ≤ pe.Coord.ColStart := by
  unfold lexLine at h
  rcases bind_eq_error _ _ _ h with h1 | ⟨res, hl, h1⟩
  · have := lexLoop_error coord _ _ _ h1
    simp only [quotedCommandError, Error.parse.injEq] at this
    rw [this]
    exact ⟨rfl, rfl, le_refl _⟩
  · obtain ⟨st, e0⟩ := res
    simp only at h1
    by_cases hq : st.quoted = true
    · rw [if_pos hq] at h1
      simp only [throw, throwThe, MonadExceptOf.throw, Except.error.injEq,
        Error.parse.injEq] at h1
      rw [← h1]
      exact ⟨rfl, rfl, lexLoop_quoted_nonneg coord _ _ _ _ hl (by simp) hq⟩
    · rw [if_neg hq] at h1
      rcases bind_eq_error _ _ _ h1 with h2 | ⟨a, _, h2⟩
      · exact absurd h2 (push_ne_parse _ _ _ _ pe)
      · cases h2

theorem idx_eq_ok {α : Type} (l : List α) (i : Nat) (a : α) (h : idx l i = .ok a) :
    l[i]? = some a := by
  unfold idx at h
  split at h
  · rename_i b hb
    cases h
    exact hb
  · cases h

theorem mem_of_getElem_some {α : Type} (l : List α) (i : Nat) (a : α)
    (h : l[i]? = some a) : a ∈ l := List.mem_iff_getElem?.2 ⟨i, h⟩

theorem idx_mem {α : Type} (l : List α) (i : Nat) (a : α) (h : idx l i = .ok a) :
    a ∈ l := mem_of_getElem_some l i a (idx_eq_ok l i a h)

theorem text_ne_parse (t : Token) : ∀ e, t.Text ≠ .error (.parse e) := by
  intro e h
  unfold Token.Text FileCoord.Text at h
  split_ifs at h
  cases h

/-- The coordinate of a `ParseError` of the loop of `ParseLine`: the
coordinate of a token, or the start of a token and the end of a token that
is not before it in the list, on the line and line number of the call. -/
theorem parseLoop_error (line : Str) (lineNum : Int) (toks : List Token) :
    ∀ (fuel curr : Nat) (optsPhase : Bool) (args : List Str) (opts : Opts) (e : ParseError),
      parseLoop line lineNum toks fuel curr optsPhase args opts = .error (.parse e) →
      (∃ t ∈ toks, e.Coord = t.Coord)
        ∨ ∃ (i j : Nat) (ti tj : Token), i ≤ j ∧ toks[i]? = some ti ∧ toks[j]? = some tj
            ∧ e.Coord = ⟨line, lineNum, ti.Coord.ColStart, tj.Coord.ColEnd⟩ := by
  intro fuel
  induction fuel with
  | zero => intro curr optsPhase args opts e h; cases h
  | succ fuel ih =>
    intro curr optsPhase args opts e h
    rw [parseLoop] at h
    by_cases hc : curr < toks.length
    · rw [if_pos hc] at h
      by_cases ho : optsPhase = true
      · rw [if_pos ho] at h
        by_cases h3 : curr + 3 ≥ toks.length
        · rw [if_pos h3] at h
          rcases bind_eq_error _ _ _ h with h1 | ⟨tc, htc, h1⟩
          · exact absurd h1 (idx_ne_parse _ _ e)
          · rcases bind_eq_error _ _ _ h1 with h2 | ⟨tl, htl, h2⟩
            · exact absurd h2 (idx_ne_parse _ _ e)
            · simp only [throw, throwThe, MonadExceptOf.throw, Except.error.injEq,
                Error.parse.injEq] at h2
              right
              refine ⟨curr, toks.length - 1, tc, tl, by omega, idx_eq_ok _ _ _ htc,
                idx_eq_ok _ _ _ htl, ?_⟩
              rw [← h2]
        · rw [if_neg h3] at h
          rcases bind_eq_error _ _ _ h with h1 | ⟨t0, ht0, h1⟩
          · exact absurd h1 (idx_ne_parse _ _ e)
          rcases bind_eq_error _ _ _ h1 with h2 | ⟨t1, ht1, h2⟩
          · exact absurd h2 (idx_ne_parse _ _ e)
          rcases bind_eq_error _ _ _ h2 with h3 | ⟨t2, ht2, h3⟩
          · exact absurd h3 (idx_ne_parse _ _ e)
          rcases bind_eq_error _ _ _ h3 with h4 | ⟨t3, ht3, h4⟩
          · exact absurd h4 (idx_ne_parse _ _ e)
          by_cases hg : t0.Typ = CommaToken ∧ t1.Typ = StringToken
              ∧ t2.Typ = ColonToken ∧ t3.Typ = StringToken
          · rw [if_pos hg] at h4
            rcases bind_eq_error _ _ _ h4 with h5 | ⟨k, _, h5⟩
            · exact absurd h5 (text_ne_parse _ e)
            rcases bind_eq_error _ _ _ h5 with h6 | ⟨v, _, h6⟩
            · exact absurd h6 (text_ne_parse _ e)
            exact ih _ _ _ _ e h6
          · rw [if_neg hg] at h4
            rcases bind_eq_error _ _ _ h4 with h5 | ⟨te, hte, h5⟩
            · exact absurd h5 (idx_ne_parse _ _ e)
            simp only [throw, throwThe, MonadExceptOf.throw, Except.error.injEq,
              Error.parse.injEq] at h5
            right
            refine ⟨curr, min (curr + 3) (toks.length - 1), t0, te, by omega,
              idx_eq_ok _ _ _ ht0, idx_eq_ok _ _ _ hte, ?_⟩
            rw [← h5]
      · rw [if_neg ho] at h
        rcases bind_eq_error _ _ _ h with h1 | ⟨t, ht, h1⟩
        · exact absurd h1 (idx_ne_parse _ _ e)
        by_cases hcm : t.Typ = CommaToken
        · rw [if_pos hcm] at h1
          exact ih _ _ _ _ e h1
        · rw [if_neg hcm] at h1
          by_cases hcl : t.Typ = ColonToken
          · rw [if_pos hcl] at h1
            simp only [throw, throwThe, MonadExceptOf.throw, Except.error.injEq,
              Error.parse.injEq] at h1
            left
            exact ⟨t, idx_mem _ _ _ ht, by rw [← h1]⟩
          · rw [if_neg hcl] at h1
            rcases bind_eq_error _ _ _ h1 with h5 | ⟨a, _, h5⟩
            · exact absurd h5 (text_ne_parse _ e)
            exact ih _ _ _ _ e h5
    · rw [if_neg hc] at h
      cases h

/-- The coordinate of a `ParseError` of the part of `ParseLine` that follows
the lexer. -/
theorem parseTokens_error (ρ : RangeOrder) (lineNum : Int) (line : Str)
    (toks : List Token) (e : ParseError)
    (h : parseTokens ρ lineNum line toks = .error (.parse e)) :
    (∃ t ∈ toks, e.Coord = t.Coord)
      ∨ ∃ (i j : Nat) (ti tj : Token), i ≤ j ∧ toks[i]? = some ti ∧ toks[j]? = some tj
          ∧ e.Coord = ⟨line, lineNum, ti.Coord.ColStart, tj.Coord.ColEnd⟩ := by
  unfold parseTokens at h
  by_cases h0 : toks.length = 0
  · rw [if_pos h0] at h
    cases h
  rw [if_neg h0] at h
  rcases bind_eq_error _ _ _ h with h1 | ⟨t0, ht0, h1⟩
  · exact absurd h1 (idx_ne_parse _ _ e)
  by_cases hs : t0.Typ ≠ StringToken
  · rw [if_pos hs] at h1
    simp only [throw, throwThe, MonadExceptOf.throw, Except.error.injEq,
      Error.parse.injEq] at h1
    left
    exact ⟨t0, idx_mem _ _ _ ht0, by rw [← h1]⟩
  · rw [if_neg hs] at h1
    rcases bind_eq_error _ _ _ h1 with h2 | ⟨cmd, _, h2⟩
    · exact absurd h2 (text_ne_parse _ e)
    rcases bind_eq_error _ _ _ h2 with h3 | ⟨res, _, h3⟩
    · exact parseLoop_error _ _ _ _ _ _ _ _ e h3
    · obtain ⟨args, opts⟩ := res
      exact absurd h3 (dispatch_ne_parse _ _ _ _ e)

/-- A `ParseError` of `ParseLine` carries the line and the line number of
the call, and its `ColStart` is not negative. -/
theorem ParseLine_error_coord (ρ : RangeOrder) (lineNum : Int) (line : Str)
    (e : ParseError) (h : ParseLine ρ lineNum line = .error (.parse e)) :
    e.Coord.Line = line ∧ e.Coord.LineNum = lineNum ∧ 0 ≤ e.Coord.ColStart := by
  unfold ParseLine at h
  rcases bind_eq_error _ _ _ h with h1 | ⟨toks, hl, h1⟩
  · exact lexLine_error_coord _ e h1
  · have hf := lexLine_from _ toks hl
    rcases parseTokens_error ρ lineNum line toks e h1 with ⟨t, ht, hc⟩ | ⟨i, j, ti, tj, _, hi, _, hc⟩
    · obtain ⟨a, b, c, _⟩ := hf t ht
      rw [hc]
      exact ⟨a, b, c.1⟩
    · obtain ⟨_, _, c, _⟩ := hf ti (mem_of_getElem_some _ _ _ hi)
      rw [hc]
      exact ⟨rfl, rfl, c.1⟩

/-! ## Claim on the line number of a diagnostic -/

/-- When the loop of `Parse` returns an error, the error is that of
`ParseLine` on the first line that yields neither a directive nor
`ErrNoDirective`. -/
theorem parseLines_error (ρ : Nat → RangeOrder) (lines : List Str) :
    ∀ (start : Nat) (result ds : List Directive) (err : Error),
      parseLines ρ lines start result = (ds, some err) →
      ∃ pre bad post, lines = pre ++ bad :: post
        ∧ (∀ p ∈ pre.enumFrom start, Passes (ParseLine (ρ p.1) (p.1 : Int) p.2))
        ∧ ParseLine (ρ (start + pre.length)) ((start + pre.length : Nat) : Int) bad
            = .error err
        ∧ err ≠ .ErrNoDirective := by
  induction lines with
  | nil =>
    intro start result ds err h
    simp [parseLines] at h
  | cons line rest ih =>
    intro start result ds err h
    rw [parseLines] at h
    cases hr : ParseLine (ρ start) (start : Int) line with
    | ok dir =>
      rw [hr] at h
      obtain ⟨pre, bad, post, h1, h2, h3, h4⟩ := ih _ _ _ _ h
      refine ⟨line :: pre, bad, post, by rw [h1]; rfl, ?_, ?_, h4⟩
      · intro p hp
        rw [List.enumFrom_cons, List.mem_cons] at hp
        rcases hp with hp | hp
        · rw [hp]
          simp only [hr, Passes]
        · exact h2 p hp
      · rw [List.length_cons]
        have : start + (pre.length + 1) = start + 1 + pre.length := by omega
        rw [this]
        exact h3
    | error e0 =>
      rw [hr] at h
      by_cases he : e0 = .ErrNoDirective
      · subst he
        obtain ⟨pre, bad, post, h1, h2, h3, h4⟩ := ih _ _ _ _ h
        refine ⟨line :: pre, bad, post, by rw [h1]; rfl, ?_, ?_, h4⟩
        · intro p hp
          rw [List.enumFrom_cons, List.mem_cons] at hp
          rcases hp with hp | hp
          · rw [hp]
            simp only [hr, Passes]
          · exact h2 p hp
        · rw [List.length_cons]
          have : start + (pre.length + 1) = start + 1 + pre.length := by omega
          rw [this]
          exact h3
      · have h5 : ([], some e0) = (ds, some err) := by
          cases e0 <;> first | exact absurd rfl he | exact h
        simp only [Prod.mk.injEq, Option.some.injEq] at h5
        refine ⟨[], line, rest, rfl, ?_, ?_, ?_⟩
        · intro p hp
          simp at hp
        · rw [← h5.2]
          simpa using hr
        · rw [← h5.2]
          exact he

theorem fmtInt_natCast (n : Nat) : fmtInt (n : Int) = fmtNat n := by
  unfold fmtInt
  rw [if_neg (by omega)]
  simp

/-- C18 as stated fails: `Parse` numbers the lines from 0.  A manifest whose
first line is `package foo: bar` fails on that line with a `ParseError` of
line number 0, and the annotation begins with the numeral `0`, not `1`. -/
theorem c18_line_number_counterexample :
    Parse (fun _ => id) [lit "package foo: bar"] none
        = ([], some (.parse { Message := lit "unexpected colon",
                              Coord := { Line := lit "package foo: bar", LineNum := 0,
                                         ColStart := 11, ColEnd := 12 } }))
      ∧ ParseError.Error { Message := lit "unexpected colon",
                           Coord := { Line := lit "package foo: bar", LineNum := 0,
                                      ColStart := 11, ColEnd := 12 } }
          = .ok (lit "0 | package foo: bar\n               ^ unexpected colon")
      ∧ ¬ ∃ rest,
          ParseError.Error { Message := lit "unexpected colon",
                             Coord := { Line := lit "package foo: bar", LineNum := 0,
                                        ColStart := 11, ColEnd := 12 } }
            = .ok (fmtNat 1 ++ rest) := by
  have h2 : ParseError.Error { Message := lit "unexpected colon",
                               Coord := { Line := lit "package foo: bar", LineNum := 0,
                                          ColStart := 11, ColEnd := 12 } }
          = .ok (lit "0 | package foo: bar\n               ^ unexpected colon") := by
    decide
  refine ⟨by decide, h2, ?_⟩
  rintro ⟨rest, h⟩
  rw [h2] at h
  simp only [Except.ok.injEq] at h
  have h3 := congrArg List.head? h
  rw [show fmtNat 1 = [0x31] by decide,
    show (lit "0 | package foo: bar\n               ^ unexpected colon").head? = some 0x30
      by decide] at h3
  simp at h3

/-- C18, amended: the line number shown in a diagnostic counts the first line
as 0.  When `Parse` returns a `ParseError`, whatever the scanner reports at
the end, it is the error of `ParseLine` on
the first line `bad` that yields neither a directive nor `ErrNoDirective`;
with `pre` the lines before it, so that `bad` is line `len(pre) + 1` counting
from 1, the error carries the line number `len(pre)` and the line `bad`, and
its annotation begins with the decimal numeral of `len(pre)`, then ` | `, the
text of the line and a newline. -/
theorem c18_line_number (ρ : Nat → RangeOrder) (lines : List Str) (scanErr : Option Str)
    (ds : List Directive) (e : ParseError)
    (h : Parse ρ lines scanErr = (ds, some (.parse e))) :
    ∃ pre bad post, lines = pre ++ bad :: post
      ∧ (∀ p ∈ pre.enum, Passes (ParseLine (ρ p.1) (p.1 : Int) p.2))
      ∧ ParseLine (ρ pre.length) (pre.length : Int) bad = .error (.parse e)
      ∧ e.Coord.LineNum = pre.length ∧ e.Coord.Line = bad
      ∧ decimalInt (fmtNat pre.length) = some (pre.length : Int)
      ∧ ∃ rest, e.Error
          = .ok (fmtNat pre.length ++ lit " | " ++ bad ++ lit "\n" ++ rest) := by
  have hloop : ∃ ds1, parseLines ρ lines 0 [] = (ds1, some (.parse e)) := by
    unfold Parse at h
    cases hp : parseLines ρ lines 0 [] with
    | mk r oe =>
      rw [hp] at h
      cases oe with
      | some err =>
        simp only [Prod.mk.injEq, Option.some.injEq] at h
        exact ⟨r, by rw [h.2]⟩
      | none =>
        cases scanErr with
        | none =>
          simp only [Prod.mk.injEq] at h
          exact absurd h.2 (by simp)
        | some msg =>
          simp only [Prod.mk.injEq, Option.some.injEq] at h
          exact absurd h.2 (by simp)
  obtain ⟨ds1, hloop⟩ := hloop
  obtain ⟨pre, bad, post, h1, h2, h3, _⟩ := parseLines_error ρ lines 0 [] ds1 _ hloop
  have h3 : ParseLine (ρ pre.length) (pre.length : Int) bad = .error (.parse e) := by
    simpa using h3
  obtain ⟨c1, c2, c3⟩ := ParseLine_error_coord _ _ _ e h3
  refine ⟨pre, bad, post, h1, h2, h3, c2, c1, ?_, ?_⟩
  · rw [← fmtInt_natCast]
    exact decimalInt_fmtInt _
  · have := LineAnnotated_spec e.Coord e.Message c3
    rw [c1, c2, fmtInt_natCast] at this
    refine ⟨List.replicate ((fmtNat pre.length).length + 3 + e.Coord.ColStart.toNat) 0x20
      ++ List.replicate (max (wrapInt (e.Coord.ColEnd - e.Coord.ColStart)) 1).toNat 0x5E
      ++ lit " " ++ e.Message, ?_⟩
    unfold ParseError.Error
    rw [this]
    simp only [List.append_assoc]

/-- C18, amended, at a manifest of three lines whose third line fails: the
annotation begins with `2`. -/
theorem c18_line_number_witness :
    Parse (fun _ => id) [lit "package foo", lit "", lit "package foo: bar"] none
        = ([], some (.parse { Message := lit "unexpected colon",
                              Coord := { Line := lit "package foo: bar", LineNum := 2,
                                         ColStart := 11, ColEnd := 12 } }))
      ∧ ∃ pre bad post,
          [lit "package foo", lit "", lit "package foo: bar"] = pre ++ bad :: post
          ∧ (∀ p ∈ pre.enum, Passes (ParseLine ((fun _ => id) p.1) (p.1 : Int) p.2))
          ∧ ParseLine ((fun _ => id) pre.length) (pre.length : Int) bad
              = .error (.parse { Message := lit "unexpected colon",
                                 Coord := { Line := lit "package foo: bar", LineNum := 2,
                                            ColStart := 11, ColEnd := 12 } })
          ∧ (2 : Int) = pre.length ∧ lit "package foo: bar" = bad
          ∧ decimalInt (fmtNat pre.length) = some (pre.length : Int)
          ∧ ∃ rest,
              ParseError.Error { Message := lit "unexpected colon",
                                 Coord := { Line := lit "package foo: bar", LineNum := 2,
                                            ColStart := 11, ColEnd := 12 } }
              = .ok (fmtNat pre.length ++ lit " | " ++ bad ++ lit "\n" ++ rest) :=
  ⟨by decide,
   c18_line_number (fun _ => id) [lit "package foo", lit "", lit "package foo: bar"] none []
    { Message := lit "unexpected colon",
      Coord := { Line := lit "package foo: bar", LineNum := 2,
                 ColStart := 11, ColEnd := 12 } } (by decide)⟩

/-! ## Lemmas: the lexer on a line that ends inside a quoted string -/

theorem push_total (coord : FileCoord) (st : LexState) (e : Int) (force : Bool)
    (h2 : e ≤ coord.Line.length)
    (h3 : force = true → 0 ≤ st.bStart ∧ st.bStart ≤ e) :
    ∃ st1, pushAccumulatedToken coord st e force = .ok st1 ∧ st1.quoted = st.quoted := by
  unfold pushAccumulatedToken
  by_cases hc : force = true ∨ (st.bStart ≥ 0 ∧ e - st.bStart > 0)
  · rw [if_pos hc]
    have hb : 0 ≤ st.bStart ∧ st.bStart ≤ e ∧ e ≤ coord.Line.length := by
      rcases hc with hc | hc
      · exact ⟨(h3 hc).1, (h3 hc).2, h2⟩
      · exact ⟨hc.1, by omega, h2⟩
    simp only [FileCoord.Text, if_pos hb]
    exact ⟨_, rfl, rfl⟩
  · rw [if_neg hc]
    exact ⟨st, rfl, rfl⟩

/-- The indices of a `range` loop lie in the string, in increasing order. -/
theorem runesAux_bounds (s : Str) :
    ∀ (i k : Nat), ∀ p ∈ runesAux s i k, i ≤ p.1 ∧ p.1 < i + s.length := by
  induction s with
  | nil => intro i k p hp; simp [runesAux] at hp
  | cons b s ih =>
    intro i k p hp
    cases k with
    | zero =>
      simp only [runesAux, List.mem_cons] at hp
      rcases hp with hp | hp
      · rw [hp]
        simp only [List.length_cons]
        omega
      · have := ih _ _ p hp
        simp only [List.length_cons]
        omega
    | succ k =>
      simp only [runesAux] at hp
      have := ih _ _ p hp
      simp only [List.length_cons]
      omega

theorem runesAux_pairwise (s : Str) :
    ∀ (i k : Nat), (runesAux s i k).Pairwise (fun a b => a.1 < b.1) := by
  induction s with
  | nil => intro i k; simp [runesAux]
  | cons b s ih =>
    intro i k
    cases k with
    | zero =>
      simp only [runesAux, List.pairwise_cons]
      refine ⟨?_, ih _ _⟩
      intro p hp
      have := runesAux_bounds s _ _ p hp
      omega
    | succ k =>
      simp only [runesAux]
      exact ih _ _

/-- A `"` that `range` yields at index 0 is the first byte of the string. -/
theorem runes_quote_zero (s : Str) (h : s.head? ≠ some 0x22) :
    ∀ p ∈ runes s, p.2 = 0x22 → p.1 ≠ 0 := by
  intro p hp h22 h0
  cases s with
  | nil => simp [runes, runesAux] at hp
  | cons b s =>
    simp only [runes, runesAux, List.mem_cons] at hp
    rcases hp with hp | hp
    · rw [hp] at h22
      simp only at h22
      by_cases hb : b < 0x80
      · have : (decodeRune (b :: s)).1 = b := by simp [decodeRune, hb]
        rw [this] at h22
        exact h (by rw [h22]; rfl)
      · have := decodeRune_fst_ge b s hb
        omega
    · have := runesAux_bounds s _ _ p hp
      omega

/-- The loop of `lexLine` returns on every `range` sequence that lies in the
line and is not opened by a `"` at index 0; when the scan of the sequence ends
in a quoted string opened at index `q`, the loop ends in quoting mode with the
pending token starting at `q + 1`, and `eolCol` is not set. -/
theorem lexLoop_scan (coord : FileCoord) (l : List (Nat × Nat)) :
    ∀ (st : LexState) (m : Mode),
      l.Pairwise (fun a b => a.1 < b.1) →
      (∀ p ∈ l, p.1 < coord.Line.length) →
      (∀ p ∈ l, p.2 = 0x22 → p.1 ≠ 0) →
      ((m = .plain ∧ st.quoted = false)
        ∨ ∃ q : Nat, m = .quoted q ∧ st.quoted = true ∧ st.bStart = (q : Int) + 1
            ∧ ∀ p ∈ l, q < p.1) →
      ∃ st1 e, lexLoop coord l st = .ok (st1, e)
        ∧ ∀ q : Nat, runeScan l m = .quoted q →
            st1.quoted = true ∧ st1.bStart = (q : Int) + 1 ∧ e = -1 := by
  induction l with
  | nil =>
    intro st m _ _ _ hm
    refine ⟨st, -1, rfl, ?_⟩
    intro q hq
    simp only [runeScan] at hq
    rcases hm with ⟨hm, _⟩ | ⟨q1, hm, h1, h2, _⟩
    · rw [hm] at hq; cases hq
    · rw [hm] at hq
      cases hq
      exact ⟨h1, h2, rfl⟩
  | cons p l ih =>
    obtain ⟨i, r⟩ := p
    intro st m hpw hlt hz hm
    have hpw1 := (List.pairwise_cons.1 hpw).2
    have hgt : ∀ p ∈ l, i < p.1 := (List.pairwise_cons.1 hpw).1
    have hlt1 : ∀ p ∈ l, p.1 < coord.Line.length :=
      fun p hp => hlt p (List.mem_cons_of_mem _ hp)
    have hz1 : ∀ p ∈ l, p.2 = 0x22 → p.1 ≠ 0 :=
      fun p hp => hz p (List.mem_cons_of_mem _ hp)
    have hi : i < coord.Line.length := hlt (i, r) (List.mem_cons_self _ _)
    rw [lexLoop]
    simp only [runeScan]
    rcases hm with ⟨hm, hq⟩ | ⟨q, hm, hq, hb, hq1⟩
    · subst hm
      have hqf : ¬ st.quoted = true := by rw [hq]; simp
      rw [if_neg hqf]
      by_cases h22 : r = 0x22
      · have hi0 : i ≠ 0 := hz (i, r) (List.mem_cons_self _ _) h22
        rw [if_pos h22, if_neg hi0]
        obtain ⟨s1, hp1, _⟩ := push_total coord st i false (by omega) (by simp)
        rw [hp1]
        have hs : Mode.step .plain i r = .quoted i := by simp [Mode.step, h22]
        rw [hs]
        exact ih _ _ hpw1 hlt1 hz1 (Or.inr ⟨i, rfl, rfl, rfl, hgt⟩)
      · rw [if_neg h22]
        by_cases h23 : r = 0x23
        · rw [if_pos h23]
          obtain ⟨s1, hp1, _⟩ := push_total coord st i false (by omega) (by simp)
          rw [hp1]
          refine ⟨s1, i, rfl, ?_⟩
          intro q hq2
          have hs : Mode.step .plain i r = .comment := by simp [Mode.step, h23]
          rw [hs, runeScan_comment] at hq2
          cases hq2
        · rw [if_neg h23]
          have hs : Mode.step .plain i r = .plain := Mode.step_other _ _ _ h22 h23
          rw [hs]
          by_cases h3a : r = 0x3A
          · rw [if_pos h3a]
            obtain ⟨s1, hp1, hq1⟩ := push_total coord st i false (by omega) (by simp)
            obtain ⟨s2, hp2, hq2⟩ := push_total coord { s1 with bStart := i } (i + 1) false
              (by omega) (by simp)
            rw [hp1]
            simp only [bind, Except.bind]
            rw [hp2]
            exact ih _ _ hpw1 hlt1 hz1 (Or.inl ⟨rfl, by rw [hq2]; simp only; rw [hq1, hq]⟩)
          · rw [if_neg h3a]
            by_cases h2c : r = 0x2C
            · rw [if_pos h2c]
              obtain ⟨s1, hp1, hq1⟩ := push_total coord st i false (by omega) (by simp)
              obtain ⟨s2, hp2, hq2⟩ := push_total coord { s1 with bStart := i } (i + 1) false
                (by omega) (by simp)
              rw [hp1]
              simp only [bind, Except.bind]
              rw [hp2]
              exact ih _ _ hpw1 hlt1 hz1 (Or.inl ⟨rfl, by rw [hq2]; simp only; rw [hq1, hq]⟩)
            · rw [if_neg h2c]
              by_cases hsp : IsSpace r = true
              · rw [if_pos hsp]
                obtain ⟨s1, hp1, hq1⟩ := push_total coord st i false (by omega) (by simp)
                rw [hp1]
                exact ih _ _ hpw1 hlt1 hz1 (Or.inl ⟨rfl, by rw [hq1, hq]⟩)
              · rw [if_neg hsp]
                refine ih _ _ hpw1 hlt1 hz1 (Or.inl ⟨rfl, ?_⟩)
                by_cases hb : st.bStart < 0
                · rw [if_pos hb]; exact hq
                · rw [if_neg hb]; exact hq
    · subst hm
      rw [if_pos hq]
      have hqi : q < i := hq1 (i, r) (List.mem_cons_self _ _)
      by_cases h22 : r = 0x22
      · rw [if_pos h22]
        obtain ⟨s1, hp1, _⟩ := push_total coord st i true (by omega)
          (fun _ => by rw [hb]; omega)
        rw [hp1]
        have hs : Mode.step (.quoted q) i r = .plain := by simp [Mode.step, h22]
        rw [hs]
        exact ih _ _ hpw1 hlt1 hz1 (Or.inl ⟨rfl, rfl⟩)
      · rw [if_neg h22]
        have hs : Mode.step (.quoted q) i r = .quoted q := by simp [Mode.step, h22]
        rw [hs]
        exact ih _ _ hpw1 hlt1 hz1
          (Or.inr ⟨q, rfl, hq, hb, fun p hp => hq1 p (List.mem_cons_of_mem _ hp)⟩)

/-- A line that does not start with `"` and ends inside a quoted string
opened at index `q` fails with "unclosed quotes" over the columns from
`q + 1` to the end of the line. -/
theorem lexLine_unclosed (coord : FileCoord) (q : Nat)
    (h0 : coord.Line.head? ≠ some 0x22) (hq : modeAfter coord.Line = .quoted q) :
    lexLine coord = .error (.parse
      { Message := lit "unclosed quotes",
        Coord := { Line := coord.Line, LineNum := coord.LineNum,
                   ColStart := (q : Int) + 1, ColEnd := coord.Line.length } }) := by
  have hb : ∀ p ∈ runes coord.Line, p.1 < coord.Line.length := by
    intro p hp
    have := runesAux_bounds coord.Line 0 0 p hp
    omega
  obtain ⟨st1, e, hl, hres⟩ := lexLoop_scan coord (runes coord.Line)
    { toks := [], bStart := -1, quoted := false } .plain
    (runesAux_pairwise _ _ _) hb (runes_quote_zero _ h0) (Or.inl ⟨rfl, rfl⟩)
  obtain ⟨h1, h2, h3⟩ := hres q (by rw [runeScan_runes]; exact hq)
  unfold lexLine
  rw [hl]
  simp only [bind, Except.bind, h1, if_true, h2, h3]
  rfl

/-- C11: a line that does not start with `"` and has an opening `"` at byte
index `q = len(p)`, outside any comment and any quoted string (the scan of the
text `p` before it ends in plain mode), with no `"` after it, ends in quoting
mode; `q > 0`, and `lexLine` fails with the `ParseError` "unclosed quotes"
whose span has `ColStart = q + 1` and `ColEnd = len(line)`, whether or not a
`#` follows the opening quote. -/
theorem c11_unclosed_quotes (line p rest : Str) (n cs ce : Int)
    (hl : line = p ++ 0x22 :: rest) (h0 : line.head? ≠ some 0x22)
    (hp : modeAfter p = .plain) (hr : 0x22 ∉ rest) :
    modeAfter line = .quoted p.length
      ∧ 0 < p.length
      ∧ lexLine { Line := line, LineNum := n, ColStart := cs, ColEnd := ce }
          = .error (.parse
              { Message := lit "unclosed quotes",
                Coord := { Line := line, LineNum := n,
                           ColStart := (p.length : Int) + 1,
                           ColEnd := line.length } }) := by
  have hm : modeAfter line = .quoted p.length := by
    unfold modeAfter at hp ⊢
    rw [hl, scanFrom_append, hp, scanFrom_cons]
    have : Mode.step .plain (0 + p.length) 0x22 = .quoted p.length := by
      simp [Mode.step]
    rw [this]
    exact scanFrom_quoted rest hr _ _
  refine ⟨hm, ?_, ?_⟩
  · cases p with
    | nil =>
      rw [hl] at h0
      exact absurd rfl h0
    | cons b p => simp
  · exact lexLine_unclosed { Line := line, LineNum := n, ColStart := cs, ColEnd := ce }
      p.length h0 hm

/-- C11, at the line `ppa "," "ab # c`: the second quoted string is not
closed and holds a `#`; the span runs from column 9 to column 15, the end of
the line. -/
theorem c11_unclosed_quotes_witness :
    lit "ppa \",\" \"ab # c" = lit "ppa \",\" " ++ 0x22 :: lit "ab # c"
      ∧ modeAfter (lit "ppa \",\" \"ab # c") = .quoted 8
      ∧ lexLine { Line := lit "ppa \",\" \"ab # c", LineNum := 3, ColStart := 0, ColEnd := 0 }
          = .error (.parse
              { Message := lit "unclosed quotes",
                Coord := { Line := lit "ppa \",\" \"ab # c", LineNum := 3,
                           ColStart := 9, ColEnd := 15 } }) :=
  have h := c11_unclosed_quotes (lit "ppa \",\" \"ab # c") (lit "ppa \",\" ") (lit "ab # c")
    3 0 0 (by decide) (by decide) (by decide) (by decide)
  ⟨by decide, h.1, h.2.2⟩

/-! ## Lemmas: the order of the tokens -/

theorem push_ordered (coord : FileCoord) (st st1 : LexState) (e : Int) (force : Bool)
    (h : pushAccumulatedToken coord st e force = .ok st1)
    (ho : Ordered st.toks)
    (hb : 0 ≤ st.bStart → ∀ t ∈ st.toks, t.Coord.ColEnd ≤ st.bStart) :
    Ordered st1.toks := by
  rcases push_cases_from coord st st1 e force h with h1 | ⟨t, h1, hc, hf⟩
  · rw [h1]; exact ho
  · rw [h1]
    have h0 : 0 ≤ st.bStart := by
      have := hf.2.2.1.1
      rw [hc] at this
      exact this
    unfold Ordered
    simp only
    rw [List.pairwise_append]
    refine ⟨ho, List.pairwise_singleton _ _, ?_⟩
    intro a ha b hb1
    rw [List.mem_singleton] at hb1
    rw [hb1, hc]
    exact hb h0 a ha

theorem push_inv_sorted (coord : FileCoord) (st st1 : LexState) (e lo lo1 : Int)
    (force : Bool) (h : pushAccumulatedToken coord st e force = .ok st1)
    (hinv : st.Inv lo) (hlo : lo ≤ lo1) (he : e ≤ lo1) : st1.Inv lo1 := by
  obtain ⟨ho, hends, hb⟩ := hinv
  have hord := push_ordered coord st st1 e force h ho hb
  rcases push_cases_from coord st st1 e force h with h1 | ⟨t, h1, hc, _⟩
  · rw [h1]
    exact ⟨ho, fun t ht => le_trans (hends t ht) hlo, hb⟩
  · refine ⟨hord, ?_, ?_⟩
    · rw [h1]
      intro u hu
      simp only [List.mem_append, List.mem_singleton] at hu
      rcases hu with hu | hu
      · exact le_trans (hends u hu) hlo
      · rw [hu, hc]; exact he
    · rw [h1]
      intro hneg
      simp at hneg

theorem inv_mono (st : LexState) (lo lo1 : Int) (h : st.Inv lo) (hlo : lo ≤ lo1) :
    st.Inv lo1 :=
  ⟨h.1, fun t ht => le_trans (h.2.1 t ht) hlo, h.2.2⟩

theorem inv_start (st : LexState) (lo : Int) (b : Int) (q : Bool) (h : st.Inv lo)
    (hb : lo ≤ b) : LexState.Inv { st with bStart := b, quoted := q } lo :=
  ⟨h.1, h.2.1, fun _ t ht => le_trans (h.2.1 t ht) hb⟩

/-- The loop of `lexLine` keeps the tokens ordered. -/
theorem lexLoop_sorted (coord : FileCoord) (l : List (Nat × Nat)) :
    ∀ (st st1 : LexState) (e lo : Int), lexLoop coord l st = .ok (st1, e) →
      l.Pairwise (fun a b => a.1 < b.1) → (∀ p ∈ l, lo ≤ (p.1 : Int)) → st.Inv lo →
      Ordered st1.toks ∧ (0 ≤ st1.bStart → ∀ t ∈ st1.toks, t.Coord.ColEnd ≤ st1.bStart) := by
  induction l with
  | nil =>
    intro st st1 e lo h _ _ hinv
    simp only [lexLoop, pure, Except.pure, Except.ok.injEq, Prod.mk.injEq] at h
    rw [← h.1]
    exact ⟨hinv.1, hinv.2.2⟩
  | cons p l ih =>
    obtain ⟨i, r⟩ := p
    intro st st1 e lo h hpw hlo hinv
    have hpw1 := (List.pairwise_cons.1 hpw).2
    have hgt : ∀ p ∈ l, ((i : Int) + 1) ≤ (p.1 : Int) := by
      intro p hp
      have := (List.pairwise_cons.1 hpw).1 p hp
      simp only at this
      omega
    have hi : lo ≤ (i : Int) := hlo (i, r) (List.mem_cons_self _ _)
    rw [lexLoop] at h
    by_cases hq : st.quoted = true
    · rw [if_pos hq] at h
      by_cases hr : r = 0x22
      · rw [if_pos hr] at h
        obtain ⟨s1, hp, h⟩ := bind_eq_ok _ _ _ h
        have h1 := push_inv_sorted coord st s1 i lo (i + 1) true hp hinv (by omega) (by omega)
        exact ih _ _ _ _ h hpw1 hgt ⟨h1.1, h1.2.1, h1.2.2⟩
      · rw [if_neg hr] at h
        exact ih _ _ _ _ h hpw1 hgt (inv_mono st lo _ hinv (by omega))
    · rw [if_neg hq] at h
      by_cases h22 : r = 0x22
      · rw [if_pos h22] at h
        by_cases hi0 : i = 0
        · rw [if_pos hi0] at h
          cases h
        · rw [if_neg hi0] at h
          obtain ⟨s1, hp, h⟩ := bind_eq_ok _ _ _ h
          have h1 := push_inv_sorted coord st s1 i lo (i + 1) false hp hinv (by omega) (by omega)
          exact ih _ _ _ _ h hpw1 hgt (inv_start s1 _ _ _ h1 (le_refl _))
      · rw [if_neg h22] at h
        by_cases h23 : r = 0x23
        · rw [if_pos h23] at h
          obtain ⟨s1, hp, h⟩ := bind_eq_ok _ _ _ h
          simp only [pure, Except.pure, Except.ok.injEq, Prod.mk.injEq] at h
          have h1 := push_inv_sorted coord st s1 i lo (i + 1) false hp hinv (by omega) (by omega)
          rw [← h.1]
          exact ⟨h1.1, h1.2.2⟩
        · rw [if_neg h23] at h
          by_cases h3a : r = 0x3A
          · rw [if_pos h3a] at h
            obtain ⟨s1, hp, h⟩ := bind_eq_ok _ _ _ h
            obtain ⟨s2, hp2, h⟩ := bind_eq_ok _ _ _ h
            have h1 := push_inv_sorted coord st s1 i lo i false hp hinv hi (le_refl _)
            have h2 := push_inv_sorted coord _ s2 (i + 1) i (i + 1) false hp2
              ⟨h1.1, h1.2.1, fun _ => h1.2.1⟩ (by omega) (le_refl _)
            exact ih _ _ _ _ h hpw1 hgt h2
          · rw [if_neg h3a] at h
            by_cases h2c : r = 0x2C
            · rw [if_pos h2c] at h
              obtain ⟨s1, hp, h⟩ := bind_eq_ok _ _ _ h
              obtain ⟨s2, hp2, h⟩ := bind_eq_ok _ _ _ h
              have h1 := push_inv_sorted coord st s1 i lo i false hp hinv hi (le_refl _)
              have h2 := push_inv_sorted coord _ s2 (i + 1) i (i + 1) false hp2
                ⟨h1.1, h1.2.1, fun _ => h1.2.1⟩ (by omega) (le_refl _)
              exact ih _ _ _ _ h hpw1 hgt h2
            · rw [if_neg h2c] at h
              by_cases hsp : IsSpace r = true
              · rw [if_pos hsp] at h
                obtain ⟨s1, hp, h⟩ := bind_eq_ok _ _ _ h
                have h1 := push_inv_sorted coord st s1 i lo (i + 1) false hp hinv
                  (by omega) (by omega)
                exact ih _ _ _ _ h hpw1 hgt h1
              · rw [if_neg hsp] at h
                refine ih _ _ _ _ h hpw1 hgt ?_
                by_cases hb : st.bStart < 0
                · rw [if_pos hb]
                  exact ⟨hinv.1, fun t ht => le_trans (hinv.2.1 t ht) (by omega),
                    fun _ t ht => le_trans (hinv.2.1 t ht) hi⟩
                · rw [if_neg hb]
                  exact inv_mono st lo _ hinv (by omega)

/-- The tokens that `lexLine` returns are in source order and do not
overlap. -/
theorem lexLine_ordered (coord : FileCoord) (toks : List Token)
    (h : lexLine coord = .ok toks) : Ordered toks := by
  unfold lexLine at h
  obtain ⟨res, hl, h⟩ := bind_eq_ok _ _ _ h
  obtain ⟨st, e0⟩ := res
  simp only at h
  by_cases hq : st.quoted = true
  · rw [if_pos hq] at h
    cases h
  · rw [if_neg hq] at h
    obtain ⟨s1, hp, h⟩ := bind_eq_ok _ _ _ h
    simp only [pure, Except.pure, Except.ok.injEq] at h
    have hs := lexLoop_sorted coord (runes coord.Line) _ st e0 0 hl
      (runesAux_pairwise _ _ _) (fun p _ => by omega)
      ⟨List.Pairwise.nil, fun t ht => by simp at ht, fun _ t ht => by simp at ht⟩
    rw [← h]
    exact push_ordered coord st s1 _ false hp hs.1 hs.2

/-! ## Lemmas: the coordinates of the errors lie on the line -/

/-- At the exit of the loop in quoting mode the pending token starts on the
line and `eolCol` is not set. -/
theorem lexLoop_quoted_end (coord : FileCoord) (l : List (Nat × Nat)) :
    ∀ (st st1 : LexState) (e : Int), lexLoop coord l st = .ok (st1, e) →
      (∀ p ∈ l, p.1 < coord.Line.length) →
      (st.quoted = true → 0 ≤ st.bStart ∧ st.bStart ≤ coord.Line.length) →
      st1.quoted = true →
      0 ≤ st1.bStart ∧ st1.bStart ≤ coord.Line.length ∧ e = -1 := by
  induction l with
  | nil =>
    intro st st1 e h _ hinv hq
    simp only [lexLoop, pure, Except.pure, Except.ok.injEq, Prod.mk.injEq] at h
    rw [← h.1] at hq ⊢
    exact ⟨(hinv hq).1, (hinv hq).2, h.2.symm⟩
  | cons p l ih =>
    obtain ⟨i, r⟩ := p
    intro st st1 e h hlt hinv
    have hlt1 : ∀ p ∈ l, p.1 < coord.Line.length :=
      fun p hp => hlt p (List.mem_cons_of_mem _ hp)
    have hi : i < coord.Line.length := hlt (i, r) (List.mem_cons_self _ _)
    rw [lexLoop] at h
    by_cases hq : st.quoted = true
    · rw [if_pos hq] at h
      by_cases hr : r = 0x22
      · rw [if_pos hr] at h
        obtain ⟨s1, hp, h⟩ := bind_eq_ok _ _ _ h
        exact ih _ _ _ h hlt1 (fun hc => by simp at hc)
      · rw [if_neg hr] at h
        exact ih _ _ _ h hlt1 hinv
    · have hq1 : ∀ s1 : LexState, s1.quoted = st.quoted → ¬ s1.quoted = true :=
        fun s1 h1 => by rw [h1]; exact hq
      rw [if_neg hq] at h
      by_cases h22 : r = 0x22
      · rw [if_pos h22] at h
        by_cases hi0 : i = 0
        · rw [if_pos hi0] at h
          cases h
        · rw [if_neg hi0] at h
          obtain ⟨s1, hp, h⟩ := bind_eq_ok _ _ _ h
          exact ih _ _ _ h hlt1 (fun _ => by simp only; omega)
      · rw [if_neg h22] at h
        by_cases h23 : r = 0x23
        · rw [if_pos h23] at h
          obtain ⟨s1, hp, h⟩ := bind_eq_ok _ _ _ h
          simp only [pure, Except.pure, Except.ok.injEq, Prod.mk.injEq] at h
          rw [← h.1]
          exact fun hc => absurd hc (hq1 s1 (push_quoted _ _ _ _ _ hp))
        · rw [if_neg h23] at h
          by_cases h3a : r = 0x3A
          · rw [if_pos h3a] at h
            obtain ⟨s1, hp, h⟩ := bind_eq_ok _ _ _ h
            obtain ⟨s2, hp2, h⟩ := bind_eq_ok _ _ _ h
            refine ih _ _ _ h hlt1 (fun hc => absurd hc (hq1 s2 ?_))
            rw [push_quoted _ _ _ _ _ hp2]
            show s1.quoted = st.quoted
            exact push_quoted _ _ _ _ _ hp
          · rw [if_neg h3a] at h
            by_cases h2c : r = 0x2C
            · rw [if_pos h2c] at h
              obtain ⟨s1, hp, h⟩ := bind_eq_ok _ _ _ h
              obtain ⟨s2, hp2, h⟩ := bind_eq_ok _ _ _ h
              refine ih _ _ _ h hlt1 (fun hc => absurd hc (hq1 s2 ?_))
              rw [push_quoted _ _ _ _ _ hp2]
              show s1.quoted = st.quoted
              exact push_quoted _ _ _ _ _ hp
            · rw [if_neg h2c] at h
              by_cases hsp : IsSpace r = true
              · rw [if_pos hsp] at h
                obtain ⟨s1, hp, h⟩ := bind_eq_ok _ _ _ h
                exact ih _ _ _ h hlt1
                  (fun hc => absurd hc (hq1 s1 (push_quoted _ _ _ _ _ hp)))
              · rw [if_neg hsp] at h
                refine ih _ _ _ h hlt1 (fun hc => absurd hc (hq1 _ ?_))
                by_cases hb : st.bStart < 0
                · rw [if_pos hb]
                · rw [if_neg hb]

theorem runes_bound (s : Str) : ∀ p ∈ runes s, p.1 < s.length := by
  intro p hp
  have := runesAux_bounds s 0 0 p hp
  omega

/-- The coordinate of a `ParseError` of `lexLine` lies on the line. -/
theorem lexLine_error_within (coord : FileCoord) (pe : ParseError)
    (h : lexLine coord = .error (.parse pe)) :
    pe.Coord.Within coord.Line coord.LineNum := by
  unfold lexLine at h
  rcases bind_eq_error _ _ _ h with h1 | ⟨res, hl, h1⟩
  · have := lexLoop_error coord _ _ _ h1
    simp only [quotedCommandError, Error.parse.injEq] at this
    have hne : coord.Line ≠ [] := by
      intro hnil
      rw [hnil] at h1
      cases h1
    have hlen : 1 ≤ coord.Line.length := by
      cases hc : coord.Line with
      | nil => exact absurd hc hne
      | cons b s => simp
    rw [this]
    exact ⟨rfl, rfl, le_refl _, by simp, by simp only; omega⟩
  · obtain ⟨st, e0⟩ := res
    simp only at h1
    by_cases hq : st.quoted = true
    · rw [if_pos hq] at h1
      simp only [throw, throwThe, MonadExceptOf.throw, Except.error.injEq,
        Error.parse.injEq] at h1
      obtain ⟨a, b, c⟩ := lexLoop_quoted_end coord _ _ _ _ hl (runes_bound _) (by simp) hq
      rw [← h1]
      refine ⟨rfl, rfl, a, ?_, ?_⟩
      · simp only [c]
        simpa using b
      · simp only [c]
        simp
    · rw [if_neg hq] at h1
      rcases bind_eq_error _ _ _ h1 with h2 | ⟨a, _, h2⟩
      · exact absurd h2 (push_ne_parse _ _ _ _ pe)
      · cases h2

theorem ordered_span (toks : List Token) (ho : Ordered toks)
    (hb : ∀ t ∈ toks, t.InBounds) (i j : Nat) (ti tj : Token) (hij : i ≤ j)
    (hi : toks[i]? = some ti) (hj : toks[j]? = some tj) :
    ti.Coord.ColStart ≤ tj.Coord.ColEnd := by
  obtain ⟨hi1, hi2⟩ := List.getElem?_eq_some.1 hi
  obtain ⟨hj1, hj2⟩ := List.getElem?_eq_some.1 hj
  rcases Nat.lt_or_eq_of_le hij with hlt | heq
  · have h1 := (List.pairwise_iff_getElem.1 ho) i j hi1 hj1 hlt
    rw [hi2, hj2] at h1
    have h2 := (hb ti (mem_of_getElem_some _ _ _ hi)).2.1
    have h3 := (hb tj (mem_of_getElem_some _ _ _ hj)).2.1
    omega
  · subst heq
    rw [hi] at hj
    cases hj
    exact (hb ti (mem_of_getElem_some _ _ _ hi)).2.1

/-- The coordinate of a `ParseError` of `ParseLine` lies on the line. -/
theorem ParseLine_error_within (ρ : RangeOrder) (lineNum : Int) (line : Str)
    (e : ParseError) (h : ParseLine ρ lineNum line = .error (.parse e)) :
    e.Coord.Within line lineNum := by
  unfold ParseLine at h
  rcases bind_eq_error _ _ _ h with h1 | ⟨toks, hl, h1⟩
  · exact lexLine_error_within _ e h1
  · have hf := lexLine_from _ toks hl
    have ho := lexLine_ordered _ toks hl
    rcases parseTokens_error ρ lineNum line toks e h1 with
      ⟨t, ht, hc⟩ | ⟨i, j, ti, tj, hij, hi, hj, hc⟩
    · obtain ⟨a, b, c, _⟩ := hf t ht
      rw [hc]
      refine ⟨a, b, c.1, c.2.1, ?_⟩
      have := c.2.2
      rw [a] at this
      exact this
    · obtain ⟨_, _, ci, _⟩ := hf ti (mem_of_getElem_some _ _ _ hi)
      obtain ⟨aj, _, cj, _⟩ := hf tj (mem_of_getElem_some _ _ _ hj)
      rw [hc]
      refine ⟨rfl, rfl, ci.1, ?_, ?_⟩
      · exact ordered_span toks ho (fun t ht => (hf t ht).2.2.1) i j ti tj hij hi hj
      · have := cj.2.2
        rw [aj] at this
        exact this

/-! ## Claim on the coordinates and the order of the tokens -/

/-- C23: every token that a successful `lexLine` returns has
`0 ≤ ColStart ≤ ColEnd ≤ len(Line)` with the `Line` and `LineNum` of the
input, the tokens are in source order and do not overlap (the `ColEnd` of
each is at most the `ColStart` of the next, and of every later one), and the
coordinate of every `ParseError` that `lexLine` or `ParseLine` returns lies on
the line in the same way. -/
theorem c23_coordinates (coord : FileCoord) (ρ : RangeOrder) :
    (∀ toks, lexLine coord = .ok toks →
        (∀ t ∈ toks, t.Coord.Within coord.Line coord.LineNum)
          ∧ toks.Chain' (fun a b => a.Coord.ColEnd ≤ b.Coord.ColStart)
          ∧ Ordered toks)
      ∧ (∀ pe, lexLine coord = .error (.parse pe) →
          pe.Coord.Within coord.Line coord.LineNum)
      ∧ (∀ pe, ParseLine ρ coord.LineNum coord.Line = .error (.parse pe) →
          pe.Coord.Within coord.Line coord.LineNum) := by
  refine ⟨?_, lexLine_error_within coord, ParseLine_error_within ρ _ _⟩
  intro toks h
  have ho := lexLine_ordered coord toks h
  refine ⟨?_, List.Pairwise.chain' ho, ho⟩
  intro t ht
  obtain ⟨a, b, c, _⟩ := lexLine_from coord toks h t ht
  refine ⟨a, b, c.1, c.2.1, ?_⟩
  have := c.2.2
  rw [a] at this
  exact this

/-- C23, at the line `package a, b c d e` of number 7: its seven tokens, and
the span of the error "expected key-value pair". -/
theorem c23_coordinates_witness :
    Ordered
        [⟨StringToken, ⟨lit "package a, b c d e", 7, 0, 7⟩⟩,
         ⟨StringToken, ⟨lit "package a, b c d e", 7, 8, 9⟩⟩,
         ⟨CommaToken, ⟨lit "package a, b c d e", 7, 9, 10⟩⟩,
         ⟨StringToken, ⟨lit "package a, b c d e", 7, 11, 12⟩⟩,
         ⟨StringToken, ⟨lit "package a, b c d e", 7, 13, 14⟩⟩,
         ⟨StringToken, ⟨lit "package a, b c d e", 7, 15, 16⟩⟩,
         ⟨StringToken, ⟨lit "package a, b c d e", 7, 17, 18⟩⟩]
      ∧ FileCoord.Within ⟨lit "package a, b c d e", 7, 9, 16⟩ (lit "package a, b c d e") 7 :=
  have h := c23_coordinates ⟨lit "package a, b c d e", 7, 0, 0⟩ id
  ⟨(h.1 _ (by decide)).2.2,
   h.2.2 ⟨lit "expected key-value pair", ⟨lit "package a, b c d e", 7, 9, 16⟩⟩ (by decide)⟩

/-! ## Lemmas: the lexer on a line that is extended -/

theorem text_extend (line ext : Str) (n1 n2 a e : Int)
    (h : 0 ≤ a ∧ a ≤ e ∧ e ≤ line.length) :
    FileCoord.Text { Line := line ++ ext, LineNum := n2, ColStart := a, ColEnd := e }
      = FileCoord.Text { Line := line, LineNum := n1, ColStart := a, ColEnd := e } := by
  have h2 : 0 ≤ a ∧ a ≤ e ∧ e ≤ ((line ++ ext).length : Int) := by
    refine ⟨h.1, h.2.1, ?_⟩
    rw [List.length_append]
    push_cast
    omega
  simp only [FileCoord.Text, if_pos h, if_pos h2]
  have ha : a.toNat ≤ line.length := by omega
  rw [List.drop_append_of_le_length ha, List.take_append_of_le_length]
  rw [List.length_drop]
  omega

/-- A push that succeeds on a line succeeds on every extension of the line
and gives the same tokens there. -/
theorem push_onLine (coord1 coord2 : FileCoord) (ext : Str)
    (hline : coord2.Line = coord1.Line ++ ext) (hnum : coord2.LineNum = coord1.LineNum)
    (st st1 : LexState) (e : Int) (force : Bool)
    (h : pushAccumulatedToken coord1 st e force = .ok st1) :
    pushAccumulatedToken coord2 (st.onLine coord2.Line) e force
      = .ok (st1.onLine coord2.Line) := by
  unfold pushAccumulatedToken at h ⊢
  by_cases hc : force = true ∨ (st.bStart ≥ 0 ∧ e - st.bStart > 0)
  · rw [if_pos hc] at h
    have hc2 : force = true ∨ ((st.onLine coord2.Line).bStart ≥ 0
        ∧ e - (st.onLine coord2.Line).bStart > 0) := hc
    rw [if_pos hc2]
    by_cases hb : 0 ≤ st.bStart ∧ st.bStart ≤ e ∧ e ≤ coord1.Line.length
    · have hb2 : 0 ≤ st.bStart ∧ st.bStart ≤ e ∧ e ≤ (coord2.Line.length : Int) := by
        refine ⟨hb.1, hb.2.1, ?_⟩
        rw [hline, List.length_append]
        push_cast
        omega
      have htxt : (coord2.Line.drop st.bStart.toNat).take (e - st.bStart).toNat
          = (coord1.Line.drop st.bStart.toNat).take (e - st.bStart).toNat := by
        have ha : st.bStart.toNat ≤ coord1.Line.length := by omega
        rw [hline, List.drop_append_of_le_length ha, List.take_append_of_le_length]
        rw [List.length_drop]
        omega
      have hs : (st.onLine coord2.Line).bStart = st.bStart := rfl
      simp only [FileCoord.Text, if_pos hb, bind, Except.bind, pure, Except.pure,
        Except.ok.injEq] at h
      simp only [hs, FileCoord.Text, if_pos hb2, htxt, bind, Except.bind, pure, Except.pure,
        Except.ok.injEq]
      rw [← h]
      simp [LexState.onLine, Token.onLine, hnum]
    · simp only [FileCoord.Text, if_neg hb, bind, Except.bind] at h
      cases h
  · rw [if_neg hc] at h
    have hc2 : ¬ (force = true ∨ ((st.onLine coord2.Line).bStart ≥ 0
        ∧ e - (st.onLine coord2.Line).bStart > 0)) := hc
    rw [if_neg hc2]
    simp only [pure, Except.pure, Except.ok.injEq] at h ⊢
    rw [h]

/-- A run of the loop of `lexLine` that succeeds on a line succeeds on every
extension of the line, with the same tokens there. -/
theorem lexLoop_onLine (coord1 coord2 : FileCoord) (ext : Str)
    (hline : coord2.Line = coord1.Line ++ ext) (hnum : coord2.LineNum = coord1.LineNum)
    (l : List (Nat × Nat)) :
    ∀ (st st1 : LexState) (e : Int), lexLoop coord1 l st = .ok (st1, e) →
      lexLoop coord2 l (st.onLine coord2.Line) = .ok (st1.onLine coord2.Line, e) := by
  induction l with
  | nil =>
    intro st st1 e h
    simp only [lexLoop, pure, Except.pure, Except.ok.injEq, Prod.mk.injEq] at h ⊢
    rw [h.1, h.2]
    exact ⟨rfl, rfl⟩
  | cons p l ih =>
    obtain ⟨i, r⟩ := p
    intro st st1 e h
    have hqq : (st.onLine coord2.Line).quoted = st.quoted := rfl
    have hbb : (st.onLine coord2.Line).bStart = st.bStart := rfl
    rw [lexLoop] at h ⊢
    rw [hqq]
    by_cases hq : st.quoted = true
    · rw [if_pos hq] at h ⊢
      by_cases hr : r = 0x22
      · rw [if_pos hr] at h ⊢
        obtain ⟨s1, hp, h⟩ := bind_eq_ok _ _ _ h
        rw [push_onLine coord1 coord2 ext hline hnum st s1 _ _ hp]
        exact ih _ _ _ h
      · rw [if_neg hr] at h ⊢
        exact ih _ _ _ h
    · rw [if_neg hq] at h ⊢
      by_cases h22 : r = 0x22
      · rw [if_pos h22] at h ⊢
        by_cases hi0 : i = 0
        · rw [if_pos hi0] at h
          cases h
        · rw [if_neg hi0] at h ⊢
          obtain ⟨s1, hp, h⟩ := bind_eq_ok _ _ _ h
          rw [push_onLine coord1 coord2 ext hline hnum st s1 _ _ hp]
          exact ih _ _ _ h
      · rw [if_neg h22] at h ⊢
        by_cases h23 : r = 0x23
        · rw [if_pos h23] at h ⊢
          obtain ⟨s1, hp, h⟩ := bind_eq_ok _ _ _ h
          rw [push_onLine coord1 coord2 ext hline hnum st s1 _ _ hp]
          simp only [pure, Except.pure, Except.ok.injEq, Prod.mk.injEq] at h
          rw [← h.1, ← h.2]
          rfl
        · rw [if_neg h23] at h ⊢
          by_cases h3a : r = 0x3A
          · rw [if_pos h3a] at h ⊢
            obtain ⟨s1, hp, h⟩ := bind_eq_ok _ _ _ h
            obtain ⟨s2, hp2, h⟩ := bind_eq_ok _ _ _ h
            rw [push_onLine coord1 coord2 ext hline hnum st s1 _ _ hp]
            have := push_onLine coord1 coord2 ext hline hnum _ s2 _ _ hp2
            simp only [bind, Except.bind]
            rw [show ({ s1.onLine coord2.Line with bStart := (i : Int) } : LexState)
              = LexState.onLine { s1 with bStart := (i : Int) } coord2.Line from rfl, this]
            exact ih _ _ _ h
          · rw [if_neg h3a] at h ⊢
            by_cases h2c : r = 0x2C
            · rw [if_pos h2c] at h ⊢
              obtain ⟨s1, hp, h⟩ := bind_eq_ok _ _ _ h
              obtain ⟨s2, hp2, h⟩ := bind_eq_ok _ _ _ h
              rw [push_onLine coord1 coord2 ext hline hnum st s1 _ _ hp]
              have := push_onLine coord1 coord2 ext hline hnum _ s2 _ _ hp2
              simp only [bind, Except.bind]
              rw [show ({ s1.onLine coord2.Line with bStart := (i : Int) } : LexState)
                = LexState.onLine { s1 with bStart := (i : Int) } coord2.Line from rfl, this]
              exact ih _ _ _ h
            · rw [if_neg h2c] at h ⊢
              by_cases hsp : IsSpace r = true
              · rw [if_pos hsp] at h ⊢
                obtain ⟨s1, hp, h⟩ := bind_eq_ok _ _ _ h
                rw [push_onLine coord1 coord2 ext hline hnum st s1 _ _ hp]
                exact ih _ _ _ h
              · rw [if_neg hsp] at h ⊢
                rw [hbb]
                by_cases hb : st.bStart < 0
                · rw [if_pos hb] at h ⊢
                  exact ih _ _ _ h
                · rw [if_neg hb] at h ⊢
                  exact ih _ _ _ h

/-- The loop of `lexLine` over two sequences in a row: the second one is
read unless the first one ended at a `#`. -/
theorem lexLoop_append (coord : FileCoord) (l2 : List (Nat × Nat)) (l1 : List (Nat × Nat)) :
    ∀ (st s1 : LexState) (e : Int), lexLoop coord l1 st = .ok (s1, e) →
      lexLoop coord (l1 ++ l2) st
        = if e < 0 then lexLoop coord l2 s1 else .ok (s1, e) := by
  induction l1 with
  | nil =>
    intro st s1 e h
    simp only [lexLoop, pure, Except.pure, Except.ok.injEq, Prod.mk.injEq] at h
    rw [← h.1, ← h.2]
    rfl
  | cons p l ih =>
    obtain ⟨i, r⟩ := p
    intro st st1 e h
    rw [List.cons_append]
    rw [lexLoop] at h ⊢
    by_cases hq : st.quoted = true
    · rw [if_pos hq] at h ⊢
      by_cases hr : r = 0x22
      · rw [if_pos hr] at h ⊢
        obtain ⟨s1, hp, h⟩ := bind_eq_ok _ _ _ h
        rw [hp]
        exact ih _ _ _ h
      · rw [if_neg hr] at h ⊢
        exact ih _ _ _ h
    · rw [if_neg hq] at h ⊢
      by_cases h22 : r = 0x22
      · rw [if_pos h22] at h ⊢
        by_cases hi0 : i = 0
        · rw [if_pos hi0] at h
          cases h
        · rw [if_neg hi0] at h ⊢
          obtain ⟨s1, hp, h⟩ := bind_eq_ok _ _ _ h
          rw [hp]
          exact ih _ _ _ h
      · rw [if_neg h22] at h ⊢
        by_cases h23 : r = 0x23
        · rw [if_pos h23] at h ⊢
          obtain ⟨s1, hp, h⟩ := bind_eq_ok _ _ _ h
          rw [hp]
          simp only [pure, Except.pure, Except.ok.injEq, Prod.mk.injEq] at h
          rw [← h.1, ← h.2]
          have : ¬ ((i : Int) < 0) := by omega
          rw [if_neg this]
          rfl
        · rw [if_neg h23] at h ⊢
          by_cases h3a : r = 0x3A
          · rw [if_pos h3a] at h ⊢
            obtain ⟨s1, hp, h⟩ := bind_eq_ok _ _ _ h
            obtain ⟨s2, hp2, h⟩ := bind_eq_ok _ _ _ h
            rw [hp]
            simp only [bind, Except.bind]
            rw [hp2]
            exact ih _ _ _ h
          · rw [if_neg h3a] at h ⊢
            by_cases h2c : r = 0x2C
            · rw [if_pos h2c] at h ⊢
              obtain ⟨s1, hp, h⟩ := bind_eq_ok _ _ _ h
              obtain ⟨s2, hp2, h⟩ := bind_eq_ok _ _ _ h
              rw [hp]
              simp only [bind, Except.bind]
              rw [hp2]
              exact ih _ _ _ h
            · rw [if_neg h2c] at h ⊢
              by_cases hsp : IsSpace r = true
              · rw [if_pos hsp] at h ⊢
                obtain ⟨s1, hp, h⟩ := bind_eq_ok _ _ _ h
                rw [hp]
                exact ih _ _ _ h
              · rw [if_neg hsp] at h ⊢
                exact ih _ _ _ h

/-- A push without force that has succeeded changes nothing when it is
repeated at the same end. -/
theorem push_idem (coord : FileCoord) (st st1 : LexState) (e : Int)
    (h : pushAccumulatedToken coord st e false = .ok st1) :
    pushAccumulatedToken coord st1 e false = .ok st1 := by
  unfold pushAccumulatedToken at h
  by_cases hc : false = true ∨ (st.bStart ≥ 0 ∧ e - st.bStart > 0)
  · rw [if_pos hc] at h
    obtain ⟨text, _, h⟩ := bind_eq_ok _ _ _ h
    simp only [pure, Except.pure, Except.ok.injEq] at h
    apply push_noop
    rw [← h]
    simp
  · rw [if_neg hc] at h
    simp only [pure, Except.pure, Except.ok.injEq] at h
    rw [← h]
    unfold pushAccumulatedToken
    rw [if_neg hc]
    rfl

/-- The tokens of a line that `lexLine` accepts are the tokens of the line
followed by a comment. -/
theorem lexLine_comment_after (p rest : Str) (n cs ce : Int) (toks : List Token)
    (h : lexLine { Line := p, LineNum := n, ColStart := cs, ColEnd := ce } = .ok toks) :
    lexLine { Line := p ++ 0x23 :: rest, LineNum := n, ColStart := cs, ColEnd := ce }
      = .ok (toks.map fun t => t.onLine (p ++ 0x23 :: rest)) := by
  unfold lexLine at h ⊢
  obtain ⟨res, hl, h⟩ := bind_eq_ok _ _ _ h
  obtain ⟨st, e0⟩ := res
  simp only at h hl
  by_cases hq : st.quoted = true
  · rw [if_pos hq] at h
    cases h
  rw [if_neg hq] at h
  obtain ⟨s1, hp, h⟩ := bind_eq_ok _ _ _ h
  simp only [pure, Except.pure, Except.ok.injEq] at h
  have hl2 := lexLoop_onLine
    { Line := p, LineNum := n, ColStart := cs, ColEnd := ce }
    { Line := p ++ 0x23 :: rest, LineNum := n, ColStart := cs, ColEnd := ce }
    (0x23 :: rest) rfl rfl _ _ _ _ hl
  have hp2 := push_onLine
    { Line := p, LineNum := n, ColStart := cs, ColEnd := ce }
    { Line := p ++ 0x23 :: rest, LineNum := n, ColStart := cs, ColEnd := ce }
    (0x23 :: rest) rfl rfl _ _ _ _ hp
  simp only at hl2 hp2
  have hinit : LexState.onLine { toks := [], bStart := -1, quoted := false }
      (p ++ 0x23 :: rest) = { toks := [], bStart := -1, quoted := false } := rfl
  rw [hinit] at hl2
  have hqq : ¬ (st.onLine (p ++ 0x23 :: rest)).quoted = true := hq
  simp only
  rw [runes_append_ascii p 0x23 rest (by decide),
    lexLoop_append _ _ _ _ _ _ hl2]
  by_cases he : e0 < 0
  · -- no comment in `p`: the loop ends at the `#` that follows `p`
    rw [if_pos he] at hp hp2
    rw [if_pos he, lexLoop, if_neg hqq]
    have h22 : ¬ (0x23 : Nat) = 0x22 := by decide
    rw [if_neg h22, if_pos rfl, hp2]
    simp only [bind, Except.bind, pure, Except.pure]
    have hq1 : ¬ (s1.onLine (p ++ 0x23 :: rest)).quoted = true := by
      have := push_quoted _ _ _ _ _ hp
      show ¬ s1.quoted = true
      rw [this]
      exact hq
    have hneg : ¬ ((p.length : Int) < 0) := by omega
    rw [if_neg hneg, if_neg hq1, push_idem _ _ _ _ hp2]
    rw [← h]
    rfl
  · -- a comment in `p`: the loop has ended there
    rw [if_neg he] at hp hp2
    rw [if_neg he]
    simp only [bind, Except.bind, pure, Except.pure]
    rw [if_neg he, if_neg hqq, hp2]
    rw [← h]
    rfl

theorem onLine_text (line ext : Str) (t : Token) (h1 : t.Coord.Line = line)
    (h2 : t.InBounds) : (t.onLine (line ++ ext)).Text = t.Text := by
  unfold Token.InBounds at h2
  rw [h1] at h2
  have := text_extend line ext t.Coord.LineNum t.Coord.LineNum t.Coord.ColStart
    t.Coord.ColEnd h2
  unfold Token.Text Token.onLine
  simp only
  rw [this, ← h1]

/-! ## Claim on comments -/

/-- C24: a comment never contributes tokens.  For every text `p` on which
`lexLine` succeeds and every text `rest`, `lexLine` on `p + "#" + rest`
succeeds and yields the tokens of `p`, moved to the longer line: as many
tokens, each with the same kind, the same columns and the same text.  A `#`
inside a quoted string is part of the text of that String token. -/
theorem c24_comment (p rest : Str) (n cs ce : Int) (toks : List Token)
    (h : lexLine { Line := p, LineNum := n, ColStart := cs, ColEnd := ce } = .ok toks) :
    lexLine { Line := p ++ lit "#" ++ rest, LineNum := n, ColStart := cs, ColEnd := ce }
        = .ok (toks.map fun t => t.onLine (p ++ lit "#" ++ rest))
      ∧ (toks.map fun t => t.onLine (p ++ lit "#" ++ rest)).length = toks.length
      ∧ (∀ t ∈ toks,
          (t.onLine (p ++ lit "#" ++ rest)).Typ = t.Typ
            ∧ (t.onLine (p ++ lit "#" ++ rest)).Coord.ColStart = t.Coord.ColStart
            ∧ (t.onLine (p ++ lit "#" ++ rest)).Coord.ColEnd = t.Coord.ColEnd
            ∧ (t.onLine (p ++ lit "#" ++ rest)).Text = t.Text)
      ∧ (∀ c w1 w2 : Str, IsWord c → 0x22 ∉ w1 → 0x22 ∉ w2 →
          lexLine { Line := c ++ lit " \"" ++ (w1 ++ lit "#" ++ w2) ++ lit "\"",
                    LineNum := n, ColStart := cs, ColEnd := ce }
            = .ok (commandToks c (c ++ lit " \"" ++ (w1 ++ lit "#" ++ w2) ++ lit "\"") n ++
                [{ Typ := StringToken,
                   Coord := { Line := c ++ lit " \"" ++ (w1 ++ lit "#" ++ w2) ++ lit "\"",
                              LineNum := n,
                              ColStart := (c.length : Int) + 2,
                              ColEnd := (c.length : Int) + 2
                                + (w1 ++ lit "#" ++ w2).length } }])
          ∧ FileCoord.Text
              { Line := c ++ lit " \"" ++ (w1 ++ lit "#" ++ w2) ++ lit "\"", LineNum := n,
                ColStart := (c.length : Int) + 2,
                ColEnd := (c.length : Int) + 2 + (w1 ++ lit "#" ++ w2).length }
            = .ok (w1 ++ lit "#" ++ w2)) := by
  have hline : p ++ lit "#" ++ rest = p ++ 0x23 :: rest := by
    simp [lit]
  rw [hline]
  refine ⟨lexLine_comment_after p rest n cs ce toks h, List.length_map _ _, ?_, ?_⟩
  · intro t ht
    obtain ⟨a, _, c, _⟩ := lexLine_from _ toks h t ht
    exact ⟨rfl, rfl, rfl, onLine_text p (0x23 :: rest) t a c⟩
  · intro c w1 w2 hc h1 h2
    have hw : 0x22 ∉ w1 ++ lit "#" ++ w2 := by
      simp only [List.mem_append, not_or]
      exact ⟨⟨h1, by decide⟩, h2⟩
    have hl : c ++ lit " \"" ++ (w1 ++ lit "#" ++ w2) ++ lit "\""
        = c ++ 0x20 :: 0x22 :: ((w1 ++ lit "#" ++ w2) ++ [0x22]) := by
      simp [lit]
    have hk : tokenKind (w1 ++ lit "#" ++ w2) = StringToken := by
      have hm : (0x23 : Nat) ∈ w1 ++ lit "#" ++ w2 := by simp [lit]
      unfold tokenKind
      have n1 : w1 ++ lit "#" ++ w2 ≠ lit "," := by
        intro heq
        rw [heq] at hm
        revert hm
        decide
      have n2 : w1 ++ lit "#" ++ w2 ≠ lit ":" := by
        intro heq
        rw [heq] at hm
        revert hm
        decide
      rw [if_neg n1, if_neg n2]
    have := lexLine_quoted_any c (w1 ++ lit "#" ++ w2) n cs ce hc hw
    rw [hk] at this
    rw [hl]
    exact this

/-- C24, at the line `package a, b: c` followed by the comment `# "x`. -/
theorem c24_comment_witness :
    lexLine { Line := lit "package a, b: c" ++ lit "#" ++ lit " \"x", LineNum := 1,
              ColStart := 0, ColEnd := 0 }
      = .ok (([⟨StringToken, ⟨lit "package a, b: c", 1, 0, 7⟩⟩,
              ⟨StringToken, ⟨lit "package a, b: c", 1, 8, 9⟩⟩,
              ⟨CommaToken, ⟨lit "package a, b: c", 1, 9, 10⟩⟩,
              ⟨StringToken, ⟨lit "package a, b: c", 1, 11, 12⟩⟩,
              ⟨ColonToken, ⟨lit "package a, b: c", 1, 12, 13⟩⟩,
              ⟨StringToken, ⟨lit "package a, b: c", 1, 14, 15⟩⟩] : List Token).map
          fun t => t.onLine (lit "package a, b: c" ++ lit "#" ++ lit " \"x")) :=
  (c24_comment (lit "package a, b: c") (lit " \"x") 1 0 0 _ (by decide)).1

/-! ## Lemmas: `ParseLine` returns -/

theorem returns_ok {α : Type} (a : α) : Returns (Except.ok a : Except Error α) :=
  ⟨fun h => (by cases h), fun h => (by cases h)⟩

theorem returns_parse {α : Type} (e : ParseError) :
    Returns (Except.error (.parse e) : Except Error α) :=
  ⟨fun h => (by cases h), fun h => (by cases h)⟩

theorem returns_errorf {α : Type} (m : Str) :
    Returns (Except.error (.errorf m) : Except Error α) :=
  ⟨fun h => (by cases h), fun h => (by cases h)⟩

theorem returns_bind_ok {α β : Type} (x : Except Error α) (k : α → Except Error β) (a : α)
    (hx : x = .ok a) (hk : Returns (k a)) : Returns (x >>= k) := by
  rw [hx]
  exact hk

theorem returns_bind {α β : Type} (x : Except Error α) (k : α → Except Error β)
    (hx : Returns x) (hk : ∀ a, x = .ok a → Returns (k a)) : Returns (x >>= k) := by
  cases x with
  | error err =>
    constructor
    · intro h
      simp only [bind, Except.bind, Except.error.injEq] at h
      exact hx.1 (by rw [h])
    · intro h
      simp only [bind, Except.bind, Except.error.injEq] at h
      exact hx.2 (by rw [h])
  | ok a => exact hk a rfl

theorem returns_map {α β : Type} (x : Except Error α) (f : α → β) (hx : Returns x) :
    Returns (x.map f) := by
  cases x with
  | error err =>
    constructor
    · intro h
      simp only [Except.map, Except.error.injEq] at h
      exact hx.1 (by rw [h])
    · intro h
      simp only [Except.map, Except.error.injEq] at h
      exact hx.2 (by rw [h])
  | ok a => exact returns_ok _

theorem idx_ok_of_lt {α : Type} (l : List α) (i : Nat) (h : i < l.length) :
    ∃ a, idx l i = .ok a ∧ a ∈ l := by
  refine ⟨l[i], ?_, List.getElem_mem _⟩
  unfold idx
  rw [List.getElem?_eq_getElem h]

/-- The value of `eolCol` at the exit of the loop of `lexLine`: still `-1`,
or the index of a rune of the line. -/
theorem lexLoop_eol (coord : FileCoord) (l : List (Nat × Nat)) :
    ∀ (st st1 : LexState) (e : Int), lexLoop coord l st = .ok (st1, e) →
      e = -1 ∨ ∃ p ∈ l, e = (p.1 : Int) := by
  induction l with
  | nil =>
    intro st st1 e h
    simp only [lexLoop, pure, Except.pure, Except.ok.injEq, Prod.mk.injEq] at h
    exact Or.inl h.2.symm
  | cons p l ih =>
    obtain ⟨i, r⟩ := p
    intro st st1 e h
    have step : ∀ s, lexLoop coord l s = .ok (st1, e) →
        e = -1 ∨ ∃ p ∈ (i, r) :: l, e = (p.1 : Int) := by
      intro s hs
      rcases ih _ _ _ hs with h1 | ⟨p, hp, h1⟩
      · exact Or.inl h1
      · exact Or.inr ⟨p, List.mem_cons_of_mem _ hp, h1⟩
    rw [lexLoop] at h
    by_cases hq : st.quoted = true
    · rw [if_pos hq] at h
      by_cases hr : r = 0x22
      · rw [if_pos hr] at h
        obtain ⟨s1, hp, h⟩ := bind_eq_ok _ _ _ h
        exact step _ h
      · rw [if_neg hr] at h
        exact step _ h
    · rw [if_neg hq] at h
      by_cases h22 : r = 0x22
      · rw [if_pos h22] at h
        by_cases hi0 : i = 0
        · rw [if_pos hi0] at h
          cases h
        · rw [if_neg hi0] at h
          obtain ⟨s1, hp, h⟩ := bind_eq_ok _ _ _ h
          exact step _ h
      · rw [if_neg h22] at h
        by_cases h23 : r = 0x23
        · rw [if_pos h23] at h
          obtain ⟨s1, hp, h⟩ := bind_eq_ok _ _ _ h
          simp only [pure, Except.pure, Except.ok.injEq, Prod.mk.injEq] at h
          exact Or.inr ⟨(i, r), List.mem_cons_self _ _, h.2.symm⟩
        · rw [if_neg h23] at h
          by_cases h3a : r = 0x3A
          · rw [if_pos h3a] at h
            obtain ⟨s1, hp, h⟩ := bind_eq_ok _ _ _ h
            obtain ⟨s2, hp2, h⟩ := bind_eq_ok _ _ _ h
            exact step _ h
          · rw [if_neg h3a] at h
            by_cases h2c : r = 0x2C
            · rw [if_pos h2c] at h
              obtain ⟨s1, hp, h⟩ := bind_eq_ok _ _ _ h
              obtain ⟨s2, hp2, h⟩ := bind_eq_ok _ _ _ h
              exact step _ h
            · rw [if_neg h2c] at h
              by_cases hsp : IsSpace r = true
              · rw [if_pos hsp] at h
                obtain ⟨s1, hp, h⟩ := bind_eq_ok _ _ _ h
                exact step _ h
              · rw [if_neg hsp] at h
                exact step _ h

/-- The function `lexLine` returns on every line: the tokens, or a
`ParseError`. -/
theorem lexLine_total (coord : FileCoord) :
    (∃ toks, lexLine coord = .ok toks) ∨ ∃ pe, lexLine coord = .error (.parse pe) := by
  by_cases h0 : coord.Line.head? = some 0x22
  · right
    cases hl : coord.Line with
    | nil => rw [hl] at h0; cases h0
    | cons b s =>
      rw [hl] at h0
      simp only [List.head?_cons, Option.some.injEq] at h0
      have hr : runes coord.Line = (0, 0x22) :: runesAux s 1 0 := by
        rw [hl, h0]
        exact runesAux_ascii 0x22 s 0 (by decide)
      unfold lexLine
      rw [hr, lexLoop_quote_zero _ _ _ rfl]
      exact ⟨_, rfl⟩
  · obtain ⟨st1, e, hl, _⟩ := lexLoop_scan coord (runes coord.Line)
      { toks := [], bStart := -1, quoted := false } .plain
      (runesAux_pairwise _ _ _) (runes_bound _) (runes_quote_zero _ h0) (Or.inl ⟨rfl, rfl⟩)
    have he : (if e < 0 then (coord.Line.length : Int) else e) ≤ coord.Line.length := by
      rcases lexLoop_eol coord _ _ _ _ hl with h1 | ⟨p, hp, h1⟩
      · rw [h1]
        simp
      · have := runes_bound _ p hp
        rw [h1]
        split_ifs <;> omega
    unfold lexLine
    rw [hl]
    simp only [bind, Except.bind]
    by_cases hq : st1.quoted = true
    · right
      rw [if_pos hq]
      exact ⟨_, rfl⟩
    · left
      rw [if_neg hq]
      obtain ⟨s2, hp, _⟩ := push_total coord st1 _ false he (by simp)
      rw [hp]
      exact ⟨_, rfl⟩

/-- The loop of `ParseLine` returns when its tokens lie on their lines and
the bound on its iterations exceeds the tokens that remain, plus one while
the options have not begun. -/
theorem parseLoop_returns (line : Str) (lineNum : Int) (toks : List Token)
    (hb : ∀ t ∈ toks, t.InBounds) :
    ∀ (fuel curr : Nat) (optsPhase : Bool) (args : List Str) (opts : Opts),
      toks.length - curr + (if optsPhase = true then 0 else 1) < fuel →
      Returns (parseLoop line lineNum toks fuel curr optsPhase args opts) := by
  intro fuel
  induction fuel with
  | zero => intro curr optsPhase args opts h; omega
  | succ fuel ih =>
    intro curr optsPhase args opts hf
    rw [parseLoop]
    by_cases hc : curr < toks.length
    · rw [if_pos hc]
      by_cases ho : optsPhase = true
      · rw [if_pos ho]
        rw [if_pos ho] at hf
        by_cases h3 : curr + 3 ≥ toks.length
        · rw [if_pos h3]
          obtain ⟨tc, htc, _⟩ := idx_ok_of_lt toks curr hc
          obtain ⟨tl, htl, _⟩ := idx_ok_of_lt toks (toks.length - 1) (by omega)
          exact returns_bind_ok _ _ _ htc (returns_bind_ok _ _ _ htl (returns_parse _))
        · rw [if_neg h3]
          obtain ⟨t0, ht0, _⟩ := idx_ok_of_lt toks curr hc
          obtain ⟨t1, ht1, hm1⟩ := idx_ok_of_lt toks (curr + 1) (by omega)
          obtain ⟨t2, ht2, _⟩ := idx_ok_of_lt toks (curr + 2) (by omega)
          obtain ⟨t3, ht3, hm3⟩ := idx_ok_of_lt toks (curr + 3) (by omega)
          refine returns_bind_ok _ _ _ ht0 (returns_bind_ok _ _ _ ht1
            (returns_bind_ok _ _ _ ht2 (returns_bind_ok _ _ _ ht3 ?_)))
          by_cases hg : t0.Typ = CommaToken ∧ t1.Typ = StringToken
              ∧ t2.Typ = ColonToken ∧ t3.Typ = StringToken
          · rw [if_pos hg]
            refine returns_bind_ok _ _ _ (Token.Text_of_inBounds t1 (hb t1 hm1))
              (returns_bind_ok _ _ _ (Token.Text_of_inBounds t3 (hb t3 hm3)) ?_)
            exact ih _ _ _ _ (by rw [if_pos rfl]; omega)
          · rw [if_neg hg]
            obtain ⟨te, hte, _⟩ := idx_ok_of_lt toks (min (curr + 3) (toks.length - 1))
              (by omega)
            exact returns_bind_ok _ _ _ hte (returns_parse _)
      · rw [if_neg ho]
        rw [if_neg ho] at hf
        obtain ⟨t, ht, hm⟩ := idx_ok_of_lt toks curr hc
        refine returns_bind_ok _ _ _ ht ?_
        by_cases hcm : t.Typ = CommaToken
        · rw [if_pos hcm]
          exact ih _ _ _ _ (by rw [if_pos rfl]; omega)
        · rw [if_neg hcm]
          by_cases hcl : t.Typ = ColonToken
          · rw [if_pos hcl]
            exact returns_parse _
          · rw [if_neg hcl]
            refine returns_bind_ok _ _ _ (Token.Text_of_inBounds t (hb t hm)) ?_
            exact ih _ _ _ _ (by simp only [Bool.false_eq_true, if_false]; omega)
    · rw [if_neg hc]
      exact returns_ok _

theorem signedResult_returns (s : Str) (neg : Bool) (un : Nat) :
    Returns (signedResult s neg un) := by
  unfold signedResult
  split_ifs <;> exact ⟨fun h => (by cases h), fun h => (by cases h)⟩

theorem ParseInt_returns (s : Str) : Returns (ParseInt s) := by
  cases s with
  | nil => exact ⟨fun h => (by cases h), fun h => (by cases h)⟩
  | cons c cs =>
    simp only [ParseInt]
    split
    · exact ⟨fun h => (by cases h), fun h => (by cases h)⟩
    · exact signedResult_returns _ _ _
    · exact signedResult_returns _ _ _

theorem parsePackageDirective_returns (ρ : RangeOrder) (cmd : Str) (args : List Str)
    (opts : Opts) : Returns (parsePackageDirective ρ cmd args opts) := by
  unfold parsePackageDirective
  by_cases h1 : args.length ≠ 1
  · rw [if_pos h1]
    exact returns_errorf _
  · rw [if_neg h1]
    obtain ⟨name, hn, _⟩ := idx_ok_of_lt args 0 (by omega)
    refine returns_bind_ok _ _ _ hn ?_
    split
    · split_ifs
      · exact returns_ok _
      · exact returns_ok _
      · exact returns_errorf _
    · simp only
      have hsplit : ∀ sep, (SplitN2 name sep).length = 2 →
          ∃ a b, SplitN2 name sep = [a, b] := by
        intro sep hlen
        unfold SplitN2 at hlen ⊢
        cases hcut : cutByte sep name with
        | none => rw [hcut] at hlen; simp at hlen
        | some p => exact ⟨p.1, p.2, rfl⟩
      split_ifs with h2 h3
      · obtain ⟨a, b, hab⟩ := hsplit _ h2
        rw [hab]
        exact returns_ok _
      · obtain ⟨a, b, hab⟩ := hsplit _ h3
        rw [hab]
        exact returns_ok _
      · exact returns_ok _

theorem parsePinDirective_returns (ρ : RangeOrder) (cmd : Str) (args : List Str)
    (opts : Opts) : Returns (parsePinDirective ρ cmd args opts) := by
  unfold parsePinDirective
  by_cases h1 : args.length ≠ 2
  · rw [if_pos h1]
    exact returns_errorf _
  · rw [if_neg h1]
    obtain ⟨a1, ha1, _⟩ := idx_ok_of_lt args 1 (by omega)
    obtain ⟨a0, ha0, _⟩ := idx_ok_of_lt args 0 (by omega)
    refine returns_bind_ok _ _ _ ha1 (returns_bind _ _ (ParseInt_returns _) fun pri _ =>
      returns_bind_ok _ _ _ ha0 ?_)
    simp only
    split
    · split_ifs
      · exact returns_ok _
      · exact returns_ok _
      · exact returns_ok _
      · exact returns_errorf _
    · exact returns_ok _

theorem parsePpaDirective_returns (cmd : Str) (args : List Str) (opts : Opts) :
    Returns (parsePpaDirective cmd args opts) := by
  unfold parsePpaDirective
  by_cases h1 : args.length ≠ 1
  · rw [if_pos h1]
    exact returns_errorf _
  · rw [if_neg h1]
    split_ifs
    · exact returns_errorf _
    · obtain ⟨a0, ha0, _⟩ := idx_ok_of_lt args 0 (by omega)
      exact returns_bind_ok _ _ _ ha0 (returns_ok _)

theorem parseDebFileDirective_returns (cmd : Str) (args : List Str) (opts : Opts) :
    Returns (parseDebFileDirective cmd args opts) := by
  unfold parseDebFileDirective
  by_cases h1 : args.length ≠ 1
  · rw [if_pos h1]
    exact returns_errorf _
  · rw [if_neg h1]
    split_ifs
    · exact returns_errorf _
    · obtain ⟨a0, ha0, _⟩ := idx_ok_of_lt args 0 (by omega)
      exact returns_bind_ok _ _ _ ha0 (returns_ok _)

theorem parseHoldDirective_returns (cmd : Str) (args : List Str) (opts : Opts) :
    Returns (parseHoldDirective cmd args opts) := by
  unfold parseHoldDirective
  by_cases h1 : args.length ≠ 1
  · rw [if_pos h1]
    exact returns_errorf _
  · rw [if_neg h1]
    split_ifs
    · exact returns_errorf _
    · obtain ⟨a0, ha0, _⟩ := idx_ok_of_lt args 0 (by omega)
      exact returns_bind_ok _ _ _ ha0 (returns_ok _)

theorem repoOptions_returns (l : List (Str × Str)) :
    ∀ dir : RepoDirective, Returns (repoOptions l dir) := by
  induction l with
  | nil => intro dir; exact returns_ok _
  | cons p l ih =>
    obtain ⟨k, v⟩ := p
    intro dir
    unfold repoOptions
    split_ifs
    · exact ih _
    · exact ih _
    · exact returns_errorf _

theorem parseRepoDirective_returns (ρ : RangeOrder) (cmd : Str) (args : List Str)
    (opts : Opts) : Returns (parseRepoDirective ρ cmd args opts) := by
  match args with
  | [] =>
    simp only [parseRepoDirective, List.length_nil, if_true]
    exact returns_errorf _
  | [a0] =>
    simp only [parseRepoDirective, idx, bind, Except.bind, pure, Except.pure,
      List.length_cons, List.length_nil, List.getElem?_cons_zero]
    simp only [Nat.reduceAdd, Nat.reduceEqDiff, if_false, ge_iff_le, Nat.reduceLeDiff]
    exact repoOptions_returns _ _
  | [a0, a1] =>
    simp only [parseRepoDirective, idx, bind, Except.bind, pure, Except.pure,
      List.length_cons, List.length_nil, List.getElem?_cons_zero, List.getElem?_cons_succ]
    simp only [Nat.reduceAdd, Nat.reduceEqDiff, if_false, ge_iff_le, Nat.reduceLeDiff,
      le_refl, if_true]
    exact repoOptions_returns _ _
  | a0 :: a1 :: a2 :: rest =>
    simp only [parseRepoDirective, idx, bind, Except.bind, pure, Except.pure,
      List.length_cons, List.getElem?_cons_zero, List.getElem?_cons_succ]
    have h2 : rest.length + 1 + 1 + 1 ≥ 2 := by omega
    have h3 : rest.length + 1 + 1 + 1 ≥ 3 := by omega
    simp only [Nat.add_one_ne_zero, if_false, h2, h3, if_true]
    exact repoOptions_returns _ _

theorem dispatch_returns (ρ : RangeOrder) (cmd : Str) (args : List Str) (opts : Opts) :
    Returns (dispatch ρ cmd args opts) := by
  unfold dispatch
  split_ifs
  · exact returns_map _ _ (parseRepoDirective_returns ρ cmd args opts)
  · exact returns_map _ _ (parsePackageDirective_returns ρ cmd args opts)
  · exact returns_map _ _ (parseDebFileDirective_returns cmd args opts)
  · exact returns_map _ _ (parsePpaDirective_returns cmd args opts)
  · exact returns_map _ _ (parsePinDirective_returns ρ cmd args opts)
  · exact returns_map _ _ (parseHoldDirective_returns cmd args opts)
  · exact returns_errorf _

theorem parseTokens_returns (ρ : RangeOrder) (lineNum : Int) (line : Str)
    (toks : List Token) (hb : ∀ t ∈ toks, t.InBounds) :
    Returns (parseTokens ρ lineNum line toks) := by
  unfold parseTokens
  by_cases h0 : toks.length = 0
  · rw [if_pos h0]
    exact ⟨fun h => (by cases h), fun h => (by cases h)⟩
  · rw [if_neg h0]
    obtain ⟨t0, ht0, hm⟩ := idx_ok_of_lt toks 0 (by omega)
    refine returns_bind_ok _ _ _ ht0 ?_
    by_cases hs : t0.Typ ≠ StringToken
    · rw [if_pos hs]
      exact returns_parse _
    · rw [if_neg hs]
      refine returns_bind_ok _ _ _ (Token.Text_of_inBounds t0 (hb t0 hm)) ?_
      refine returns_bind _ _
        (parseLoop_returns line lineNum toks hb _ _ _ _ _
          (by simp only [Bool.false_eq_true, if_false]; omega)) ?_
      intro res _
      exact dispatch_returns _ _ _ _

theorem ParseLine_returns (ρ : RangeOrder) (lineNum : Int) (line : Str) :
    Returns (ParseLine ρ lineNum line) := by
  unfold ParseLine
  rcases lexLine_total { Line := line, LineNum := lineNum, ColStart := 0, ColEnd := 0 } with
    ⟨toks, h⟩ | ⟨pe, h⟩
  · rw [h]
    exact parseTokens_returns ρ lineNum line toks
      (fun t ht => (lexLine_from _ toks h t ht).2.2.1)
  · rw [h]
    exact returns_parse _

/-! ## Claim on the totality of `ParseLine` -/

/-- C26: `ParseLine` is total and free of panics.  For every order of
iteration, line number and line, the call returns a directive,
`ErrNoDirective` or another error value: the model reaches neither a
run-time panic nor the bound of a loop.  So does `lexLine`, and every slice
`Line[ColStart:ColEnd]` that `Token.Text` takes of a token of the lexer is
within bounds. -/
theorem c26_total (ρ : RangeOrder) (lineNum : Int) (line : Str) :
    Returns (ParseLine ρ lineNum line)
      ∧ ((∃ d, ParseLine ρ lineNum line = .ok d)
          ∨ ParseLine ρ lineNum line = .error .ErrNoDirective
          ∨ (∃ pe, ParseLine ρ lineNum line = .error (.parse pe))
          ∨ (∃ m, ParseLine ρ lineNum line = .error (.errorf m))
          ∨ ∃ fn num err, ParseLine ρ lineNum line = .error (.numError fn num err))
      ∧ ((∃ toks, lexLine { Line := line, LineNum := lineNum, ColStart := 0, ColEnd := 0 }
              = .ok toks ∧ ∀ t ∈ toks, t.Text = .ok t.span)
          ∨ ∃ pe, lexLine { Line := line, LineNum := lineNum, ColStart := 0, ColEnd := 0 }
              = .error (.parse pe)) := by
  have hr := ParseLine_returns ρ lineNum line
  refine ⟨hr, ?_, ?_⟩
  · cases hres : ParseLine ρ lineNum line with
    | ok d => exact Or.inl ⟨d, rfl⟩
    | error err =>
      cases err with
      | ErrNoDirective => exact Or.inr (Or.inl rfl)
      | parse e => exact Or.inr (Or.inr (Or.inl ⟨e, rfl⟩))
      | errorf m => exact Or.inr (Or.inr (Or.inr (Or.inl ⟨m, rfl⟩)))
      | numError fn num err => exact Or.inr (Or.inr (Or.inr (Or.inr ⟨fn, num, err, rfl⟩)))
      | panic => exact absurd hres hr.1
      | diverge => exact absurd hres hr.2
  · rcases lexLine_total { Line := line, LineNum := lineNum, ColStart := 0, ColEnd := 0 } with
      ⟨toks, h⟩ | ⟨pe, h⟩
    · exact Or.inl ⟨toks, h, fun t ht =>
        Token.Text_of_inBounds t (lexLine_from _ toks h t ht).2.2.1⟩
    · exact Or.inr ⟨pe, h⟩

end Aptfile

namespace Armor

open Aptfile

/-! ## Lemmas: the loop of `armor.Parse` -/

set_option maxRecDepth 20000

theorem scanning_blanks (tail : List Str) (blanks : List Str) (st : ParseState)
    (hs : st.state = ARMOR_PARSER_STATE_HEADERLINE) (hb : ∀ x ∈ blanks, TrimSpace x = []) :
    scanning (blanks ++ tail) st = scanning tail st := by
  induction blanks with
  | nil => rfl
  | cons x blanks ih =>
    have hx : TrimSpace x = [] := hb x (List.mem_cons_self _ _)
    have hn : armorHeaderLine [] = false := by decide
    rw [List.cons_append, scanning]
    simp only [hs, hx, hn, if_true, Bool.false_eq_true, if_false]
    exact ih (fun y hy => hb y (List.mem_cons_of_mem _ hy))

theorem scanning_headerLine (tail : List Str) (h : Str) (st : ParseState)
    (hs : st.state = ARMOR_PARSER_STATE_HEADERLINE)
    (hh : armorHeaderLine (TrimSpace h) = true) :
    scanning (h :: tail) st
      = scanning tail
          { st with expectedFooterLineText :=
                      ReplaceFirst (lit "BEGIN") (lit "END") (TrimSpace h),
                    state := ARMOR_PARSER_STATE_HEADER } := by
  rw [scanning]
  simp only [hs, hh, if_true]

theorem scanning_headers (tail : List Str) (hdrs : List Str) (st : ParseState)
    (hs : st.state = ARMOR_PARSER_STATE_HEADER)
    (hh : ∀ x ∈ hdrs, armorHeader (TrimSpace x) = true) :
    scanning (hdrs ++ tail) st = scanning tail st := by
  induction hdrs with
  | nil => rfl
  | cons x hdrs ih =>
    have hx := hh x (List.mem_cons_self _ _)
    have h01 : ¬ ARMOR_PARSER_STATE_HEADER = ARMOR_PARSER_STATE_HEADERLINE := by decide
    rw [List.cons_append, scanning]
    simp only [hs, h01, hx, if_true, if_false]
    exact ih (fun y hy => hh y (List.mem_cons_of_mem _ hy))

theorem scanning_header_end (tail : List Str) (e : Str) (st : ParseState)
    (hs : st.state = ARMOR_PARSER_STATE_HEADER) (he : TrimSpace e = []) :
    scanning (e :: tail) st = scanning tail { st with state := ARMOR_PARSER_STATE_BODY } := by
  have h01 : ¬ ARMOR_PARSER_STATE_HEADER = ARMOR_PARSER_STATE_HEADERLINE := by decide
  have hn : armorHeader [] = false := by decide
  rw [scanning]
  simp only [hs, h01, he, hn, if_true, if_false, Bool.false_eq_true]

theorem scanning_body (tail : List Str) (bs : List Str) :
    ∀ (st : ParseState), st.state = ARMOR_PARSER_STATE_BODY →
      (∀ b ∈ bs, ¬ ((TrimSpace b).length = 5 ∧ (TrimSpace b).getD 0 0 = 0x3D)
        ∧ TrimSpace b ≠ st.expectedFooterLineText) →
      scanning (bs ++ tail) st
        = scanning tail
            { st with encodedKeyBuilder :=
                        st.encodedKeyBuilder ++ (bs.map TrimSpace).flatten } := by
  induction bs with
  | nil =>
    intro st _ _
    simp
  | cons b bs ih =>
    intro st hs hb
    obtain ⟨hb1, hb2⟩ := hb b (List.mem_cons_self _ _)
    have h20 : ¬ ARMOR_PARSER_STATE_BODY = ARMOR_PARSER_STATE_HEADERLINE := by decide
    have h21 : ¬ ARMOR_PARSER_STATE_BODY = ARMOR_PARSER_STATE_HEADER := by decide
    rw [List.cons_append, scanning]
    simp only [hs, h20, h21, if_false, if_true, if_neg hb1, if_neg hb2]
    have := ih { checksum := st.checksum, state := ARMOR_PARSER_STATE_BODY,
                 encodedKeyBuilder := st.encodedKeyBuilder ++ TrimSpace b,
                 expectedFooterLineText := st.expectedFooterLineText } rfl
      (fun y hy => hb y (List.mem_cons_of_mem _ hy))
    rw [this]
    simp [List.append_assoc]

theorem scanning_checksum (tail : List Str) (c d : Str) (st : ParseState)
    (hs : st.state = ARMOR_PARSER_STATE_BODY)
    (hc : (TrimSpace c).length = 5 ∧ (TrimSpace c).getD 0 0 = 0x3D)
    (hd : DecodeString (TrimLeftEq (TrimSpace c)) = (d, none)) :
    scanning (c :: tail) st
      = scanning tail
          { st with state := ARMOR_PARSER_STATE_FOOTER,
                    checksum := Uint32 0 (d.getD 0 0) (d.getD 1 0) (d.getD 2 0) } := by
  have h20 : ¬ ARMOR_PARSER_STATE_BODY = ARMOR_PARSER_STATE_HEADERLINE := by decide
  have h21 : ¬ ARMOR_PARSER_STATE_BODY = ARMOR_PARSER_STATE_HEADER := by decide
  rw [scanning]
  simp only [hs, h20, h21, if_false, if_true, if_pos hc, hd]

theorem scanning_footer (tail : List Str) (f : Str) (st : ParseState)
    (hs : st.state = ARMOR_PARSER_STATE_FOOTER)
    (hf : TrimSpace f = st.expectedFooterLineText) :
    scanning (f :: tail) st = scanning tail { st with state := ARMOR_PARSER_STATE_DONE } := by
  have h30 : ¬ ARMOR_PARSER_STATE_FOOTER = ARMOR_PARSER_STATE_HEADERLINE := by decide
  have h31 : ¬ ARMOR_PARSER_STATE_FOOTER = ARMOR_PARSER_STATE_HEADER := by decide
  have h32 : ¬ ARMOR_PARSER_STATE_FOOTER = ARMOR_PARSER_STATE_BODY := by decide
  rw [scanning]
  simp only [hs, h30, h31, h32, if_false, if_true, hf]

theorem scanning_done (rest : List Str) (st : ParseState)
    (hs : st.state = ARMOR_PARSER_STATE_DONE) : scanning rest st = .ok st := by
  have h40 : ¬ ARMOR_PARSER_STATE_DONE = ARMOR_PARSER_STATE_HEADERLINE := by decide
  have h41 : ¬ ARMOR_PARSER_STATE_DONE = ARMOR_PARSER_STATE_HEADER := by decide
  have h42 : ¬ ARMOR_PARSER_STATE_DONE = ARMOR_PARSER_STATE_BODY := by decide
  have h43 : ¬ ARMOR_PARSER_STATE_DONE = ARMOR_PARSER_STATE_FOOTER := by decide
  cases rest with
  | nil => rfl
  | cons x rest =>
    rw [scanning]
    simp only [hs, h40, h41, h42, h43, if_false]

/-- The loop of `Parse` on an input of the well-formed shape: blank lines, a
BEGIN line, headers, a blank line, body lines, a checksum line and the END
line; what follows the END line is not read. -/
theorem scanning_wellformed (blanks hdrs bs rest : List Str) (h e c f d : Str)
    (hblanks : ∀ x ∈ blanks, TrimSpace x = [])
    (hh : armorHeaderLine (TrimSpace h) = true)
    (hhdrs : ∀ x ∈ hdrs, armorHeader (TrimSpace x) = true)
    (he : TrimSpace e = [])
    (hbs : ∀ b ∈ bs, ¬ ((TrimSpace b).length = 5 ∧ (TrimSpace b).getD 0 0 = 0x3D)
      ∧ TrimSpace b ≠ ReplaceFirst (lit "BEGIN") (lit "END") (TrimSpace h))
    (hc : (TrimSpace c).length = 5 ∧ (TrimSpace c).getD 0 0 = 0x3D)
    (hd : DecodeString (TrimLeftEq (TrimSpace c)) = (d, none))
    (hf : TrimSpace f = ReplaceFirst (lit "BEGIN") (lit "END") (TrimSpace h)) :
    scanning (blanks ++ h :: (hdrs ++ e :: (bs ++ c :: f :: rest)))
        { checksum := 0, state := ARMOR_PARSER_STATE_HEADERLINE,
          encodedKeyBuilder := [], expectedFooterLineText := [] }
      = .ok { checksum := Uint32 0 (d.getD 0 0) (d.getD 1 0) (d.getD 2 0),
              state := ARMOR_PARSER_STATE_DONE,
              encodedKeyBuilder := (bs.map TrimSpace).flatten,
              expectedFooterLineText :=
                ReplaceFirst (lit "BEGIN") (lit "END") (TrimSpace h) } := by
  rw [scanning_blanks _ _ _ rfl hblanks, scanning_headerLine _ _ _ rfl hh,
    scanning_headers _ _ _ rfl hhdrs, scanning_header_end _ _ _ rfl he,
    scanning_body _ _ _ rfl hbs, scanning_checksum _ _ d _ rfl hc hd,
    scanning_footer _ _ _ rfl hf, scanning_done _ _ rfl]
  simp

/-! ## Claim on the checksum of `armor.Parse` -/

/-- C21 fails on the code when the checksum line decodes to the value 0:
`Parse` takes a checksum of 0 for an absent one and does not compare it.  The
input with the body `YWJj` (the bytes `abc`, of CRC `0xBA1C7B`) and the
checksum line `=AAAA` (the value 0) returns the body and no error, where the
claim has `ErrBadChecksum`. -/
theorem c21_zero_checksum_accepted :
    DecodeString (lit "AAAA") = ([0, 0, 0], none)
      ∧ Uint32 0 0 0 0 = 0
      ∧ DecodeString (lit "YWJj") = (lit "abc", none)
      ∧ crc24 (lit "abc") = 0xBA1C7B
      ∧ Parse [lit "-----BEGIN PGP PUBLIC KEY BLOCK-----", lit "Version: 1", lit "",
               lit "YWJj", lit "=AAAA", lit "-----END PGP PUBLIC KEY BLOCK-----"] none
          = (lit "abc", none)
      ∧ Parse [lit "-----BEGIN PGP PUBLIC KEY BLOCK-----", lit "Version: 1", lit "",
               lit "YWJj", lit "=AAAA", lit "-----END PGP PUBLIC KEY BLOCK-----"] none
          ≠ ([], some .ErrBadChecksum) := by
  decide

/-- On every other input the check is made: on an input of the well-formed
shape (blank lines, a BEGIN line `h`, header lines, a blank line, body lines,
a checksum line `c` of five characters starting with `=`, and the END line
that matches `h`), whose body decodes to `body` and whose checksum line
decodes to `d`, and the scanner reporting no error, `Parse` returns
`ErrBadChecksum` and no body bytes when the 24-bit value of `d` is not 0 and
differs from `crc24(body)`.  The lines are
taken as `strings.TrimSpace` leaves them; what follows the END line is not
read. -/
theorem Parse_checksum_mismatch (blanks hdrs bs rest : List Str) (h e c f d body : Str)
    (hblanks : ∀ x ∈ blanks, TrimSpace x = [])
    (hh : armorHeaderLine (TrimSpace h) = true)
    (hhdrs : ∀ x ∈ hdrs, armorHeader (TrimSpace x) = true)
    (he : TrimSpace e = [])
    (hbs : ∀ b ∈ bs, ¬ ((TrimSpace b).length = 5 ∧ (TrimSpace b).getD 0 0 = 0x3D)
      ∧ TrimSpace b ≠ ReplaceFirst (lit "BEGIN") (lit "END") (TrimSpace h))
    (hc : (TrimSpace c).length = 5 ∧ (TrimSpace c).getD 0 0 = 0x3D)
    (hd : DecodeString (TrimLeftEq (TrimSpace c)) = (d, none))
    (hf : TrimSpace f = ReplaceFirst (lit "BEGIN") (lit "END") (TrimSpace h))
    (hbody : DecodeString (bs.map TrimSpace).flatten = (body, none))
    (h0 : Uint32 0 (d.getD 0 0) (d.getD 1 0) (d.getD 2 0) ≠ 0)
    (hne : Uint32 0 (d.getD 0 0) (d.getD 1 0) (d.getD 2 0) ≠ crc24 body) :
    Parse (blanks ++ h :: (hdrs ++ e :: (bs ++ c :: f :: rest))) none
      = ([], some .ErrBadChecksum) := by
  unfold Parse
  rw [scanning_wellformed blanks hdrs bs rest h e c f d hblanks hh hhdrs he hbs hc hd hf]
  have h44 : ¬ ARMOR_PARSER_STATE_DONE ≠ ARMOR_PARSER_STATE_DONE := by decide
  simp only [h44, if_false, hbody, if_pos (And.intro h0 hne)]

/-- The check at an input shaped like that of `TestParseRejectsBadChecksum`:
the checksum line is `=0000`, the body is `YWJj`. -/
theorem Parse_checksum_mismatch_example :
    Parse ([lit ""] ++ lit "-----BEGIN PGP PUBLIC KEY BLOCK-----"
        :: ([lit "Version: 1"] ++ lit ""
          :: ([lit " YWJj "] ++ lit "=0000" :: lit "-----END PGP PUBLIC KEY BLOCK-----"
            :: [lit "ignored"]))) none
      = ([], some .ErrBadChecksum) :=
  Parse_checksum_mismatch [lit ""] [lit "Version: 1"] [lit " YWJj "] [lit "ignored"]
    (lit "-----BEGIN PGP PUBLIC KEY BLOCK-----") (lit "") (lit "=0000")
    (lit "-----END PGP PUBLIC KEY BLOCK-----") [211, 77, 52] (lit "abc")
    (by decide) (by decide) (by decide) (by decide) (by decide) (by decide) (by decide)
    (by decide) (by decide) (by decide) (by decide)

/-! ## Lemmas: the register of `crc24` -/

theorem and_width_ne_zero (x : Nat) : x &&& CRC24_WIDTH ≠ 0 ↔ x.testBit 24 = true := by
  have hw : CRC24_WIDTH = 2 ^ 24 := by decide
  rw [hw]
  constructor
  · intro h
    by_contra hb
    apply h
    apply Nat.eq_of_testBit_eq
    intro i
    rw [Nat.testBit_and, Nat.testBit_two_pow, Nat.zero_testBit]
    by_cases hi : 24 = i
    · subst hi
      simp at hb
      simp [hb]
    · simp [hi]
  · intro hb h
    have := congrArg (fun y => y.testBit 24) h
    simp only [Nat.testBit_and, Nat.testBit_two_pow_self, hb, Nat.zero_testBit] at this
    cases this

theorem lt_of_not_testBit (x : Nat) (hx : x < 2 ^ 25) (hb : x.testBit 24 = false) :
    x < 2 ^ 24 := by
  apply Nat.lt_pow_two_of_testBit
  intro i hi
  by_cases h24 : i = 24
  · rw [h24]; exact hb
  · exact Nat.testBit_lt_two_pow
      (Nat.lt_of_lt_of_le hx (Nat.pow_le_pow_right (by decide) (by omega)))

theorem xor_gen_lt (x : Nat) (hx : x < 2 ^ 25) (hb : x.testBit 24 = true) :
    x ^^^ CRC24_GEN < 2 ^ 24 := by
  apply Nat.lt_pow_two_of_testBit
  intro i hi
  rw [Nat.testBit_xor]
  by_cases h24 : i = 24
  · rw [h24, hb]
    decide
  · have h1 : x.testBit i = false := Nat.testBit_lt_two_pow
      (Nat.lt_of_lt_of_le hx (Nat.pow_le_pow_right (by decide) (by omega)))
    have hg : CRC24_GEN < 2 ^ 25 := by decide
    have h2 : CRC24_GEN.testBit i = false := Nat.testBit_lt_two_pow
      (Nat.lt_of_lt_of_le hg (Nat.pow_le_pow_right (by decide) (by omega)))
    rw [h1, h2]
    rfl

/-- One iteration of the inner loop on a register below `2 ^ 24`: the
`uint32` shift loses nothing, the result is that of the reference shift and
is below `2 ^ 24` again. -/
theorem crc24Bits_step (reg : Nat) (h : reg < 2 ^ 24) :
    (if (reg <<< 1) % 2 ^ 32 &&& CRC24_WIDTH ≠ 0 then (reg <<< 1) % 2 ^ 32 ^^^ CRC24_GEN
      else (reg <<< 1) % 2 ^ 32) = refShift reg
      ∧ refShift reg < 2 ^ 24 := by
  have h1 : (reg <<< 1) % 2 ^ 32 = 2 * reg := by
    rw [Nat.shiftLeft_eq, Nat.mod_eq_of_lt (by omega)]
    omega
  have h25 : 2 * reg < 2 ^ 25 := by omega
  rw [h1]
  unfold refShift
  by_cases hb : (2 * reg).testBit 24 = true
  · rw [if_pos ((and_width_ne_zero _).2 hb), if_pos hb]
    exact ⟨rfl, xor_gen_lt _ h25 hb⟩
  · rw [if_neg (fun hc => hb ((and_width_ne_zero _).1 hc)), if_neg hb]
    exact ⟨rfl, lt_of_not_testBit _ h25 (by simpa using hb)⟩

theorem crc24Bits_spec (n : Nat) :
    ∀ reg, reg < 2 ^ 24 → crc24Bits n reg = refShift^[n] reg ∧ crc24Bits n reg < 2 ^ 24 := by
  induction n with
  | zero => intro reg h; exact ⟨rfl, h⟩
  | succ n ih =>
    intro reg h
    obtain ⟨h1, h2⟩ := crc24Bits_step reg h
    rw [crc24Bits]
    simp only [Function.iterate_succ, Function.comp_apply]
    rw [h1]
    exact ih _ h2

theorem crc24Loop_spec (data : Str) :
    ∀ reg, reg < 2 ^ 24 → (∀ b ∈ data, b < 256) →
      crc24Loop data reg = data.foldl (fun reg b => refShift^[8] (reg ^^^ (b * 2 ^ 16))) reg
        ∧ crc24Loop data reg < 2 ^ 24 := by
  induction data with
  | nil => intro reg h _; exact ⟨rfl, h⟩
  | cons b data ih =>
    intro reg h hb
    have hb1 : b < 256 := hb b (List.mem_cons_self _ _)
    have h1 : (b <<< 16) % 2 ^ 32 = b * 2 ^ 16 := by
      rw [Nat.shiftLeft_eq, Nat.mod_eq_of_lt (by omega)]
    have h2 : reg ^^^ (b * 2 ^ 16) < 2 ^ 24 := Nat.xor_lt_two_pow h (by omega)
    obtain ⟨h3, h4⟩ := crc24Bits_spec 8 _ h2
    rw [crc24Loop, List.foldl_cons, h1, h3]
    rw [h3] at h4
    exact ih _ h4 (fun x hx => hb x (List.mem_cons_of_mem _ hx))

/-! ## Claim on `crc24` -/

/-- C22: `crc24` computes the OpenPGP CRC-24.  For every sequence of bytes the
result is below `2 ^ 24` and is the value of the reference 24-bit register
computation; the register of the code stays below `2 ^ 24` between the bytes,
so no `uint32` operation loses a bit and the final mask changes nothing.  The
CRC of the empty sequence is `0xB704CE`, that of `123456789` is `0x21CF02`. -/
theorem c22_crc24 (data : Str) (h : ∀ b ∈ data, b < 256) :
    crc24 data < 2 ^ 24
      ∧ crc24 data = crc24Ref data
      ∧ crc24Loop data CRC24_INIT = crc24Ref data
      ∧ crc24 [] = 0xB704CE
      ∧ crc24 (lit "123456789") = 0x21CF02 := by
  obtain ⟨h1, h2⟩ := crc24Loop_spec data CRC24_INIT (by decide) h
  have hm : CRC24_MASK = 2 ^ 24 - 1 := by decide
  have h3 : crc24 data = crc24Ref data := by
    unfold crc24
    rw [hm, Nat.and_pow_two_sub_one_eq_mod, Nat.mod_eq_of_lt h2, h1]
    rfl
  refine ⟨?_, h3, ?_, rfl, rfl⟩
  · unfold crc24
    rw [hm, Nat.and_pow_two_sub_one_eq_mod]
    exact Nat.mod_lt _ (by decide)
  · rw [h1]
    rfl

/-- C22, at the bytes of `abc`. -/
theorem c22_crc24_witness :
    crc24 (lit "abc") = 0xBA1C7B ∧ crc24Ref (lit "abc") = 0xBA1C7B :=
  have h := c22_crc24 (lit "abc") (by decide)
  ⟨rfl, h.2.1 ▸ (rfl : crc24 (lit "abc") = 0xBA1C7B)⟩

end Armor

namespace Main

open Aptfile

/-! ## Lemmas: `sanitizeFilename` -/

theorem okFileChar_lt (c : Nat) (h : okFileChar c = true) : c < 0x80 := by
  simp only [okFileChar, Bool.or_eq_true, Bool.and_eq_true, decide_eq_true_eq] at h
  omega

/-- The loop over the runes computes what the loop over the bytes does: a
rune of several bytes, and an invalid byte, holds no byte of the class. -/
theorem replaceRuns_runesAux (s : Str) :
    ∀ (i k : Nat) (f : Bool), (∀ j < k, 0x80 ≤ s.getD j 0) → (0 < k → f = true) →
      replaceRuns (runesAux s i k) f = collapse s f := by
  induction s with
  | nil => intro i k f _ _; rfl
  | cons b s ih =>
    intro i k f hk hf
    cases k with
    | zero =>
      rw [runesAux_cons_zero, replaceRuns, collapse]
      by_cases hb : b < 0x80
      · rw [decodeRune_ascii b s hb]
        simp only [Nat.sub_self]
        have e := ih (i + 1) 0
        split_ifs
        · rw [e false (fun _ hj => absurd hj (Nat.not_lt_zero _)) (fun h => absurd h (by decide))]
        · rw [e true (fun _ hj => absurd hj (Nat.not_lt_zero _)) (fun _ => rfl)]
        · rw [e true (fun _ hj => absurd hj (Nat.not_lt_zero _)) (fun _ => rfl)]
      · have h1 : okFileChar (decodeRune (b :: s)).1 = false := by
          by_contra hc
          have := okFileChar_lt _ (by simpa using hc)
          have := decodeRune_fst_ge b s hb
          omega
        have h2 : okFileChar b = false := by
          by_contra hc
          exact hb (okFileChar_lt _ (by simpa using hc))
        have e := ih (i + 1) ((decodeRune (b :: s)).2 - 1) true
          (fun j hj => decodeRune_cont b s j hj) (fun _ => rfl)
        simp only [h1, h2, Bool.false_eq_true, if_false]
        rw [e]
    | succ k =>
      have hb : 0x80 ≤ b := by
        have := hk 0 (by omega)
        simpa using this
      have h2 : okFileChar b = false := by
        by_contra hc
        have := okFileChar_lt _ (by simpa using hc)
        omega
      have hft : f = true := hf (by omega)
      rw [runesAux_cons_succ, collapse, hft]
      simp only [h2, Bool.false_eq_true, if_false, if_true]
      exact ih (i + 1) k true
        (fun j hj => by
          have := hk (j + 1) (by omega)
          simpa using this)
        (fun _ => rfl)

theorem ReplaceAllString_eq (s : Str) : ReplaceAllString s = collapse s false :=
  replaceRuns_runesAux s 0 0 false (fun _ hj => absurd hj (Nat.not_lt_zero _))
    (fun h => absurd h (by decide))

theorem collapse_ok (s : Str) (h : ∀ c ∈ s, okFileChar c = true) :
    ∀ f, collapse s f = s := by
  induction s with
  | nil => intro f; rfl
  | cons c s ih =>
    intro f
    rw [collapse, if_pos (h c (List.mem_cons_self _ _)),
      ih (fun x hx => h x (List.mem_cons_of_mem _ hx))]

theorem collapse_bad_true (m : Str) (h : ∀ c ∈ m, okFileChar c = false) (b : Str) :
    collapse (m ++ b) true = collapse b true := by
  induction m with
  | nil => rfl
  | cons c m ih =>
    have hc := h c (List.mem_cons_self _ _)
    rw [List.cons_append, collapse]
    simp only [hc, Bool.false_eq_true, if_false, if_true]
    exact ih (fun x hx => h x (List.mem_cons_of_mem _ hx))

theorem collapse_bad (m : Str) (hne : m ≠ []) (h : ∀ c ∈ m, okFileChar c = false)
    (b : Str) : collapse (m ++ b) false = 0x5F :: collapse b true := by
  cases m with
  | nil => exact absurd rfl hne
  | cons c m =>
    have hc := h c (List.mem_cons_self _ _)
    rw [List.cons_append, collapse]
    simp only [hc, Bool.false_eq_true, if_false]
    rw [collapse_bad_true m (fun x hx => h x (List.mem_cons_of_mem _ hx))]

theorem collapse_flag (b : Str) (h : b = [] ∨ ∃ x b1, b = x :: b1 ∧ okFileChar x = true) :
    collapse b true = collapse b false := by
  rcases h with h | ⟨x, b1, h, hx⟩
  · rw [h]; rfl
  · rw [h, collapse, collapse, if_pos hx, if_pos hx]

theorem collapse_append (a : Str) :
    ∀ (f : Bool) (rest : Str), (a = [] ∨ ∃ a1 x, a = a1 ++ [x] ∧ okFileChar x = true) →
      collapse (a ++ rest) f = collapse a f ++ collapse rest (if a = [] then f else false) := by
  induction a with
  | nil => intro f rest _; rfl
  | cons c a ih =>
    intro f rest h
    have hend : a = [] ∨ ∃ a1 x, a = a1 ++ [x] ∧ okFileChar x = true := by
      rcases h with h | ⟨a1, x, h, hx⟩
      · cases h
      · cases a1 with
        | nil =>
          left
          simp only [List.nil_append, List.cons.injEq] at h
          exact h.2
        | cons y a1 =>
          right
          simp only [List.cons_append, List.cons.injEq] at h
          exact ⟨a1, x, h.2, hx⟩
    have hlast : a = [] → okFileChar c = true := by
      intro ha
      rcases h with h | ⟨a1, x, h, hx⟩
      · cases h
      · rw [ha] at h
        cases a1 with
        | nil =>
          simp only [List.nil_append, List.cons.injEq] at h
          rw [h.1]; exact hx
        | cons y a1 =>
          simp only [List.cons_append, List.cons.injEq] at h
          have := congrArg List.length h.2
          simp at this
    have hne : ¬ (c :: a = []) := by simp
    rw [List.cons_append, collapse, collapse, if_neg hne]
    by_cases ha : a = []
    · have hc := hlast ha
      subst ha
      simp only [hc, if_true, List.nil_append, collapse, List.cons_append]
    · have e1 := ih false rest hend
      have e2 := ih true rest hend
      rw [if_neg ha] at e1 e2
      split_ifs
      · rw [e1]; rfl
      · rw [e2]
      · rw [e2]; rfl

theorem collapse_chars (s : Str) : ∀ f, ∀ c ∈ collapse s f, okFileChar c = true := by
  induction s with
  | nil => intro f c hc; simp [collapse] at hc
  | cons x s ih =>
    intro f c hc
    rw [collapse] at hc
    split_ifs at hc with h1 h2
    · rcases List.mem_cons.1 hc with h | h
      · rw [h]; exact h1
      · exact ih _ c h
    · exact ih _ c hc
    · rcases List.mem_cons.1 hc with h | h
      · rw [h]; decide
      · exact ih _ c h

theorem collapse_all_bad (s : Str) (h : ∀ c ∈ s, okFileChar c = false) :
    ∀ f, ∀ c ∈ collapse s f, c = 0x5F := by
  induction s with
  | nil => intro f c hc; simp [collapse] at hc
  | cons x s ih =>
    intro f c hc
    have hx := h x (List.mem_cons_self _ _)
    have ih1 := ih (fun y hy => h y (List.mem_cons_of_mem _ hy))
    rw [collapse] at hc
    simp only [hx, Bool.false_eq_true, if_false] at hc
    split_ifs at hc
    · exact ih1 _ c hc
    · rcases List.mem_cons.1 hc with h1 | h1
      · exact h1
      · exact ih1 _ c h1

theorem Trim_sublist (s : Str) : ∀ c ∈ Trim s, c ∈ s := by
  intro c hc
  unfold Trim at hc
  exact (List.dropWhile_sublist _).subset ((List.rdropWhile_prefix _ _).subset hc)

theorem Trim_head (s : Str) : (Trim s).head? ≠ some 0x5F := by
  unfold Trim
  intro h
  have hp := List.rdropWhile_prefix (fun c => decide (c = 0x5F))
    (s.dropWhile (fun c => decide (c = 0x5F)))
  obtain ⟨t, ht⟩ := hp
  cases hr : List.rdropWhile (fun c => decide (c = 0x5F))
      (s.dropWhile (fun c => decide (c = 0x5F))) with
  | nil => rw [hr] at h; cases h
  | cons x r =>
    rw [hr] at h ht
    simp only [List.head?_cons, Option.some.injEq] at h
    have hd : (s.dropWhile (fun c => decide (c = 0x5F))).head? = some x := by
      rw [← ht]; rfl
    have := List.head?_dropWhile_not (fun c => decide (c = 0x5F)) s
    rw [hd] at this
    simp only [h, decide_True] at this
    cases this

theorem Trim_all_underscore (s : Str) (h : ∀ c ∈ s, c = 0x5F) : Trim s = [] := by
  unfold Trim
  have : s.dropWhile (fun c => decide (c = 0x5F)) = [] := by
    rw [List.dropWhile_eq_nil_iff]
    intro c hc
    simp [h c hc]
  rw [this]
  rfl

theorem ToLower_ascii (U : Str → Str) (s : Str) (h : ∀ c ∈ s, c < 0x80) :
    ToLower U s = s.map asciiLower := by
  unfold ToLower
  have h1 : s.all (fun c => decide (c < 0x80)) = true := by
    rw [List.all_eq_true]
    intro c hc
    simp [h c hc]
  rw [if_pos h1]
  split_ifs with h2
  · rfl
  · have h3 : ∀ c ∈ s, ¬ (0x41 ≤ c ∧ c ≤ 0x5A) := by
      intro c hc hcc
      apply h2
      rw [List.any_eq_true]
      exact ⟨c, hc, by simpa using hcc⟩
    symm
    calc s.map asciiLower = s.map id := by
          apply List.map_congr_left
          intro c hc
          simp only [asciiLower, if_neg (h3 c hc), id]
      _ = s := List.map_id s

theorem asciiLower_name (c : Nat) (h : okFileChar c = true) :
    isNameChar (asciiLower c) = true := by
  simp only [okFileChar, Bool.or_eq_true, Bool.and_eq_true, decide_eq_true_eq] at h
  unfold asciiLower isNameChar
  simp only [Bool.or_eq_true, Bool.and_eq_true, decide_eq_true_eq]
  split_ifs <;> omega

theorem asciiLower_underscore (c : Nat) (h : asciiLower c = 0x5F) : c = 0x5F := by
  unfold asciiLower at h
  split_ifs at h <;> omega

/-- The result of `sanitizeFilename` through the steps of the pipeline. -/
theorem sanitizeFilename_eq (U : Str → Str) (s : Str) :
    sanitizeFilename U s = ((Trim (collapse s false)).take 50).map asciiLower := by
  unfold sanitizeFilename
  simp only
  rw [ReplaceAllString_eq]
  have hcut : (if (Trim (collapse s false)).length > 50
      then (Trim (collapse s false)).take 50 else Trim (collapse s false))
      = (Trim (collapse s false)).take 50 := by
    split_ifs with h
    · rfl
    · rw [List.take_of_length_le (by omega)]
  rw [hcut]
  apply ToLower_ascii
  intro c hc
  exact okFileChar_lt c
    (collapse_chars s false c (Trim_sublist _ c (List.mem_of_mem_take hc)))

/-! ## Claim on `sanitizeFilename` -/

/-- C25: for every input string, `sanitizeFilename` returns a string of at
most 50 bytes that consists only of `a`-`z`, `0`-`9`, `-` and `_` and does not
begin with `_`.  It is the lower-case form of the first 50 bytes of the input
with every maximal run of characters outside `[a-zA-Z0-9_-]` replaced by one
`_` and the underscores at both ends trimmed: a text of characters of the
class is unchanged by the replacement, and a run `m` of other bytes between a
text `a` that is empty or ends with a character of the class and a text `b`
that is empty or starts with one gives one `_` between the replacements of
`a` and of `b`.  The empty string and a string of characters outside the
class give the empty string. -/
theorem c25_sanitizeFilename (U : Str → Str) (s : Str) :
    (sanitizeFilename U s).length ≤ 50
      ∧ (∀ c ∈ sanitizeFilename U s, isNameChar c = true)
      ∧ (sanitizeFilename U s).head? ≠ some 0x5F
      ∧ sanitizeFilename U s = ((Trim (ReplaceAllString s)).take 50).map asciiLower
      ∧ ((∀ c ∈ s, okFileChar c = true) → ReplaceAllString s = s)
      ∧ (∀ a m b : Str, s = a ++ m ++ b → m ≠ [] → (∀ c ∈ m, okFileChar c = false) →
          (a = [] ∨ ∃ a1 x, a = a1 ++ [x] ∧ okFileChar x = true) →
          (b = [] ∨ ∃ x b1, b = x :: b1 ∧ okFileChar x = true) →
          ReplaceAllString s = ReplaceAllString a ++ lit "_" ++ ReplaceAllString b)
      ∧ sanitizeFilename U [] = []
      ∧ ((∀ c ∈ s, okFileChar c = false) → sanitizeFilename U s = []) := by
  have heq := sanitizeFilename_eq U s
  refine ⟨?_, ?_, ?_, ?_, ?_, ?_, ?_, ?_⟩
  · rw [heq, List.length_map, List.length_take]
    omega
  · intro c hc
    rw [heq, List.mem_map] at hc
    obtain ⟨x, hx, hxc⟩ := hc
    rw [← hxc]
    exact asciiLower_name x
      (collapse_chars s false x (Trim_sublist _ x (List.mem_of_mem_take hx)))
  · rw [heq]
    intro h
    have hh := Trim_head (collapse s false)
    cases ht : Trim (collapse s false) with
    | nil => rw [ht] at h; cases h
    | cons x r =>
      rw [ht] at h hh
      simp only [List.take_succ_cons, List.map_cons, List.head?_cons,
        Option.some.injEq] at h hh
      exact hh (by rw [asciiLower_underscore x h])
  · rw [heq, ReplaceAllString_eq]
  · intro h
    rw [ReplaceAllString_eq, collapse_ok s h]
  · intro a m b hs hm hbad ha hb
    have : (if a = [] then false else false) = false := by split_ifs <;> rfl
    rw [ReplaceAllString_eq, ReplaceAllString_eq, ReplaceAllString_eq, hs, List.append_assoc,
      collapse_append a false (m ++ b) ha, this, collapse_bad m hm hbad b,
      collapse_flag b hb]
    simp [lit]
  · rw [sanitizeFilename_eq]
    rfl
  · intro h
    rw [heq, Trim_all_underscore _ (collapse_all_bad s h false)]
    rfl

/-- C25, at the input `https://Example.com/repo?` of `TestSanitizeFilename`,
with a capital letter and a trailing run added: the run `://` between `https`
and `Example.com/repo?` gives one `_`. -/
theorem c25_sanitizeFilename_witness :
    sanitizeFilename id (lit "https://Example.com/repo?") = lit "https_example_com_repo"
      ∧ ReplaceAllString (lit "https://Example.com/repo?")
        = ReplaceAllString (lit "https") ++ lit "_" ++ ReplaceAllString (lit "Example.com/repo?")
      ∧ ReplaceAllString (lit "https") = lit "https" :=
  have h := c25_sanitizeFilename id (lit "https://Example.com/repo?")
  ⟨by decide,
   h.2.2.2.2.2.1 (lit "https") (lit "://") (lit "Example.com/repo?") (by decide) (by decide)
     (by decide) (Or.inr ⟨lit "http", 0x73, by decide, by decide⟩)
     (Or.inr ⟨0x45, lit "xample.com/repo?", by decide, by decide⟩),
   (c25_sanitizeFilename id (lit "https")).2.2.2.2.1 (by decide)⟩

end Main
